import Mathlib

/-!
Verification of the graph algorithm suite (directed matrix graph, undirected
adjacency-list graph, grid maze solver) against its natural-language
specification.  Python code is shallowly embedded: machine integers become
`Int`, `None`-able arguments become `Option`, dictionaries become association
lists or index-keyed lists, raised exceptions become an explicit `PyRes.exn`
value, and unbounded loops take an explicit fuel argument (returning `none`
when the fuel runs out, which mirrors non-termination / recursion-limit
failures of the source).
-/

/-- Result of a Python call: a normal return value or a raised exception. -/
inductive PyRes (α : Type) where
  | ok (val : α)
  | exn (msg : String)
deriving DecidableEq, Repr

namespace DG

/-- Matrix-backed weighted directed graph, from `directed_graph_search_algos.py`:
`v_count` vertices named `0..v_count-1`, `adj_matrix` a square matrix where the
entry at row `src`, column `dst` is the edge weight and `0` means no edge. -/
structure DirectedGraph where
  v_count : Nat
  adj_matrix : List (List Int)
deriving DecidableEq, Repr

/-- The state built by `DirectedGraph.__init__` before any edges are added. -/
def emptyDirected : DirectedGraph := ⟨0, []⟩

/-- Reading `self.adj_matrix[i][j]` at in-range indices (0 when out of range;
all verified accesses are in range for well-formed graphs). -/
def matGet (g : DirectedGraph) (i j : Nat) : Int :=
  (g.adj_matrix.getD i []).getD j 0

/-- `add_vertex`: append a row of zeros for the new vertex, bump the count,
then append a `0` column entry to every row. -/
def add_vertex (g : DirectedGraph) : DirectedGraph :=
  { v_count := g.v_count + 1
    adj_matrix := (g.adj_matrix ++ [List.replicate g.v_count 0]).map (fun row => row ++ [0]) }

/-- `add_edge`: silently ignore out-of-range endpoints, self-loops and negative
weights, otherwise overwrite the matrix cell with the weight. -/
def add_edge (g : DirectedGraph) (src dst weight : Int) : DirectedGraph :=
  if ¬(0 ≤ src ∧ src < (g.v_count : Int)) ∨ ¬(0 ≤ dst ∧ dst < (g.v_count : Int)) then g
  else if src = dst then g
  else if weight < 0 then g
  else { g with adj_matrix :=
    g.adj_matrix.set src.toNat ((g.adj_matrix.getD src.toNat []).set dst.toNat weight) }

/-- `remove_edge`: silently ignore invalid input, otherwise reset the cell to 0. -/
def remove_edge (g : DirectedGraph) (src dst : Int) : DirectedGraph :=
  if ¬(0 ≤ src ∧ src < (g.v_count : Int)) ∨ ¬(0 ≤ dst ∧ dst < (g.v_count : Int)) then g
  else if src = dst then g
  else { g with adj_matrix :=
    g.adj_matrix.set src.toNat ((g.adj_matrix.getD src.toNat []).set dst.toNat 0) }

/-- `DirectedGraph.__init__(start_edges)`: infer the vertex count as the
maximum mentioned id plus one (at least one vertex), then `add_edge` each triple. -/
def initDirectedGraph (start_edges : List (Int × Int × Int)) : DirectedGraph :=
  let vmax : Int := start_edges.foldl (fun acc e => max acc (max e.1 e.2.1)) 0
  let g0 : DirectedGraph :=
    (List.range (vmax.toNat + 1)).foldl (fun g _ => add_vertex g) emptyDirected
  start_edges.foldl (fun g e => add_edge g e.1 e.2.1 e.2.2) g0

/-- `get_vertices`: the list `[0, ..., v_count-1]` of Python ints. -/
def get_vertices (g : DirectedGraph) : List Int :=
  (List.range g.v_count).map (fun (i : Nat) => (i : Int))

/-- Python list indexing `l[i]`: negative indices count from the end, and an
index out of range raises `IndexError` (modelled as `none`). -/
def pyGet {α : Type} (l : List α) (i : Int) : Option α :=
  if 0 ≤ i then l.get? i.toNat
  else if (-i).toNat ≤ l.length then l.get? (l.length - (-i).toNat)
  else none

/-- The consecutive-pair checking loop of `is_valid_path` (the `for i in
range(2, size)` loop plus the final check): each consecutive pair must have a
nonzero matrix entry; indexing a bad vertex raises `IndexError`. -/
def ivpLoop (g : DirectedGraph) : Int → Int → List Int → PyRes Bool
  | src, dst, rest =>
    match pyGet g.adj_matrix src with
    | none => PyRes.exn "IndexError"
    | some row =>
      match pyGet row dst with
      | none => PyRes.exn "IndexError"
      | some w =>
        if w = 0 then PyRes.ok false
        else
          match rest with
          | [] => PyRes.ok true
          | r :: rs => ivpLoop g dst r rs

/-- `is_valid_path`: empty path is valid; a single vertex is valid iff
`path[0] < self.v_count` (note: only the upper bound is checked); otherwise
every consecutive pair must have a nonzero-weight directed edge. -/
def is_valid_path (g : DirectedGraph) (path : List Int) : PyRes Bool :=
  match path with
  | [] => PyRes.ok true
  | [x] => if x < (g.v_count : Int) then PyRes.ok true else PyRes.ok false
  | src :: dst :: rest => ivpLoop g src dst rest

/-- Python truthiness test `v_end in visited` for an int `v_end` against the
list of visited vertex ids. -/
def endFound (visited : List Nat) (e : Int) : Bool :=
  visited.any (fun x => decide ((x : Int) = e))

/-- The visit bookkeeping at the top of `rec_dfs`: with a truthy `v_end`
(a nonzero int) append `v` while `v_end` is unvisited; with `v_end is None`
always append; with the falsy `v_end == 0` neither branch runs. -/
def dfsVisit (visited : List Nat) (v : Nat) (v_end : Option Int) : List Nat :=
  match v_end with
  | none => visited ++ [v]
  | some e =>
    if e ≠ 0 then (if ¬ endFound visited e then visited ++ [v] else visited)
    else visited

/-- The loop guard `if v_end and v_end in visited: break` of `rec_dfs`. -/
def endBreak (v_end : Option Int) (visited : List Nat) : Bool :=
  match v_end with
  | some e => decide (e ≠ 0) && endFound visited e
  | none => false

/-- The neighbour loop of `rec_dfs`: scan columns in ascending order, break
once a truthy `v_end` is visited, recurse (via `step`) on each nonzero-weight
unvisited neighbour. -/
def dfsScan (g : DirectedGraph) (step : List Nat → Nat → Option (List Nat)) (v : Nat)
    (v_end : Option Int) : List Nat → List Nat → Option (List Nat)
  | visited, [] => some visited
  | visited, adj :: rest =>
    if endBreak v_end visited then some visited
    else if matGet g v adj ≠ 0 ∧ adj ∉ visited then
      match step visited adj with
      | none => none
      | some vis2 => dfsScan g step v v_end vis2 rest
    else dfsScan g step v v_end visited rest

/-- `rec_dfs` of `DirectedGraph.dfs` with fuel bounding the recursion depth
(`none` models the interpreter recursion limit). -/
def recDfs (g : DirectedGraph) : Nat → List Nat → Nat → Option Int → Option (List Nat)
  | 0, _, _, _ => none
  | fuel + 1, visited, v, v_end =>
    dfsScan g (fun vis w => recDfs g fuel vis w v_end) v v_end
      (dfsVisit visited v v_end)
      (List.range (g.adj_matrix.getD v []).length)

/-- `DirectedGraph.dfs(v_start, v_end)`: empty result for an absent start,
otherwise the recursive search.  Depth `v_count + 1` suffices for every
terminating run of the source (each recursive call visits a new vertex). -/
def dfs (g : DirectedGraph) (v_start : Int) (v_end : Option Int) : Option (List Nat) :=
  if ¬ (v_start ∈ get_vertices g) then some []
  else recDfs g (g.v_count + 1) [] v_start.toNat v_end

/-- The dequeue test `vertex == v_end` of `bfs` (never true for `None`). -/
def bfsEnd (v : Nat) (v_end : Option Int) : Bool :=
  match v_end with
  | some e => decide ((v : Int) = e)
  | none => false

/-- The queue loop of `DirectedGraph.bfs`, with fuel for the loop count. -/
def bfsLoop (g : DirectedGraph) : Nat → List Nat → List Nat → Option Int → Option (List Nat)
  | 0, _, _, _ => none
  | fuel + 1, visited, queue, v_end =>
    match queue with
    | [] => some visited
    | vertex :: rest =>
      let vis1 := if vertex ∈ visited then visited else visited ++ [vertex]
      if bfsEnd vertex v_end then some vis1
      else
        bfsLoop g fuel vis1
          (rest ++ (List.range (g.adj_matrix.getD vertex []).length).filter
            (fun dst => decide (matGet g vertex dst ≠ 0) && decide (dst ∉ vis1)))
          v_end

/-- `DirectedGraph.bfs(v_start, v_end)`: empty result for an absent start,
otherwise the level-order traversal (a generous fuel covers every run). -/
def bfs (g : DirectedGraph) (v_start : Int) (v_end : Option Int) : Option (List Nat) :=
  if ¬ (v_start ∈ get_vertices g) then some []
  else bfsLoop g ((g.v_count + 2) ^ (g.v_count + 2)) [] [v_start.toNat] v_end

/-- The lexicographic order `[priority, task] <= [priority2, task2]` under
which `heapq` pops the smallest entry. -/
def lexLeEntry (a b : Int × Int) : Bool :=
  decide (a.1 < b.1) || (decide (a.1 = b.1) && decide (a.2 ≤ b.2))

/-- `pop_task`: remove and return the heap's least entry (priority first,
vertex id as tie-break), or fail on an empty queue. -/
def popMin : List (Int × Int) → Option ((Int × Int) × List (Int × Int))
  | [] => none
  | e :: rest =>
    let m := (e :: rest).foldl (fun a b => if lexLeEntry a b then a else b) e
    some (m, (e :: rest).erase m)

/-- The comparison `int(distance) < visited[vertex]` against a possibly
infinite stored distance (`none` is `float('inf')`). -/
def ltInf (d : Int) : Option Int → Bool
  | none => true
  | some x => decide (d < x)

/-- The `while len(pq) > 0` loop of `dijkstra`.  `visited` is the dict
`{0: d0, ..., n-1: d(n-1)}` as a list (`none` = infinity); popping a task
outside `0..n-1` raises `KeyError`.  On a finalisation every outgoing edge is
relaxed by pushing `(distance + weight, column)`. -/
def dijkstraLoop (g : DirectedGraph) :
    Nat → List (Option Int) → List (Int × Int) → Option (PyRes (List (Option Int)))
  | 0, visited, pq => if pq.isEmpty then some (PyRes.ok visited) else none
  | fuel + 1, visited, pq =>
    match popMin pq with
    | none => some (PyRes.ok visited)
    | some ((distance, task), rest) =>
      if 0 ≤ task ∧ task < (visited.length : Int) then
        let vertex := task.toNat
        if ltInf distance (visited.getD vertex none) then
          dijkstraLoop g fuel (visited.set vertex (some distance))
            (rest ++ ((List.range (g.adj_matrix.getD vertex []).length).filter
                (fun c => decide (matGet g vertex c ≠ 0))).map
              (fun c => (distance + matGet g vertex c, (c : Int))))
        else dijkstraLoop g fuel visited rest
      else some (PyRes.exn "KeyError")

/-- `DirectedGraph.dijkstra(src)`: start from all-infinite distances and the
single queue entry `(0, src)`; the fuel `(v_count+1)*v_count + 2` dominates the
loop count of every run of the source on nonnegative weights. -/
def dijkstra (g : DirectedGraph) (src : Int) : Option (PyRes (List (Option Int))) :=
  dijkstraLoop g ((g.v_count + 1) * g.v_count + 2) (List.replicate g.v_count none) [(0, src)]

end DG
/-- Vertex labels of the undirected graphs: Python strings, modelled as their
lists of characters so that the lexicographic comparisons used by `list.sort()`
are computable ones. -/
abbrev Label := List Char

namespace UG

/-- Adjacency-list undirected graph, from `undirected_graph_search_algos.py`
(shared data model with `ud_graph.py`): a Python dict from string labels to
neighbour lists, modelled as an insertion-ordered association list. -/
structure UndirectedGraph where
  adj_list : List (Label × List Label)
deriving DecidableEq, Repr

/-- The state built by `UndirectedGraph.__init__` before any edges are added. -/
def emptyUndirected : UndirectedGraph := ⟨[]⟩

/-- The dict keys, in insertion order (`[*self.adj_list]` / `get_vertices`). -/
def keyList (g : UndirectedGraph) : List Label :=
  g.adj_list.map Prod.fst

/-- Reading `self.adj_list[v]` (empty when `v` is absent; all verified accesses
guard on membership first). -/
def adjOf (g : UndirectedGraph) (v : Label) : List Label :=
  (g.adj_list.lookup v).getD []

/-- Pointwise update of the neighbour list stored at key `k`. -/
def updateA (m : List (Label × List Label)) (k : Label) (f : List Label → List Label) :
    List (Label × List Label) :=
  m.map (fun e => if e.1 = k then (e.1, f e.2) else e)

/-- `add_vertex(v)`: no-op when present, else insert `v` with an empty list. -/
def add_vertex (g : UndirectedGraph) (v : Label) : UndirectedGraph :=
  if v ∈ keyList g then g else ⟨g.adj_list ++ [(v, [])]⟩

/-- `add_edge(u, v)`: no-op on a self-loop; create missing endpoints; append
each endpoint to the other's list when not already present. -/
def add_edge (g : UndirectedGraph) (u v : Label) : UndirectedGraph :=
  if u = v then g
  else
    let g2 := add_vertex (add_vertex g u) v
    let g3 := if u ∈ adjOf g2 v then g2 else ⟨updateA g2.adj_list v (fun l => l ++ [u])⟩
    if v ∈ adjOf g3 u then g3 else ⟨updateA g3.adj_list u (fun l => l ++ [v])⟩

/-- `remove_edge(v, u)`: no-op on a self-loop; remove each endpoint from the
other's list when both the key and the occurrence exist. -/
def remove_edge (g : UndirectedGraph) (v u : Label) : UndirectedGraph :=
  if u = v then g
  else
    let g1 := if u ∈ keyList g ∧ v ∈ adjOf g u then
      (⟨updateA g.adj_list u (fun l => l.erase v)⟩ : UndirectedGraph) else g
    if v ∈ keyList g1 ∧ u ∈ adjOf g1 v then
      ⟨updateA g1.adj_list v (fun l => l.erase u)⟩ else g1

/-- `remove_vertex(v)`: pop the key and delete `v` from every former
neighbour's list. -/
def remove_vertex (g : UndirectedGraph) (v : Label) : UndirectedGraph :=
  if v ∈ keyList g then
    let edges := adjOf g v
    let g1 : UndirectedGraph := ⟨g.adj_list.filter (fun e => decide (e.1 ≠ v))⟩
    edges.foldl (fun gg e => ⟨updateA gg.adj_list e (fun l => l.erase v)⟩) g1
  else g

/-- `UndirectedGraph.__init__(start_edges)`: `add_edge` each pair in order. -/
def initUndirectedGraph (start_edges : List (Label × Label)) : UndirectedGraph :=
  start_edges.foldl (fun g e => add_edge g e.1 e.2) emptyUndirected

/-- The scanning loop of the undirected `is_valid_path`: an absent vertex
returns `False` immediately, a non-adjacent consecutive pair clears the result
flag but keeps scanning. -/
def ivpU (g : UndirectedGraph) : Bool → List Label → Bool
  | acc, [] => acc
  | acc, [_] => acc
  | acc, a :: b :: rest =>
    if ¬ (a ∈ keyList g) then false
    else if ¬ (b ∈ adjOf g a) then ivpU g false (b :: rest)
    else ivpU g acc (b :: rest)

/-- Undirected `is_valid_path`: empty path valid; single vertex valid iff it
is a dict key; longer paths via the scanning loop. -/
def is_valid_path (g : UndirectedGraph) (path : List Label) : Bool :=
  match path with
  | [] => true
  | [x] => decide (x ∈ keyList g)
  | l => ivpU g true l

/-- Python's in-place `list.sort()` on string labels: ascending lexicographic. -/
def sortS (l : List Label) : List Label :=
  List.insertionSort (fun a b => a ≤ b) l

/-- The visit bookkeeping of the undirected `rec_dfs`: a truthy `v_end`
(a nonempty string) appends `v` while `v_end` is unvisited, `None` always
appends, and the falsy `v_end == ''` appends nothing. -/
def dfsVisitU (visited : List Label) (v : Label) (v_end : Option Label) : List Label :=
  match v_end with
  | none => visited ++ [v]
  | some e =>
    if e ≠ [] then (if ¬ (e ∈ visited) then visited ++ [v] else visited)
    else visited

/-- The loop guard `if v_end and v_end in visited: break`. -/
def endBreakU (v_end : Option Label) (visited : List Label) : Bool :=
  match v_end with
  | some e => decide (e ≠ []) && decide (e ∈ visited)
  | none => false

/-- The neighbour loop of the undirected `rec_dfs`: scan the sorted adjacency
list, break once a truthy `v_end` is visited, recurse on unvisited neighbours. -/
def dfsScanU (step : List Label → Label → Option (List Label))
    (v_end : Option Label) : List Label → List Label → Option (List Label)
  | visited, [] => some visited
  | visited, adj :: rest =>
    if endBreakU v_end visited then some visited
    else if adj ∉ visited then
      match step visited adj with
      | none => none
      | some vis2 => dfsScanU step v_end vis2 rest
    else dfsScanU step v_end visited rest

/-- `rec_dfs` of the undirected recursive `dfs`, fuel bounding recursion depth. -/
def recDfsU (g : UndirectedGraph) :
    Nat → List Label → Label → Option Label → Option (List Label)
  | 0, _, _, _ => none
  | fuel + 1, visited, v, v_end =>
    dfsScanU (fun vis w => recDfsU g fuel vis w v_end) v_end
      (dfsVisitU visited v v_end) (sortS (adjOf g v))

/-- Undirected recursive `dfs(v_start, v_end)`: empty result for an absent
start; depth `|keys| + 1` suffices for every terminating run of the source. -/
def dfs (g : UndirectedGraph) (v_start : Label) (v_end : Option Label) :
    Option (List Label) :=
  if ¬ (v_start ∈ keyList g) then some []
  else recDfsU g ((keyList g).length + 1) [] v_start v_end

/-- The `while len(vertices) > 0` loop of `count_connected_components`:
an isolated head vertex counts alone, otherwise its whole dfs set is removed
and counted once. -/
def cccLoop (g : UndirectedGraph) : Nat → List Label → Nat → Option Nat
  | 0, vertices, count => if vertices.isEmpty then some count else none
  | fuel + 1, vertices, count =>
    match vertices with
    | [] => some count
    | vertex :: _ =>
      if (adjOf g vertex).isEmpty then cccLoop g fuel (vertices.erase vertex) (count + 1)
      else
        match dfs g vertex none with
        | none => none
        | some connection =>
          cccLoop g fuel (connection.foldl (fun vs c => vs.erase c) vertices) (count + 1)

/-- `count_connected_components` of `undirected_graph_search_algos.py`. -/
def count_connected_components (g : UndirectedGraph) : Option Nat :=
  cccLoop g ((keyList g).length + 1) (keyList g) 0

end UG

namespace UDG

/-- The find-first-unvisited-neighbour scan plus push/pop step of the
explicit-stack `dfs` of `ud_graph.py`.  The stack keeps its top at the head
(`next_vertex.append`/`next_vertex.pop()` work at the same end). -/
def iterDfsLoop (g : UG.UndirectedGraph) :
    Nat → List Label → List Label → Label → Option Label → Option (List Label)
  | 0, _, _, _, _ => none
  | fuel + 1, result, stack, vertex, v_end =>
    match stack with
    | [] => some result
    | top :: below =>
      let result1 := if vertex ∈ result then result else result ++ [vertex]
      if (match v_end with | some e => decide (vertex = e) | none => false) then some result1
      else
        match (UG.sortS (UG.adjOf g vertex)).find? (fun e => !(decide (e ∈ result1))) with
        | some e => iterDfsLoop g fuel result1 (vertex :: top :: below) e v_end
        | none => iterDfsLoop g fuel result1 below top v_end

/-- Iterative `dfs(v_start, v_end)` of `ud_graph.py`: empty result for an
absent start; the loop makes at most one push or pop per iteration, so
`2*|keys| + 4` fuel covers every run. -/
def dfs (g : UG.UndirectedGraph) (v_start : Label) (v_end : Option Label) :
    Option (List Label) :=
  if ¬ (v_start ∈ UG.keyList g) then some []
  else iterDfsLoop g (2 * (UG.keyList g).length + 4) [] [v_start] v_start v_end

/-- One iteration body of `cycle_dfs` in `ud_graph.py`'s `has_cycle`: the walk
appends unvisited vertices, and on meeting a visited vertex other than by
backtracking compares it against the last two appended vertices (the negative
indexing `result[-1]`/`result[-2]` is modelled with `vertex` as the fallback for
an index out of range, which no run reaches). -/
def cycleDfsLoop (g : UG.UndirectedGraph) :
    Nat → Bool → Bool → List Label → List Label → Label → Option (Bool × List Label)
  | 0, _, _, _, _, _ => none
  | fuel + 1, cycle, backtrack, result, stack, vertex =>
    match stack with
    | [] => some (cycle, result)
    | top :: below =>
      let appended := vertex ∉ result
      let result1 := if vertex ∈ result then result else result ++ [vertex]
      let cycle1 :=
        if appended then cycle
        else if ¬ backtrack then
          (if vertex ≠ (DG.pyGet result (-1)).getD vertex ∧
              vertex ≠ (DG.pyGet result (-2)).getD vertex then true else cycle)
        else cycle
      match (UG.sortS (UG.adjOf g vertex)).find? (fun e => !(decide (e ∈ result1))) with
      | some e => cycleDfsLoop g fuel cycle1 false result1 (vertex :: top :: below) e
      | none => cycleDfsLoop g fuel cycle1 true result1 below top

/-- `cycle_dfs(v_start)` of `ud_graph.py`'s `has_cycle`. -/
def cycleDfs (g : UG.UndirectedGraph) (v_start : Label) : Option (Bool × List Label) :=
  if ¬ (v_start ∈ UG.keyList g) then some (false, [])
  else cycleDfsLoop g (2 * (UG.keyList g).length + 4) false false [] [v_start] v_start

/-- The outer `while len(vertices) > 0` loop of `ud_graph.py`'s `has_cycle`. -/
def hasCycleLoop (g : UG.UndirectedGraph) : Nat → Bool → List Label → Option Bool
  | 0, cycle, vertices => if vertices.isEmpty then some cycle else none
  | fuel + 1, cycle, vertices =>
    match vertices with
    | [] => some cycle
    | vertex :: _ =>
      if (UG.adjOf g vertex).isEmpty then hasCycleLoop g fuel cycle (vertices.erase vertex)
      else
        match cycleDfs g vertex with
        | none => none
        | some (contains, connection) =>
          hasCycleLoop g fuel (cycle || contains)
            (connection.foldl (fun vs c => vs.erase c) vertices)

/-- `has_cycle()` of `ud_graph.py`. -/
def has_cycle (g : UG.UndirectedGraph) : Option Bool :=
  hasCycleLoop g ((UG.keyList g).length + 1) false (UG.keyList g)

/-- The component-counting loop of `ud_graph.py` (identical to the other file
except that it calls the iterative `dfs`). -/
def cccLoopI (g : UG.UndirectedGraph) : Nat → List Label → Nat → Option Nat
  | 0, vertices, count => if vertices.isEmpty then some count else none
  | fuel + 1, vertices, count =>
    match vertices with
    | [] => some count
    | vertex :: _ =>
      if (UG.adjOf g vertex).isEmpty then cccLoopI g fuel (vertices.erase vertex) (count + 1)
      else
        match dfs g vertex none with
        | none => none
        | some connection =>
          cccLoopI g fuel (connection.foldl (fun vs c => vs.erase c) vertices) (count + 1)

/-- `count_connected_components()` of `ud_graph.py`. -/
def count_connected_components (g : UG.UndirectedGraph) : Option Nat :=
  cccLoopI g ((UG.keyList g).length + 1) (UG.keyList g) 0

end UDG
section Fixtures

/-- The regression fixture graph of the spec: edges
`(0,1,10),(4,0,12),(1,4,15),(4,3,3),(3,1,5),(2,1,23),(3,2,7)`. -/
def gFix : DG.DirectedGraph :=
  DG.initDirectedGraph [(0,1,10),(4,0,12),(1,4,15),(4,3,3),(3,1,5),(2,1,23),(3,2,7)]

/-- A two-vertex directed graph with the single edge `1 → 0` of weight 5. -/
def gEdge10 : DG.DirectedGraph := DG.initDirectedGraph [(1,0,5)]

/-- A directed graph with exactly one vertex and no edges. -/
def gOneV : DG.DirectedGraph := DG.add_vertex DG.emptyDirected

/-- The undirected triangle `A-B`, `B-C`, `C-A`. -/
def gTri : UG.UndirectedGraph :=
  UG.add_edge (UG.add_edge (UG.add_edge UG.emptyUndirected ['A'] ['B']) ['B'] ['C']) ['C'] ['A']

end Fixtures

theorem DG.mem_get_vertices {g : DG.DirectedGraph} {s : Int} :
    s ∈ DG.get_vertices g ↔ 0 ≤ s ∧ s < (g.v_count : Int) := by
  simp only [DG.get_vertices, List.mem_map, List.mem_range]
  constructor
  · rintro ⟨i, hi, rfl⟩
    constructor
    · exact Int.natCast_nonneg i
    · exact_mod_cast hi
  · rintro ⟨h0, hn⟩
    refine ⟨s.toNat, ?_, Int.toNat_of_nonneg h0⟩
    exact (Int.toNat_lt h0).mpr hn

/-- C1 (counterexample): on the fixture graph, `dijkstra(4)` computes
`[12, 8, 10, 3, 0]`, so the distance at vertex 1 is 8, not the claimed 22. -/
theorem c1_counterexample :
    DG.dijkstra gFix 4 = some (PyRes.ok [some 12, some 8, some 10, some 3, some 0]) ∧
    ([some 12, some 8, some 10, some 3, some 0].getD 1 none ≠ some (22 : Int)) := by
  constructor
  · decide
  · decide

/-- C1 (amended): on the fixture graph, `dijkstra(4)` yields distance 0 at
vertex 4, distance 12 at vertex 0, and distance 8 at vertex 1. -/
theorem c1_dijkstra_fixture :
    ∃ l, DG.dijkstra gFix 4 = some (PyRes.ok l) ∧
      l.getD 4 none = some 0 ∧ l.getD 0 none = some 12 ∧ l.getD 1 none = some 8 :=
  ⟨[some 12, some 8, some 10, some 3, some 0], by decide, by decide, by decide, by decide⟩

/-- C3 (code bug): the triangle `A-B-C-A` is a genuine cycle (three distinct
mutually adjacent vertices), yet `has_cycle()` of `ud_graph.py` returns
`False`: its `cycle = True` branch requires meeting an already-visited vertex
while not backtracking, which the walk never does. -/
theorem c3_has_cycle_failing_input :
    UDG.has_cycle gTri = some false ∧
    ['B'] ∈ UG.adjOf gTri ['A'] ∧ ['C'] ∈ UG.adjOf gTri ['B'] ∧ ['A'] ∈ UG.adjOf gTri ['C'] ∧
    ['A'] ≠ ['B'] ∧ ['B'] ≠ ['C'] ∧ ['A'] ≠ ['C'] := by
  refine ⟨by decide, by decide, by decide, by decide, by decide, by decide, by decide⟩

/-- C4 (counterexample): on the fixture graph (vertices 0..4) the absent start
5 makes `dijkstra` raise `KeyError` instead of returning an empty result. -/
theorem c4_counterexample :
    DG.dijkstra gFix 5 = some (PyRes.exn "KeyError") ∧ (5 : Int) ∉ DG.get_vertices gFix := by
  constructor
  · decide
  · decide

/-- C4 (amended): for every graph state and start argument that is not a
current vertex, `dfs` and `bfs` return an empty list and raise nothing, while
`dijkstra` always raises `KeyError` (the first queue pop looks the absent
start up in the distance dict). -/
theorem c4_absent_start_queries (g : DG.DirectedGraph) (s : Int) (e : Option Int)
    (h : s ∉ DG.get_vertices g) :
    DG.dfs g s e = some [] ∧ DG.bfs g s e = some [] ∧
    DG.dijkstra g s = some (PyRes.exn "KeyError") := by
  refine ⟨by simp [DG.dfs, h], by simp [DG.bfs, h], ?_⟩
  have hb : ¬ (0 ≤ s ∧ s < (g.v_count : Int)) := by
    rw [DG.mem_get_vertices] at h
    exact h
  show DG.dijkstraLoop g (((g.v_count + 1) * g.v_count + 1) + 1) _ _ = _
  rw [DG.dijkstraLoop]
  have hpop : DG.popMin [((0 : Int), s)] = some ((0, s), []) := by
    simp [DG.popMin, DG.lexLeEntry]
  rw [hpop]
  simp only [List.length_replicate]
  rw [if_neg hb]

theorem c4_absent_start_witness :
    (5 : Int) ∉ DG.get_vertices gFix ∧ DG.dijkstra gFix 5 = some (PyRes.exn "KeyError") :=
  ⟨by decide, (c4_absent_start_queries gFix 5 none (by decide)).2.2⟩

/-- C5 (code bug): on the graph with the single edge `1 → 0`, the full
traversal `dfs(1)` is `[1, 0]`, but `dfs(1, 0)` returns `[]` instead of the
truncated-at-end `[1, 0]`: the guard `if v_end:` treats the end vertex 0 as
absent, so nothing is ever appended. -/
theorem c5_dfs_end_zero_failing_input :
    DG.dfs gEdge10 1 none = some [1, 0] ∧ DG.dfs gEdge10 1 (some 0) = some [] := by
  constructor
  · decide
  · decide

/-- C6 (counterexample): on a one-vertex directed graph, `is_valid_path([-1])`
returns `True` although `-1` is not a vertex: only `path[0] < v_count` is
checked, never the lower bound. -/
theorem c6_counterexample :
    DG.is_valid_path gOneV [(-1 : Int)] = PyRes.ok true ∧
    (-1 : Int) ∉ DG.get_vertices gOneV := by
  constructor
  · decide
  · decide

/-- C6 (amended): for both representations `is_valid_path([])` is `True`;
`is_valid_path([x])` is `True` for the directed graph iff `x < v_count` (so
negative arguments are accepted), and for the undirected graph iff `x` is a
current vertex. -/
theorem c6_single_vertex_paths (g : DG.DirectedGraph) (u : UG.UndirectedGraph)
    (x : Int) (y : Label) :
    DG.is_valid_path g [] = PyRes.ok true ∧
    (DG.is_valid_path g [x] = PyRes.ok true ↔ x < (g.v_count : Int)) ∧
    UG.is_valid_path u [] = true ∧
    (UG.is_valid_path u [y] = true ↔ y ∈ UG.keyList u) := by
  refine ⟨rfl, ?_, rfl, ?_⟩
  · simp only [DG.is_valid_path]
    split_ifs with h
    · simp [h]
    · simp [h]
  · simp [UG.is_valid_path]

namespace UG

theorem lookup_cons_eq (j k : Label) (b : List Label) (m : List (Label × List Label)) :
    ((k, b) :: m).lookup j = if j = k then some b else m.lookup j := by
  rw [List.lookup_cons]
  by_cases h : j = k
  · subst h
    simp
  · have hb : (j == k) = false := beq_eq_false_iff_ne.mpr h
    rw [hb, if_neg h]

theorem lookup_eq_none_of_not_mem {j : Label} {m : List (Label × List Label)}
    (h : j ∉ m.map Prod.fst) : m.lookup j = none := by
  induction m with
  | nil => rfl
  | cons e t ih =>
    obtain ⟨a, b⟩ := e
    rw [lookup_cons_eq]
    simp only [List.map_cons, List.mem_cons] at h
    push_neg at h
    rw [if_neg h.1]
    exact ih h.2

theorem lookup_isSome_of_mem {j : Label} {m : List (Label × List Label)}
    (h : j ∈ m.map Prod.fst) : ∃ b, m.lookup j = some b := by
  induction m with
  | nil => simp at h
  | cons e t ih =>
    obtain ⟨a, b⟩ := e
    rw [lookup_cons_eq]
    by_cases hj : j = a
    · exact ⟨b, if_pos hj⟩
    · simp only [List.map_cons, List.mem_cons] at h
      rcases h with h | h
      · exact absurd h hj
      · rw [if_neg hj]
        exact ih h

theorem mem_of_lookup_eq_some {j : Label} {b : List Label} {m : List (Label × List Label)}
    (h : m.lookup j = some b) : (j, b) ∈ m := by
  induction m with
  | nil => simp [List.lookup] at h
  | cons e t ih =>
    obtain ⟨a, c⟩ := e
    rw [lookup_cons_eq] at h
    by_cases hj : j = a
    · rw [if_pos hj] at h
      cases h
      subst hj
      exact List.mem_cons_self _ _
    · rw [if_neg hj] at h
      exact List.mem_cons_of_mem _ (ih h)

theorem mem_keyList_of_lookup {j : Label} {b : List Label} {m : List (Label × List Label)}
    (h : m.lookup j = some b) : j ∈ m.map Prod.fst :=
  List.mem_map.mpr ⟨(j, b), mem_of_lookup_eq_some h, rfl⟩

theorem keyList_updateA (m : List (Label × List Label)) (k : Label)
    (f : List Label → List Label) : (updateA m k f).map Prod.fst = m.map Prod.fst := by
  rw [updateA, List.map_map]
  congr 1
  funext e
  by_cases h : e.1 = k <;> simp [h]

theorem lookup_updateA (m : List (Label × List Label)) (k : Label)
    (f : List Label → List Label) (j : Label) :
    (updateA m k f).lookup j = if j = k then (m.lookup j).map f else m.lookup j := by
  induction m with
  | nil => simp [updateA]
  | cons e t ih =>
    obtain ⟨a, b⟩ := e
    show (((if a = k then (a, f b) else (a, b)) :: updateA t k f).lookup j) = _
    by_cases hak : a = k
    · rw [if_pos hak]
      rw [lookup_cons_eq, lookup_cons_eq]
      by_cases hja : j = a
      · subst hja
        subst hak
        simp
      · rw [if_neg hja, if_neg hja]
        exact ih
    · rw [if_neg hak]
      rw [lookup_cons_eq, lookup_cons_eq]
      by_cases hja : j = a
      · subst hja
        simp [hak]
      · rw [if_neg hja, if_neg hja]
        exact ih

theorem lookup_append_single (m : List (Label × List Label)) (v : Label) (b : List Label)
    (j : Label) :
    (m ++ [(v, b)]).lookup j =
      match m.lookup j with
      | some x => some x
      | none => if j = v then some b else none := by
  induction m with
  | nil => simp [lookup_cons_eq]
  | cons e t ih =>
    obtain ⟨a, c⟩ := e
    rw [List.cons_append, lookup_cons_eq, lookup_cons_eq]
    by_cases hja : j = a
    · rw [if_pos hja, if_pos hja]
    · rw [if_neg hja, if_neg hja]
      exact ih

theorem lookup_filter_ne {m : List (Label × List Label)} {v j : Label} (h : j ≠ v) :
    (m.filter (fun e => decide (e.1 ≠ v))).lookup j = m.lookup j := by
  induction m with
  | nil => rfl
  | cons e t ih =>
    obtain ⟨a, b⟩ := e
    by_cases hav : a = v
    · subst hav
      rw [List.filter_cons_of_neg (by simp)]
      rw [lookup_cons_eq, if_neg h]
      exact ih
    · rw [List.filter_cons_of_pos (by simp [hav])]
      rw [lookup_cons_eq, lookup_cons_eq]
      by_cases hja : j = a
      · rw [if_pos hja, if_pos hja]
      · rw [if_neg hja, if_neg hja]
        exact ih

theorem lookup_filter_self {m : List (Label × List Label)} {v : Label} :
    (m.filter (fun e => decide (e.1 ≠ v))).lookup v = none := by
  apply lookup_eq_none_of_not_mem
  intro hmem
  rcases List.mem_map.mp hmem with ⟨e, he, hfst⟩
  rcases List.mem_filter.mp he with ⟨_, hne⟩
  simp at hne
  exact hne (hfst ▸ rfl)

/-- Membership in `adjOf` unpacked through the dict lookup. -/
theorem mem_adjOf_iff {g : UndirectedGraph} {u v : Label} :
    u ∈ adjOf g v ↔ ∃ b, g.adj_list.lookup v = some b ∧ u ∈ b := by
  unfold adjOf
  cases h : g.adj_list.lookup v with
  | none => simp
  | some b => simp

/-- Well-formedness invariant of the adjacency dict maintained by the four
mutators: keys unique, neighbour lists duplicate-free, neighbours are keys,
no self-loops, and adjacency is symmetric. -/
structure WF (g : UndirectedGraph) : Prop where
  nodupKeys : (keyList g).Nodup
  nodupVals : ∀ j b, g.adj_list.lookup j = some b → b.Nodup
  closed : ∀ j b, g.adj_list.lookup j = some b → ∀ x ∈ b, x ∈ keyList g
  irrefl : ∀ j b, g.adj_list.lookup j = some b → j ∉ b
  symm : ∀ u v, u ∈ adjOf g v → v ∈ adjOf g u

theorem wf_empty : WF emptyUndirected := by
  refine ⟨List.nodup_nil, ?_, ?_, ?_, ?_⟩
  · intro j b hj
    cases hj
  · intro j b hj
    cases hj
  · intro j b hj
    cases hj
  · intro u v h
    simp [adjOf, emptyUndirected] at h

theorem lookup_add_vertex_of_not_mem {g : UndirectedGraph} {v : Label}
    (hv : v ∉ keyList g) (j : Label) :
    (add_vertex g v).adj_list.lookup j =
      match g.adj_list.lookup j with
      | some x => some x
      | none => if j = v then some [] else none := by
  unfold add_vertex
  rw [if_neg hv]
  exact lookup_append_single _ _ _ _

theorem adjOf_add_vertex (g : UndirectedGraph) (v j : Label) :
    adjOf (add_vertex g v) j = adjOf g j := by
  by_cases hv : v ∈ keyList g
  · unfold add_vertex
    rw [if_pos hv]
  · unfold adjOf
    rw [lookup_add_vertex_of_not_mem hv]
    cases h : g.adj_list.lookup j with
    | some b => rfl
    | none =>
      by_cases hj : j = v
      · rw [if_pos hj]
        rfl
      · rw [if_neg hj]

theorem mem_keyList_add_vertex {g : UndirectedGraph} {v j : Label} :
    j ∈ keyList (add_vertex g v) ↔ j ∈ keyList g ∨ j = v := by
  unfold add_vertex
  split
  · next hv =>
    constructor
    · exact fun h => Or.inl h
    · rintro (h | rfl)
      · exact h
      · exact hv
  · show j ∈ (g.adj_list ++ [(v, [])]).map Prod.fst ↔ _
    rw [List.map_append]
    simp [keyList]

theorem wf_add_vertex {g : UndirectedGraph} (h : WF g) (v : Label) : WF (add_vertex g v) := by
  by_cases hv : v ∈ keyList g
  · unfold add_vertex
    rw [if_pos hv]
    exact h
  · refine ⟨?_, ?_, ?_, ?_, ?_⟩
    · show ((add_vertex g v).adj_list.map Prod.fst).Nodup
      unfold add_vertex
      rw [if_neg hv, List.map_append]
      rw [List.nodup_append]
      refine ⟨h.nodupKeys, List.nodup_singleton v, ?_⟩
      intro a ha hb
      simp only [List.map_cons, List.map_nil, List.mem_singleton] at hb
      subst hb
      exact hv ha
    · intro j b hj
      rw [lookup_add_vertex_of_not_mem hv] at hj
      cases hl : g.adj_list.lookup j with
      | some c =>
        rw [hl] at hj
        cases hj
        exact h.nodupVals j _ hl
      | none =>
        rw [hl] at hj
        by_cases hjv : j = v
        · rw [if_pos hjv] at hj
          cases hj
          exact List.nodup_nil
        · rw [if_neg hjv] at hj
          cases hj
    · intro j b hj x hx
      rw [lookup_add_vertex_of_not_mem hv] at hj
      have hxg : x ∈ keyList g := by
        cases hl : g.adj_list.lookup j with
        | some c =>
          rw [hl] at hj
          cases hj
          exact h.closed j _ hl x hx
        | none =>
          rw [hl] at hj
          by_cases hjv : j = v
          · rw [if_pos hjv] at hj
            cases hj
            simp at hx
          · rw [if_neg hjv] at hj
            cases hj
      exact mem_keyList_add_vertex.mpr (Or.inl hxg)
    · intro j b hj
      rw [lookup_add_vertex_of_not_mem hv] at hj
      cases hl : g.adj_list.lookup j with
      | some c =>
        rw [hl] at hj
        cases hj
        exact h.irrefl j _ hl
      | none =>
        rw [hl] at hj
        by_cases hjv : j = v
        · rw [if_pos hjv] at hj
          cases hj
          simp
        · rw [if_neg hjv] at hj
          cases hj
    · intro a c hac
      rw [adjOf_add_vertex] at hac
      rw [adjOf_add_vertex]
      exact h.symm a c hac

end UG

namespace UG

theorem mem_keyList_of_adj {g : UndirectedGraph} {x j : Label} (h : x ∈ adjOf g j) :
    j ∈ keyList g := by
  rcases mem_adjOf_iff.mp h with ⟨b, hb, _⟩
  exact mem_keyList_of_lookup hb

theorem adjOf_eq_of_lookup {g : UndirectedGraph} {j : Label} {b : List Label}
    (h : g.adj_list.lookup j = some b) : adjOf g j = b := by
  unfold adjOf
  rw [h]
  rfl

theorem adjOf_updateA_ne {g : UndirectedGraph} {k j : Label} (h : j ≠ k)
    (f : List Label → List Label) :
    adjOf ⟨updateA g.adj_list k f⟩ j = adjOf g j := by
  show ((updateA g.adj_list k f).lookup j).getD [] = _
  rw [lookup_updateA, if_neg h]
  rfl

/-- Appending each endpoint to the other's neighbour list (the real work of
`add_edge` on a graph already containing both endpoints, neither adjacent to
the other) preserves well-formedness. -/
theorem wf_double_append {g2 : UndirectedGraph} (h2 : WF g2) {u v : Label} (huv : ¬ u = v)
    (hu : u ∈ keyList g2) (hv : v ∈ keyList g2)
    (hmv : u ∉ adjOf g2 v) (hmu : v ∉ adjOf g2 u) :
    WF ⟨updateA (updateA g2.adj_list v (fun l => l ++ [u])) u (fun l => l ++ [v])⟩ := by
  obtain ⟨lu, hlu⟩ := lookup_isSome_of_mem hu
  obtain ⟨lv, hlv⟩ := lookup_isSome_of_mem hv
  have hadju : adjOf g2 u = lu := adjOf_eq_of_lookup hlu
  have hadjv : adjOf g2 v = lv := adjOf_eq_of_lookup hlv
  have hvlu : v ∉ lu := hadju ▸ hmu
  have hulv : u ∉ lv := hadjv ▸ hmv
  have hulu : u ∉ lu := hadju ▸ h2.irrefl u lu hlu
  have hvlv : v ∉ lv := hadjv ▸ h2.irrefl v lv hlv
  have hlook : ∀ j, (updateA (updateA g2.adj_list v (fun l => l ++ [u])) u
      (fun l => l ++ [v])).lookup j =
      if j = u then some (lu ++ [v]) else if j = v then some (lv ++ [u])
      else g2.adj_list.lookup j := by
    intro j
    rw [lookup_updateA, lookup_updateA]
    by_cases hju : j = u
    · subst hju
      rw [if_pos rfl, if_pos rfl, if_neg huv, hlu]
      rfl
    · rw [if_neg hju, if_neg hju]
      by_cases hjv : j = v
      · subst hjv
        rw [if_pos rfl, if_pos rfl, hlv]
        rfl
      · rw [if_neg hjv, if_neg hjv]
  have hadj : ∀ j, adjOf ⟨updateA (updateA g2.adj_list v (fun l => l ++ [u])) u
      (fun l => l ++ [v])⟩ j =
      if j = u then lu ++ [v] else if j = v then lv ++ [u] else adjOf g2 j := by
    intro j
    show ((updateA (updateA g2.adj_list v (fun l => l ++ [u])) u
      (fun l => l ++ [v])).lookup j).getD [] = _
    rw [hlook j]
    by_cases hju : j = u
    · rw [if_pos hju, if_pos hju]
      rfl
    · rw [if_neg hju, if_neg hju]
      by_cases hjv : j = v
      · rw [if_pos hjv, if_pos hjv]
        rfl
      · rw [if_neg hjv, if_neg hjv]
        rfl
  refine ⟨?_, ?_, ?_, ?_, ?_⟩
  · show ((updateA (updateA g2.adj_list v (fun l => l ++ [u])) u
      (fun l => l ++ [v])).map Prod.fst).Nodup
    rw [keyList_updateA, keyList_updateA]
    exact h2.nodupKeys
  · intro j b hj
    rw [hlook j] at hj
    by_cases hju : j = u
    · rw [if_pos hju] at hj
      cases hj
      rw [List.nodup_append]
      exact ⟨h2.nodupVals u lu hlu, List.nodup_singleton v, by
        intro a ha hb
        rw [List.mem_singleton] at hb
        subst hb
        exact hvlu ha⟩
    · rw [if_neg hju] at hj
      by_cases hjv : j = v
      · rw [if_pos hjv] at hj
        cases hj
        rw [List.nodup_append]
        exact ⟨h2.nodupVals v lv hlv, List.nodup_singleton u, by
          intro a ha hb
          rw [List.mem_singleton] at hb
          subst hb
          exact hulv ha⟩
      · rw [if_neg hjv] at hj
        exact h2.nodupVals j b hj
  · intro j b hj x hx
    rw [hlook j] at hj
    show x ∈ (updateA (updateA g2.adj_list v (fun l => l ++ [u])) u
      (fun l => l ++ [v])).map Prod.fst
    rw [keyList_updateA, keyList_updateA]
    by_cases hju : j = u
    · rw [if_pos hju] at hj
      cases hj
      rcases List.mem_append.mp hx with hx | hx
      · exact h2.closed u lu hlu x hx
      · rw [List.mem_singleton] at hx
        subst hx
        exact hv
    · rw [if_neg hju] at hj
      by_cases hjv : j = v
      · rw [if_pos hjv] at hj
        cases hj
        rcases List.mem_append.mp hx with hx | hx
        · exact h2.closed v lv hlv x hx
        · rw [List.mem_singleton] at hx
          subst hx
          exact hu
      · rw [if_neg hjv] at hj
        exact h2.closed j b hj x hx
  · intro j b hj
    rw [hlook j] at hj
    by_cases hju : j = u
    · rw [if_pos hju] at hj
      cases hj
      subst hju
      intro hc
      rcases List.mem_append.mp hc with hc | hc
      · exact hulu hc
      · rw [List.mem_singleton] at hc
        exact huv hc
    · rw [if_neg hju] at hj
      by_cases hjv : j = v
      · rw [if_pos hjv] at hj
        cases hj
        subst hjv
        intro hc
        rcases List.mem_append.mp hc with hc | hc
        · exact hvlv hc
        · rw [List.mem_singleton] at hc
          exact huv hc.symm
      · rw [if_neg hjv] at hj
        exact h2.irrefl j b hj
  · intro a c hac
    rw [hadj] at hac
    rw [hadj]
    by_cases hcu : c = u
    · rw [if_pos hcu] at hac
      rw [hcu]
      rcases List.mem_append.mp hac with ha | ha
      · have hold : u ∈ adjOf g2 a := h2.symm a u (by rw [hadju]; exact ha)
        have hau : ¬ a = u := fun hh => hulu (hh ▸ ha)
        have hav : ¬ a = v := fun hh => hvlu (hh ▸ ha)
        rw [if_neg hau, if_neg hav]
        exact hold
      · rw [List.mem_singleton] at ha
        rw [if_neg (fun hh => huv (hh.symm.trans ha)), if_pos ha]
        exact List.mem_append_right _ (List.mem_singleton.mpr rfl)
    · rw [if_neg hcu] at hac
      by_cases hcv : c = v
      · rw [if_pos hcv] at hac
        rw [hcv]
        rcases List.mem_append.mp hac with ha | ha
        · have hold : v ∈ adjOf g2 a := h2.symm a v (by rw [hadjv]; exact ha)
          have hau : ¬ a = u := fun hh => hulv (hh ▸ ha)
          have hav : ¬ a = v := fun hh => hvlv (hh ▸ ha)
          rw [if_neg hau, if_neg hav]
          exact hold
        · rw [List.mem_singleton] at ha
          rw [if_pos ha]
          exact List.mem_append_right _ (List.mem_singleton.mpr rfl)
      · rw [if_neg hcv] at hac
        have hold : c ∈ adjOf g2 a := h2.symm a c hac
        by_cases hau : a = u
        · rw [if_pos hau]
          refine List.mem_append_left _ ?_
          rw [← hadju, ← hau]
          exact hold
        · rw [if_neg hau]
          by_cases hav : a = v
          · rw [if_pos hav]
            refine List.mem_append_left _ ?_
            rw [← hadjv, ← hav]
            exact hold
          · rw [if_neg hav]
            exact hold

theorem wf_add_edge {g : UndirectedGraph} (h : WF g) (u v : Label) :
    WF (add_edge g u v) := by
  by_cases huv : u = v
  · unfold add_edge
    rw [if_pos huv]
    exact h
  · have h2 : WF (add_vertex (add_vertex g u) v) := wf_add_vertex (wf_add_vertex h u) v
    have hu2 : u ∈ keyList (add_vertex (add_vertex g u) v) :=
      mem_keyList_add_vertex.mpr (Or.inl (mem_keyList_add_vertex.mpr (Or.inr rfl)))
    have hv2 : v ∈ keyList (add_vertex (add_vertex g u) v) :=
      mem_keyList_add_vertex.mpr (Or.inr rfl)
    have hstep : add_edge g u v =
        (if v ∈ adjOf (if u ∈ adjOf (add_vertex (add_vertex g u) v) v
              then add_vertex (add_vertex g u) v
              else ⟨updateA (add_vertex (add_vertex g u) v).adj_list v (fun l => l ++ [u])⟩) u
         then (if u ∈ adjOf (add_vertex (add_vertex g u) v) v
              then add_vertex (add_vertex g u) v
              else ⟨updateA (add_vertex (add_vertex g u) v).adj_list v (fun l => l ++ [u])⟩)
         else ⟨updateA (if u ∈ adjOf (add_vertex (add_vertex g u) v) v
              then add_vertex (add_vertex g u) v
              else ⟨updateA (add_vertex (add_vertex g u) v).adj_list v
                (fun l => l ++ [u])⟩).adj_list u (fun l => l ++ [v])⟩) := by
      unfold add_edge
      rw [if_neg huv]
    rw [hstep]
    by_cases hm : u ∈ adjOf (add_vertex (add_vertex g u) v) v
    · simp only [if_pos hm]
      have hm2 : v ∈ adjOf (add_vertex (add_vertex g u) v) u := h2.symm u v hm
      rw [if_pos hm2]
      exact h2
    · simp only [if_neg hm]
      have hg3u : adjOf ⟨updateA (add_vertex (add_vertex g u) v).adj_list v
          (fun l => l ++ [u])⟩ u = adjOf (add_vertex (add_vertex g u) v) u :=
        adjOf_updateA_ne huv _
      have hm2 : v ∉ adjOf (add_vertex (add_vertex g u) v) u := fun hc => hm (h2.symm v u hc)
      rw [hg3u, if_neg hm2]
      exact wf_double_append h2 huv hu2 hv2 hm hm2

end UG

namespace UG

theorem keyList_mk_updateA (g : UndirectedGraph) (k : Label) (f : List Label → List Label) :
    keyList ⟨updateA g.adj_list k f⟩ = keyList g := by
  show (updateA g.adj_list k f).map Prod.fst = g.adj_list.map Prod.fst
  exact keyList_updateA _ _ _

/-- Erasing each endpoint from the other's neighbour list (the real work of
`remove_edge` on an existing edge) preserves well-formedness. -/
theorem wf_double_erase {g : UndirectedGraph} (h : WF g) {u v : Label} (huv : ¬ u = v)
    (hadj : v ∈ adjOf g u) :
    WF ⟨updateA (updateA g.adj_list u (fun l => l.erase v)) v (fun l => l.erase u)⟩ := by
  have hadj2 : u ∈ adjOf g v := h.symm v u hadj
  have hu : u ∈ keyList g := mem_keyList_of_adj hadj
  have hv : v ∈ keyList g := mem_keyList_of_adj hadj2
  obtain ⟨lu, hlu⟩ := lookup_isSome_of_mem hu
  obtain ⟨lv, hlv⟩ := lookup_isSome_of_mem hv
  have hadju : adjOf g u = lu := adjOf_eq_of_lookup hlu
  have hadjv : adjOf g v = lv := adjOf_eq_of_lookup hlv
  have hndu : lu.Nodup := h.nodupVals u lu hlu
  have hndv : lv.Nodup := h.nodupVals v lv hlv
  have hlook : ∀ j, (updateA (updateA g.adj_list u (fun l => l.erase v)) v
      (fun l => l.erase u)).lookup j =
      if j = v then some (lv.erase u) else if j = u then some (lu.erase v)
      else g.adj_list.lookup j := by
    intro j
    rw [lookup_updateA, lookup_updateA]
    by_cases hjv : j = v
    · subst hjv
      rw [if_pos rfl, if_pos rfl, if_neg (fun hh => huv hh.symm), hlv]
      rfl
    · rw [if_neg hjv, if_neg hjv]
      by_cases hju : j = u
      · subst hju
        rw [if_pos rfl, if_pos rfl, hlu]
        rfl
      · rw [if_neg hju, if_neg hju]
  have hadjF : ∀ j, adjOf ⟨updateA (updateA g.adj_list u (fun l => l.erase v)) v
      (fun l => l.erase u)⟩ j =
      if j = v then lv.erase u else if j = u then lu.erase v else adjOf g j := by
    intro j
    show ((updateA (updateA g.adj_list u (fun l => l.erase v)) v
      (fun l => l.erase u)).lookup j).getD [] = _
    rw [hlook j]
    by_cases hjv : j = v
    · rw [if_pos hjv, if_pos hjv]
      rfl
    · rw [if_neg hjv, if_neg hjv]
      by_cases hju : j = u
      · rw [if_pos hju, if_pos hju]
        rfl
      · rw [if_neg hju, if_neg hju]
        rfl
  refine ⟨?_, ?_, ?_, ?_, ?_⟩
  · show ((updateA (updateA g.adj_list u (fun l => l.erase v)) v
      (fun l => l.erase u)).map Prod.fst).Nodup
    rw [keyList_updateA, keyList_updateA]
    exact h.nodupKeys
  · intro j b hj
    rw [hlook j] at hj
    by_cases hjv : j = v
    · rw [if_pos hjv] at hj
      cases hj
      exact hndv.erase u
    · rw [if_neg hjv] at hj
      by_cases hju : j = u
      · rw [if_pos hju] at hj
        cases hj
        exact hndu.erase v
      · rw [if_neg hju] at hj
        exact h.nodupVals j b hj
  · intro j b hj x hx
    rw [hlook j] at hj
    show x ∈ (updateA (updateA g.adj_list u (fun l => l.erase v)) v
      (fun l => l.erase u)).map Prod.fst
    rw [keyList_updateA, keyList_updateA]
    by_cases hjv : j = v
    · rw [if_pos hjv] at hj
      cases hj
      exact h.closed v lv hlv x (List.mem_of_mem_erase hx)
    · rw [if_neg hjv] at hj
      by_cases hju : j = u
      · rw [if_pos hju] at hj
        cases hj
        exact h.closed u lu hlu x (List.mem_of_mem_erase hx)
      · rw [if_neg hju] at hj
        exact h.closed j b hj x hx
  · intro j b hj
    rw [hlook j] at hj
    by_cases hjv : j = v
    · rw [if_pos hjv] at hj
      cases hj
      intro hc
      rw [hjv] at hc
      exact (h.irrefl v lv hlv) (List.mem_of_mem_erase hc)
    · rw [if_neg hjv] at hj
      by_cases hju : j = u
      · rw [if_pos hju] at hj
        cases hj
        intro hc
        rw [hju] at hc
        exact (h.irrefl u lu hlu) (List.mem_of_mem_erase hc)
      · rw [if_neg hju] at hj
        exact h.irrefl j b hj
  · intro a c hac
    rw [hadjF] at hac
    rw [hadjF]
    have hvlv : v ∉ lv := hadjv ▸ h.irrefl v lv hlv
    have hulu : u ∉ lu := hadju ▸ h.irrefl u lu hlu
    by_cases hcv : c = v
    · rw [if_pos hcv] at hac
      rw [hcv]
      rcases (hndv.mem_erase_iff).mp hac with ⟨hau, halv⟩
      have hold : v ∈ adjOf g a := h.symm a v (by rw [hadjv]; exact halv)
      have hav : ¬ a = v := fun hh => hvlv (hh ▸ halv)
      rw [if_neg hav]
      by_cases hau2 : a = u
      · exact absurd hau2 hau
      · rw [if_neg hau2]
        exact hold
    · rw [if_neg hcv] at hac
      by_cases hcu : c = u
      · rw [if_pos hcu] at hac
        rw [hcu]
        rcases (hndu.mem_erase_iff).mp hac with ⟨hav, halu⟩
        have hold : u ∈ adjOf g a := h.symm a u (by rw [hadju]; exact halu)
        have hau : ¬ a = u := fun hh => hulu (hh ▸ halu)
        by_cases hav2 : a = v
        · exact absurd hav2 hav
        · rw [if_neg hav2, if_neg hau]
          exact hold
      · rw [if_neg hcu] at hac
        have hold : c ∈ adjOf g a := h.symm a c hac
        by_cases hav : a = v
        · rw [if_pos hav]
          rw [(hndv.mem_erase_iff)]
          refine ⟨hcu, ?_⟩
          rw [← hadjv, ← hav]
          exact hold
        · rw [if_neg hav]
          by_cases hau : a = u
          · rw [if_pos hau]
            rw [(hndu.mem_erase_iff)]
            refine ⟨hcv, ?_⟩
            rw [← hadju, ← hau]
            exact hold
          · rw [if_neg hau]
            exact hold

theorem wf_remove_edge {g : UndirectedGraph} (h : WF g) (v u : Label) :
    WF (remove_edge g v u) := by
  by_cases huv : u = v
  · unfold remove_edge
    rw [if_pos huv]
    exact h
  · have hstep : remove_edge g v u =
        (if v ∈ keyList (if u ∈ keyList g ∧ v ∈ adjOf g u then
              (⟨updateA g.adj_list u (fun l => l.erase v)⟩ : UndirectedGraph) else g) ∧
            u ∈ adjOf (if u ∈ keyList g ∧ v ∈ adjOf g u then
              (⟨updateA g.adj_list u (fun l => l.erase v)⟩ : UndirectedGraph) else g) v then
          ⟨updateA (if u ∈ keyList g ∧ v ∈ adjOf g u then
              (⟨updateA g.adj_list u (fun l => l.erase v)⟩ : UndirectedGraph) else g).adj_list v
            (fun l => l.erase u)⟩
         else (if u ∈ keyList g ∧ v ∈ adjOf g u then
              (⟨updateA g.adj_list u (fun l => l.erase v)⟩ : UndirectedGraph) else g)) := by
      unfold remove_edge
      rw [if_neg huv]
    rw [hstep]
    by_cases hc1 : u ∈ keyList g ∧ v ∈ adjOf g u
    · simp only [if_pos hc1]
      have hadj2 : u ∈ adjOf g v := h.symm v u hc1.2
      have hc2 : v ∈ keyList ((⟨updateA g.adj_list u (fun l => l.erase v)⟩ : UndirectedGraph)) ∧
          u ∈ adjOf (⟨updateA g.adj_list u (fun l => l.erase v)⟩ : UndirectedGraph) v := by
        constructor
        · rw [keyList_mk_updateA]
          exact mem_keyList_of_adj hadj2
        · rw [adjOf_updateA_ne (fun hh => huv hh.symm)]
          exact hadj2
      rw [if_pos hc2]
      exact wf_double_erase h huv hc1.2
    · simp only [if_neg hc1]
      have hc2 : ¬ (v ∈ keyList g ∧ u ∈ adjOf g v) := by
        rintro ⟨_, hm⟩
        exact hc1 ⟨mem_keyList_of_adj (h.symm u v hm), h.symm u v hm⟩
      rw [if_neg hc2]
      exact h

end UG

namespace UG

theorem lookup_foldl_erase (es : List Label) (m : List (Label × List Label)) (v j : Label)
    (hnd : es.Nodup) :
    ((es.foldl (fun (gg : UndirectedGraph) e =>
        ⟨updateA gg.adj_list e (fun l => l.erase v)⟩) ⟨m⟩).adj_list).lookup j =
      if j ∈ es then (m.lookup j).map (fun l => l.erase v) else m.lookup j := by
  induction es generalizing m with
  | nil => simp
  | cons e t ih =>
    rw [List.foldl_cons]
    have hnd2 : t.Nodup := hnd.of_cons
    have het : e ∉ t := (List.nodup_cons.mp hnd).1
    rw [ih (updateA m e (fun l => l.erase v)) hnd2]
    by_cases hjt : j ∈ t
    · rw [if_pos hjt, if_pos (List.mem_cons_of_mem e hjt)]
      rw [lookup_updateA]
      have hje : ¬ j = e := fun hh => het (hh ▸ hjt)
      rw [if_neg hje]
    · rw [if_neg hjt]
      rw [lookup_updateA]
      by_cases hje : j = e
      · rw [if_pos hje, if_pos (by rw [hje]; exact List.mem_cons_self e t)]
      · rw [if_neg hje, if_neg (by
          intro hc
          rcases List.mem_cons.mp hc with hc | hc
          · exact hje hc
          · exact hjt hc)]

theorem keyList_foldl_erase (es : List Label) (m : List (Label × List Label)) (v : Label) :
    keyList (es.foldl (fun (gg : UndirectedGraph) e =>
        ⟨updateA gg.adj_list e (fun l => l.erase v)⟩) ⟨m⟩) = m.map Prod.fst := by
  induction es generalizing m with
  | nil => rfl
  | cons e t ih =>
    rw [List.foldl_cons, ih (updateA m e (fun l => l.erase v))]
    exact keyList_updateA _ _ _

theorem mem_keyList_filter {m : List (Label × List Label)} {v j : Label} :
    j ∈ (m.filter (fun e => decide (e.1 ≠ v))).map Prod.fst ↔
      j ∈ m.map Prod.fst ∧ j ≠ v := by
  constructor
  · intro hmem
    rcases List.mem_map.mp hmem with ⟨e, he, hfst⟩
    rcases List.mem_filter.mp he with ⟨hem, hne⟩
    simp only [decide_eq_true_eq] at hne
    exact ⟨List.mem_map.mpr ⟨e, hem, hfst⟩, hfst ▸ hne⟩
  · rintro ⟨hmem, hne⟩
    rcases List.mem_map.mp hmem with ⟨e, he, hfst⟩
    refine List.mem_map.mpr ⟨e, List.mem_filter.mpr ⟨he, ?_⟩, hfst⟩
    simp only [decide_eq_true_eq]
    exact hfst ▸ hne

theorem wf_remove_vertex {g : UndirectedGraph} (h : WF g) (v : Label) :
    WF (remove_vertex g v) := by
  unfold remove_vertex
  split
  case isFalse => exact h
  case isTrue hv =>
  obtain ⟨lv, hlv⟩ := lookup_isSome_of_mem hv
  have hadjv : adjOf g v = lv := adjOf_eq_of_lookup hlv
  have hndv : lv.Nodup := h.nodupVals v lv hlv
  have hvlv : v ∉ lv := h.irrefl v lv hlv
  have hlvkeys : ∀ x ∈ lv, x ∈ keyList g := h.closed v lv hlv
  rw [hadjv]
  have hlookF : ∀ j,
      ((lv.foldl (fun (gg : UndirectedGraph) e =>
          ⟨updateA gg.adj_list e (fun l => l.erase v)⟩)
        ⟨g.adj_list.filter (fun e => decide (e.1 ≠ v))⟩).adj_list).lookup j =
      if j = v then none
      else if j ∈ lv then (g.adj_list.lookup j).map (fun l => l.erase v)
      else g.adj_list.lookup j := by
    intro j
    rw [lookup_foldl_erase lv _ v j hndv]
    by_cases hjv : j = v
    · rw [if_pos hjv]
      have hnot : ¬ j ∈ lv := fun hc => hvlv (hjv ▸ hc)
      rw [if_neg hnot, hjv, lookup_filter_self]
    · rw [if_neg hjv]
      rw [lookup_filter_ne hjv]
  have hkeysF : keyList (lv.foldl (fun (gg : UndirectedGraph) e =>
        ⟨updateA gg.adj_list e (fun l => l.erase v)⟩)
      ⟨g.adj_list.filter (fun e => decide (e.1 ≠ v))⟩) =
      (g.adj_list.filter (fun e => decide (e.1 ≠ v))).map Prod.fst :=
    keyList_foldl_erase _ _ _
  have hadjF : ∀ j, adjOf (lv.foldl (fun (gg : UndirectedGraph) e =>
        ⟨updateA gg.adj_list e (fun l => l.erase v)⟩)
      ⟨g.adj_list.filter (fun e => decide (e.1 ≠ v))⟩) j =
      if j = v then []
      else if j ∈ lv then (adjOf g j).erase v
      else adjOf g j := by
    intro j
    unfold adjOf
    rw [hlookF j]
    by_cases hjv : j = v
    · rw [if_pos hjv, if_pos hjv]
      rfl
    · rw [if_neg hjv, if_neg hjv]
      by_cases hjl : j ∈ lv
      · rw [if_pos hjl, if_pos hjl]
        cases g.adj_list.lookup j <;> rfl
      · rw [if_neg hjl, if_neg hjl]
  refine ⟨?_, ?_, ?_, ?_, ?_⟩
  · rw [hkeysF]
    exact h.nodupKeys.sublist ((g.adj_list.filter_sublist).map Prod.fst)
  · intro j b hj
    rw [hlookF j] at hj
    by_cases hjv : j = v
    · rw [if_pos hjv] at hj
      cases hj
    · rw [if_neg hjv] at hj
      by_cases hjl : j ∈ lv
      · rw [if_pos hjl] at hj
        cases hb : g.adj_list.lookup j with
        | none => rw [hb] at hj; cases hj
        | some c =>
          rw [hb] at hj
          cases hj
          exact (h.nodupVals j c hb).erase v
      · rw [if_neg hjl] at hj
        exact h.nodupVals j b hj
  · intro j b hj x hx
    rw [hlookF j] at hj
    rw [hkeysF, mem_keyList_filter]
    by_cases hjv : j = v
    · rw [if_pos hjv] at hj
      cases hj
    · rw [if_neg hjv] at hj
      by_cases hjl : j ∈ lv
      · rw [if_pos hjl] at hj
        cases hb : g.adj_list.lookup j with
        | none => rw [hb] at hj; cases hj
        | some c =>
          rw [hb] at hj
          cases hj
          have hnc : c.Nodup := h.nodupVals j c hb
          rcases (hnc.mem_erase_iff).mp hx with ⟨hxv, hxc⟩
          exact ⟨h.closed j c hb x hxc, hxv⟩
      · rw [if_neg hjl] at hj
        refine ⟨h.closed j b hj x hx, ?_⟩
        intro hxv
        subst hxv
        have : j ∈ adjOf g x := h.symm x j (by rw [adjOf_eq_of_lookup hj]; exact hx)
        rw [hadjv] at this
        exact hjl this
  · intro j b hj
    rw [hlookF j] at hj
    by_cases hjv : j = v
    · rw [if_pos hjv] at hj
      cases hj
    · rw [if_neg hjv] at hj
      by_cases hjl : j ∈ lv
      · rw [if_pos hjl] at hj
        cases hb : g.adj_list.lookup j with
        | none => rw [hb] at hj; cases hj
        | some c =>
          rw [hb] at hj
          cases hj
          intro hc
          exact h.irrefl j c hb (List.mem_of_mem_erase hc)
      · rw [if_neg hjl] at hj
        exact h.irrefl j b hj
  · intro a c hac
    rw [hadjF] at hac
    rw [hadjF]
    by_cases hcv : c = v
    · rw [if_pos hcv] at hac
      cases hac
    · rw [if_neg hcv] at hac
      have hmain : a ∈ adjOf g c ∧ a ≠ v := by
        by_cases hcl : c ∈ lv
        · rw [if_pos hcl] at hac
          have hvc : v ∈ adjOf g c := h.symm c v (hadjv.symm ▸ hcl)
          obtain ⟨lc, hlc⟩ := lookup_isSome_of_mem (mem_keyList_of_adj hvc)
          have hnc : (adjOf g c).Nodup := by
            rw [adjOf_eq_of_lookup hlc]
            exact h.nodupVals c lc hlc
          rcases (hnc.mem_erase_iff).mp hac with ⟨hav, hmem⟩
          exact ⟨hmem, hav⟩
        · rw [if_neg hcl] at hac
          refine ⟨hac, ?_⟩
          intro hav
          rw [hav] at hac
          have : c ∈ adjOf g v := h.symm v c hac
          rw [hadjv] at this
          exact hcl this
      have hold : c ∈ adjOf g a := h.symm a c hmain.1
      have hav : ¬ a = v := hmain.2
      rw [if_neg hav]
      by_cases hal : a ∈ lv
      · rw [if_pos hal]
        have hva : v ∈ adjOf g a := h.symm a v (hadjv.symm ▸ hal)
        obtain ⟨la, hla⟩ := lookup_isSome_of_mem (mem_keyList_of_adj hva)
        have hna : (adjOf g a).Nodup := by
          rw [adjOf_eq_of_lookup hla]
          exact h.nodupVals a la hla
        rw [hna.mem_erase_iff]
        exact ⟨hcv, hold⟩
      · rw [if_neg hal]
        exact hold

/-- A single mutation of the undirected graph API. -/
inductive UOp where
  | addV (v : Label)
  | addE (u v : Label)
  | remE (u v : Label)
  | remV (v : Label)

/-- Run one mutation (the argument order of `remove_edge(v, u)` follows the
source signature). -/
def applyOp (g : UndirectedGraph) : UOp → UndirectedGraph
  | .addV v => add_vertex g v
  | .addE u v => add_edge g u v
  | .remE u v => remove_edge g u v
  | .remV v => remove_vertex g v

/-- Run a sequence of mutations starting from the freshly constructed graph. -/
def runOps (ops : List UOp) : UndirectedGraph :=
  ops.foldl applyOp emptyUndirected

theorem wf_applyOp {g : UndirectedGraph} (h : WF g) (op : UOp) : WF (applyOp g op) := by
  cases op with
  | addV v => exact wf_add_vertex h v
  | addE u v => exact wf_add_edge h u v
  | remE u v => exact wf_remove_edge h u v
  | remV v => exact wf_remove_vertex h v

theorem wf_foldl_ops {g : UndirectedGraph} (h : WF g) (ops : List UOp) :
    WF (ops.foldl applyOp g) := by
  induction ops generalizing g with
  | nil => exact h
  | cons op t ih => exact ih (wf_applyOp h op)

theorem wf_runOps (ops : List UOp) : WF (runOps ops) :=
  wf_foldl_ops wf_empty ops

end UG

/-- C7: after any finite sequence of mutations from the empty undirected
graph, adjacency is symmetric (`v ∈ neighbors(u)` iff `u ∈ neighbors(v)`),
and a vertex that is not (or no longer) a key appears in no neighbour list. -/
theorem c7_adjacency_symmetry (ops : List UG.UOp) :
    (∀ u v, v ∈ UG.adjOf (UG.runOps ops) u ↔ u ∈ UG.adjOf (UG.runOps ops) v) ∧
    (∀ v, v ∉ UG.keyList (UG.runOps ops) → ∀ u, v ∉ UG.adjOf (UG.runOps ops) u) := by
  have hwf := UG.wf_runOps ops
  constructor
  · intro u v
    exact ⟨fun hh => hwf.symm v u hh, fun hh => hwf.symm u v hh⟩
  · intro v hv u hc
    rcases UG.mem_adjOf_iff.mp hc with ⟨b, hb, hvb⟩
    exact hv (hwf.closed u b hb v hvb)

namespace DG

/-- Vertex lists that follow nonzero-weight matrix entries: a walk of the
directed graph (repeated vertices allowed). -/
def ListWalk (g : DirectedGraph) (p : List Nat) : Prop :=
  (∀ x ∈ p, x < g.v_count) ∧ List.Chain' (fun a b => matGet g a b ≠ 0) p

/-- A walk given as its vertex list, with fixed endpoints. -/
def WalkFromTo (g : DirectedGraph) (s t : Nat) (p : List Nat) : Prop :=
  ListWalk g p ∧ p.head? = some s ∧ p.getLast? = some t

/-- Total weight of a vertex list: the sum of the matrix entries along the
consecutive pairs. -/
def pathWeight (g : DirectedGraph) : List Nat → Int
  | [] => 0
  | [_] => 0
  | a :: b :: r => matGet g a b + pathWeight g (b :: r)

/-- Reachability by a directed walk. -/
def ReachableDG (g : DirectedGraph) (s t : Nat) : Prop :=
  ∃ p, WalkFromTo g s t p

/-- Walks from a fixed source, derivation-structured for relaxation
arguments: a walk to `u` extends along the edge `u → c`. -/
inductive Walk (g : DirectedGraph) (s : Nat) : Nat → Int → Prop where
  | base : s < g.v_count → Walk g s s 0
  | step {u c : Nat} {d : Int} : Walk g s u d → c < g.v_count →
      matGet g u c ≠ 0 → Walk g s c (d + matGet g u c)

theorem Walk.target_lt {g : DirectedGraph} {s v : Nat} {d : Int} (h : Walk g s v d) :
    v < g.v_count := by
  cases h with
  | base hs => exact hs
  | step _ hc _ => exact hc

theorem Walk.nonneg {g : DirectedGraph}
    (hpos : ∀ i j, i < g.v_count → j < g.v_count → 0 ≤ matGet g i j)
    {s v : Nat} {d : Int} (h : Walk g s v d) : 0 ≤ d := by
  induction h with
  | base _ => exact le_refl 0
  | step hw hc _ ih => exact add_nonneg ih (hpos _ _ hw.target_lt hc)

theorem pathWeight_append_single {g : DirectedGraph} :
    ∀ (p : List Nat) (u c : Nat), p.getLast? = some u →
      pathWeight g (p ++ [c]) = pathWeight g p + matGet g u c := by
  intro p
  induction p with
  | nil => intro u c h; cases h
  | cons a t ih =>
    intro u c h
    cases t with
    | nil =>
      cases h
      show matGet g a c + pathWeight g [c] = pathWeight g [a] + matGet g a c
      show matGet g a c + 0 = 0 + matGet g a c
      ring
    | cons b r =>
      have hlast : (b :: r).getLast? = some u := by
        rw [List.getLast?_cons_cons] at h
        exact h
      show matGet g a b + pathWeight g ((b :: r) ++ [c]) =
        matGet g a b + pathWeight g (b :: r) + matGet g u c
      rw [ih u c hlast]
      ring

theorem Walk.toList {g : DirectedGraph} {s v : Nat} {d : Int} (h : Walk g s v d) :
    ∃ p, WalkFromTo g s v p ∧ pathWeight g p = d := by
  induction h with
  | base hs =>
    exact ⟨[s], ⟨⟨by simpa using hs, List.chain'_singleton s⟩, rfl, rfl⟩, rfl⟩
  | step hw hc he ih =>
    rename_i u c dd
    obtain ⟨p, ⟨⟨hmem, hch⟩, hhd, hlast⟩, hwt⟩ := ih
    refine ⟨p ++ [c], ⟨⟨?_, ?_⟩, ?_, ?_⟩, ?_⟩
    · intro x hx
      rcases List.mem_append.mp hx with hx | hx
      · exact hmem x hx
      · rw [List.mem_singleton] at hx
        exact hx ▸ hc
    · rw [List.chain'_append]
      refine ⟨hch, List.chain'_singleton c, ?_⟩
      intro x hx y hy
      rw [hlast] at hx
      cases hx
      simp only [List.head?_cons, Option.mem_def, Option.some.injEq] at hy
      rw [← hy]
      exact he
    · cases p with
      | nil => cases hhd
      | cons a t => exact hhd
    · rw [List.getLast?_append_of_ne_nil]
      · rfl
      · simp
    · rw [pathWeight_append_single p u c hlast, hwt]

theorem Walk.ofList {g : DirectedGraph} {s v : Nat} {p : List Nat}
    (h : WalkFromTo g s v p) : Walk g s v (pathWeight g p) := by
  obtain ⟨⟨hmem, hch⟩, hhd, hlast⟩ := h
  induction p using List.reverseRecOn generalizing v with
  | nil => cases hhd
  | append_singleton q c ih =>
    have hlast2 : v = c := by
      rw [List.getLast?_concat] at hlast
      cases hlast
      rfl
    subst hlast2
    cases hq : q with
    | nil =>
      subst hq
      have hhd2 : v = s := by
        simp only [List.nil_append, List.head?_cons] at hhd
        cases hhd
        rfl
      subst hhd2
      exact Walk.base (hmem v (by simp))
    | cons b r =>
      subst hq
      obtain ⟨u, hul⟩ : ∃ u, (b :: r).getLast? = some u :=
        ⟨(b :: r).getLast (by simp), List.getLast?_eq_getLast _ _⟩
      have hchsplit : List.Chain' (fun a b => matGet g a b ≠ 0) ((b :: r) ++ [v]) := hch
      rw [List.chain'_append] at hchsplit
      have hedge : matGet g u v ≠ 0 := by
        refine hchsplit.2.2 u ?_ v ?_
        · rw [hul]
          rfl
        · rfl
      have hmem2 : ∀ x ∈ b :: r, x < g.v_count := fun x hx =>
        hmem x (List.mem_append_left _ hx)
      have hhd2 : (b :: r).head? = some s := by
        simp only [List.cons_append, List.head?_cons] at hhd ⊢
        exact hhd
      have hwalk : Walk g s u (pathWeight g (b :: r)) := ih hmem2 hchsplit.1 hhd2 hul
      have hstep := Walk.step hwalk (hmem v (by simp)) hedge
      have heq : pathWeight g ((b :: r) ++ [v]) = pathWeight g (b :: r) + matGet g u v :=
        pathWeight_append_single (b :: r) u v hul
      show Walk g s v (pathWeight g ((b :: r) ++ [v]))
      rw [heq]
      exact hstep

end DG

namespace DG

theorem lexLeEntry_fst_le {a b : Int × Int} (h : lexLeEntry a b = true) : a.1 ≤ b.1 := by
  unfold lexLeEntry at h
  rcases Bool.or_eq_true_iff.mp h with h | h
  · exact le_of_lt (of_decide_eq_true h)
  · exact le_of_eq (of_decide_eq_true (Bool.and_eq_true_iff.mp h).1)

theorem lexLeEntry_fst_le_of_false {a b : Int × Int} (h : lexLeEntry a b = false) :
    b.1 ≤ a.1 := by
  unfold lexLeEntry at h
  rw [Bool.or_eq_false_iff] at h
  have := of_decide_eq_false h.1
  exact le_of_not_lt this

theorem foldl_min_mem (l : List (Int × Int)) (a : Int × Int) :
    l.foldl (fun x y => if lexLeEntry x y then x else y) a = a ∨
    l.foldl (fun x y => if lexLeEntry x y then x else y) a ∈ l := by
  induction l generalizing a with
  | nil => exact Or.inl rfl
  | cons e t ih =>
    rw [List.foldl_cons]
    by_cases hc : lexLeEntry a e = true
    · rw [if_pos hc]
      rcases ih a with h | h
      · exact Or.inl h
      · exact Or.inr (List.mem_cons_of_mem e h)
    · rw [if_neg hc]
      rcases ih e with h | h
      · rw [h]
        exact Or.inr (List.mem_cons_self e t)
      · exact Or.inr (List.mem_cons_of_mem e h)

theorem foldl_min_le (l : List (Int × Int)) (a : Int × Int) :
    (l.foldl (fun x y => if lexLeEntry x y then x else y) a).1 ≤ a.1 ∧
    ∀ e ∈ l, (l.foldl (fun x y => if lexLeEntry x y then x else y) a).1 ≤ e.1 := by
  induction l generalizing a with
  | nil => exact ⟨le_refl _, by intro e he; cases he⟩
  | cons e t ih =>
    rw [List.foldl_cons]
    by_cases hc : lexLeEntry a e = true
    · rw [if_pos hc]
      obtain ⟨h1, h2⟩ := ih a
      refine ⟨h1, ?_⟩
      intro x hx2
      rcases List.mem_cons.mp hx2 with hx2 | hx2
      · rw [hx2]
        exact le_trans h1 (lexLeEntry_fst_le hc)
      · exact h2 x hx2
    · rw [if_neg hc]
      obtain ⟨h1, h2⟩ := ih e
      refine ⟨le_trans h1 (lexLeEntry_fst_le_of_false (Bool.eq_false_iff.mpr hc)), ?_⟩
      intro x hx2
      rcases List.mem_cons.mp hx2 with hx2 | hx2
      · rw [hx2]
        exact h1
      · exact h2 x hx2

theorem popMin_spec {pq : List (Int × Int)} {m : Int × Int} {rest : List (Int × Int)}
    (h : popMin pq = some (m, rest)) :
    m ∈ pq ∧ rest = pq.erase m ∧ ∀ e ∈ pq, m.1 ≤ e.1 := by
  cases pq with
  | nil => cases h
  | cons e t =>
    rw [popMin] at h
    injection h with h1
    injection h1 with hm hr
    subst hm
    subst hr
    constructor
    · rcases foldl_min_mem (e :: t) e with h | h
      · rw [h]
        exact List.mem_cons_self e t
      · exact h
    constructor
    · rfl
    · exact (foldl_min_le (e :: t) e).2

theorem getD_set_self {l : List (Option Int)} {i : Nat} (h : i < l.length) (x : Option Int) :
    (l.set i x).getD i none = x := by
  induction l generalizing i with
  | nil => simp at h
  | cons a t ih =>
    cases i with
    | zero => rfl
    | succ k => exact ih (by simpa using h) 

theorem getD_set_ne {l : List (Option Int)} {i j : Nat} (h : j ≠ i) (x : Option Int) :
    (l.set i x).getD j none = l.getD j none := by
  induction l generalizing i j with
  | nil => rfl
  | cons a t ih =>
    cases i with
    | zero =>
      cases j with
      | zero => exact absurd rfl h
      | succ k => rfl
    | succ i2 =>
      cases j with
      | zero => rfl
      | succ k => exact ih (fun hh => h (by rw [hh])) 

theorem getD_replicate_none (n v : Nat) :
    (List.replicate n (none : Option Int)).getD v none = none := by
  induction n generalizing v with
  | zero => rfl
  | succ k ih =>
    cases v with
    | zero => rfl
    | succ w => exact ih w

theorem noneCount_set {visited : List (Option Int)} {i : Nat} (hi : i < visited.length)
    (hnone : visited.getD i none = none) (d : Int) :
    (visited.set i (some d)).countP (fun o => o.isNone) + 1 =
      visited.countP (fun o => o.isNone) := by
  induction visited generalizing i with
  | nil => simp at hi
  | cons a t ih =>
    cases i with
    | zero =>
      have ha : a = none := hnone
      subst ha
      simp [List.countP_cons]
    | succ k =>
      have hk : k < t.length := by simpa using hi
      have hn : t.getD k none = none := hnone
      show (a :: t.set k (some d)).countP (fun o => o.isNone) + 1 = _
      simp only [List.countP_cons]
      have := ih hk hn
      omega

theorem row_length {g : DirectedGraph}
    (hwf : g.adj_matrix.length = g.v_count ∧ ∀ row ∈ g.adj_matrix, row.length = g.v_count)
    {v : Nat} (hv : v < g.v_count) : (g.adj_matrix.getD v []).length = g.v_count := by
  have hvlen : v < g.adj_matrix.length := by rw [hwf.1]; exact hv
  rw [List.getD_eq_getElem _ _ hvlen]
  exact hwf.2 _ (List.getElem_mem hvlen)

end DG

namespace DG

theorem dijkstraLoop_nil_eq (g : DirectedGraph) (fuel : Nat) (visited : List (Option Int)) :
    dijkstraLoop g (fuel + 1) visited [] = some (PyRes.ok visited) := by
  rw [dijkstraLoop]
  rfl

theorem dijkstraLoop_cons_eq (g : DirectedGraph) (fuel : Nat) (visited : List (Option Int))
    (pq : List (Int × Int)) {d t : Int} {prest : List (Int × Int)}
    (hpop : popMin pq = some ((d, t), prest)) :
    dijkstraLoop g (fuel + 1) visited pq =
      if 0 ≤ t ∧ t < (visited.length : Int) then
        (if ltInf d (visited.getD t.toNat none) then
          dijkstraLoop g fuel (visited.set t.toNat (some d))
            (prest ++ ((List.range (g.adj_matrix.getD t.toNat []).length).filter
                (fun c => decide (matGet g t.toNat c ≠ 0))).map
              (fun c => (d + matGet g t.toNat c, (c : Int))))
        else dijkstraLoop g fuel visited prest)
      else some (PyRes.exn "KeyError") := by
  rw [dijkstraLoop, hpop]

/-- Matrix shape agreeing with the vertex count. -/
def WFmat (g : DirectedGraph) : Prop :=
  g.adj_matrix.length = g.v_count ∧ ∀ row ∈ g.adj_matrix, row.length = g.v_count

/-- The loop invariant of `dijkstra`: `floor` is the priority of the last pop.
Every queue entry names a real vertex at or above the floor and carries the
weight of an actual walk; every finalised distance is at most the floor and is
a walk weight; every finalised vertex has each outgoing edge either already
relaxed or pending in the queue; and the source is finalised at 0 or pending
with priority 0. -/
structure DijkInv (g : DirectedGraph) (src : Nat) (floor : Int)
    (visited : List (Option Int)) (pq : List (Int × Int)) : Prop where
  len : visited.length = g.v_count
  floor0 : 0 ≤ floor
  pqBound : ∀ e ∈ pq, 0 ≤ e.2 ∧ e.2 < (g.v_count : Int) ∧ floor ≤ e.1 ∧
    Walk g src e.2.toNat e.1
  visBound : ∀ v dv, visited.getD v none = some dv → dv ≤ floor ∧ Walk g src v dv
  relax : ∀ v dv, visited.getD v none = some dv →
    ∀ c, c < g.v_count → matGet g v c ≠ 0 →
      (∃ dc, visited.getD c none = some dc ∧ dc ≤ dv + matGet g v c) ∨
      (dv + matGet g v c, (c : Int)) ∈ pq
  start : visited.getD src none = some 0 ∨
    (visited.getD src none = none ∧ ((0 : Int), (src : Int)) ∈ pq)

/-- Loop variant: one unit per queue entry plus `v_count + 1` units per
not-yet-finalised vertex (a pop costs one; a finalisation converts one
infinite entry into at most `v_count` new queue entries). -/
def dijkMeasure (g : DirectedGraph) (visited : List (Option Int))
    (pq : List (Int × Int)) : Nat :=
  pq.length + (g.v_count + 1) * (visited.countP (fun o => o.isNone))

theorem dijkstraLoop_ok {g : DirectedGraph} (hwf : WFmat g)
    (hpos : ∀ i j, i < g.v_count → j < g.v_count → 0 ≤ matGet g i j) {src : Nat} :
    ∀ fuel (visited : List (Option Int)) (pq : List (Int × Int)) (floor : Int),
      DijkInv g src floor visited pq →
      dijkMeasure g visited pq < fuel →
      ∃ visited2, dijkstraLoop g fuel visited pq = some (PyRes.ok visited2) ∧
        visited2.length = g.v_count ∧
        visited2.getD src none = some 0 ∧
        (∀ v dv, visited2.getD v none = some dv → Walk g src v dv) ∧
        (∀ v dv, visited2.getD v none = some dv →
          ∀ c, c < g.v_count → matGet g v c ≠ 0 →
            ∃ dc, visited2.getD c none = some dc ∧ dc ≤ dv + matGet g v c) := by
  intro fuel
  induction fuel with
  | zero =>
    intro visited pq floor hinv hm
    exact absurd hm (Nat.not_lt_zero _)
  | succ fuel ih =>
    intro visited pq floor hinv hm
    cases hpq : pq with
    | nil =>
      refine ⟨visited, dijkstraLoop_nil_eq g fuel visited, hinv.len, ?_, ?_, ?_⟩
      · rcases hinv.start with h | h
        · exact h
        · exact absurd (hpq ▸ h.2) (List.not_mem_nil _)
      · intro v dv h
        exact (hinv.visBound v dv h).2
      · intro v dv h c hc hcw
        rcases hinv.relax v dv h c hc hcw with h2 | h2
        · exact h2
        · exact absurd (hpq ▸ h2) (List.not_mem_nil _)
    | cons e0 rest0 =>
      subst hpq
      obtain ⟨m, prest, hpop⟩ : ∃ m prest, popMin (e0 :: rest0) = some (m, prest) :=
        ⟨_, _, rfl⟩
      obtain ⟨hmem, hrest, hmin⟩ := popMin_spec hpop
      obtain ⟨d, t⟩ := m
      obtain ⟨ht0, htn, hdf, hwalkm⟩ := hinv.pqBound (d, t) hmem
      have htt : t.toNat < g.v_count := (Int.toNat_lt ht0).mpr htn
      have hcast : ((t.toNat : Nat) : Int) = t := Int.toNat_of_nonneg ht0
      have hguard : 0 ≤ t ∧ t < (visited.length : Int) := by
        constructor
        · exact ht0
        · rw [hinv.len]
          exact htn
      have hlen1 : (e0 :: rest0).length = prest.length + 1 := by
        rw [hrest, List.length_erase_of_mem hmem]
        have : 0 < (e0 :: rest0).length := by simp
        omega
      rw [dijkstraLoop_cons_eq g fuel visited (e0 :: rest0) hpop, if_pos hguard]
      have hprest_sub : ∀ e, e ∈ prest → e ∈ e0 :: rest0 := by
        intro e he
        rw [hrest] at he
        exact List.mem_of_mem_erase he
      cases hcur : visited.getD t.toNat none with
      | some dv =>
        have hdv := hinv.visBound t.toNat dv hcur
        have hlt : ltInf d (some dv) = false := by
          simp only [ltInf, decide_eq_false_iff_not, not_lt]
          exact le_trans hdv.1 hdf
        rw [hlt]
        rw [if_neg (by simp : ¬ (false = true))]
        have hinv2 : DijkInv g src d visited prest := by
          refine ⟨hinv.len, le_trans hinv.floor0 hdf, ?_, ?_, ?_, ?_⟩
          · intro e he
            obtain ⟨h1, h2, _, h4⟩ := hinv.pqBound e (hprest_sub e he)
            exact ⟨h1, h2, hmin e (hprest_sub e he), h4⟩
          · intro v dvv h
            obtain ⟨h1, h2⟩ := hinv.visBound v dvv h
            exact ⟨le_trans h1 hdf, h2⟩
          · intro v dvv h c hc hcw
            rcases hinv.relax v dvv h c hc hcw with h2 | h2
            · exact Or.inl h2
            · by_cases heq : (dvv + matGet g v c, (c : Int)) = ((d, t) : Int × Int)
              · left
                have hct : c = t.toNat := by
                  have : (c : Int) = t := congrArg Prod.snd heq
                  rw [← this]
                  exact (Int.toNat_natCast c).symm
                have hdd : dvv + matGet g v c = d := congrArg Prod.fst heq
                refine ⟨dv, hct ▸ hcur, ?_⟩
                rw [hdd]
                exact le_trans hdv.1 hdf
              · right
                rw [hrest]
                exact List.mem_erase_of_ne heq |>.mpr h2
          · rcases hinv.start with h | h
            · exact Or.inl h
            · refine Or.inr ⟨h.1, ?_⟩
              have hne : ((0 : Int), (src : Int)) ≠ ((d, t) : Int × Int) := by
                intro hh
                have : t = (src : Int) := (congrArg Prod.snd hh).symm
                have hsrceq : t.toNat = src := by
                  rw [this]
                  exact Int.toNat_natCast src
                rw [hsrceq] at hcur
                rw [h.1] at hcur
                cases hcur
              rw [hrest]
              exact (List.mem_erase_of_ne hne).mpr h.2
        have hm2 : dijkMeasure g visited prest < fuel := by
          unfold dijkMeasure at hm ⊢
          omega
        exact ih visited prest d hinv2 hm2
      | none =>
        have hlt : ltInf d none = true := rfl
        rw [if_pos hlt]
        have hrowlen : (g.adj_matrix.getD t.toNat []).length = g.v_count :=
          row_length ⟨hwf.1, hwf.2⟩ htt
        have hpush_in : ∀ c, c < g.v_count → matGet g t.toNat c ≠ 0 →
            (d + matGet g t.toNat c, (c : Int)) ∈
              ((List.range (g.adj_matrix.getD t.toNat []).length).filter
                (fun c => decide (matGet g t.toNat c ≠ 0))).map
                (fun c => (d + matGet g t.toNat c, (c : Int))) := by
          intro c hc hcw
          refine List.mem_map.mpr ⟨c, ?_, rfl⟩
          refine List.mem_filter.mpr ⟨?_, by simpa using hcw⟩
          rw [List.mem_range, hrowlen]
          exact hc
        have hpush_mem : ∀ x ∈ ((List.range (g.adj_matrix.getD t.toNat []).length).filter
              (fun c => decide (matGet g t.toNat c ≠ 0))).map
              (fun c => (d + matGet g t.toNat c, (c : Int))),
            ∃ c, c < g.v_count ∧ matGet g t.toNat c ≠ 0 ∧
              x = (d + matGet g t.toNat c, (c : Int)) := by
          intro x hx
          rcases List.mem_map.mp hx with ⟨c, hc, hfc⟩
          rcases List.mem_filter.mp hc with ⟨hcr, hcw⟩
          rw [List.mem_range, hrowlen] at hcr
          exact ⟨c, hcr, by simpa using hcw, hfc.symm⟩
        have hinv2 : DijkInv g src d (visited.set t.toNat (some d))
            (prest ++ ((List.range (g.adj_matrix.getD t.toNat []).length).filter
                (fun c => decide (matGet g t.toNat c ≠ 0))).map
              (fun c => (d + matGet g t.toNat c, (c : Int)))) := by
          refine ⟨by rw [List.length_set]; exact hinv.len, le_trans hinv.floor0 hdf,
            ?_, ?_, ?_, ?_⟩
          · intro e he
            rcases List.mem_append.mp he with he | he
            · obtain ⟨h1, h2, _, h4⟩ := hinv.pqBound e (hprest_sub e he)
              exact ⟨h1, h2, hmin e (hprest_sub e he), h4⟩
            · obtain ⟨c, hc, hcw, rfl⟩ := hpush_mem _ he
              refine ⟨?_, ?_, ?_, ?_⟩
              · show (0 : Int) ≤ (c : Int)
                exact Int.natCast_nonneg c
              · show ((c : Nat) : Int) < (g.v_count : Int)
                exact_mod_cast hc
              · show d ≤ d + matGet g t.toNat c
                have := hpos t.toNat c htt hc
                omega
              · show Walk g src ((c : Int)).toNat (d + matGet g t.toNat c)
                rw [Int.toNat_natCast]
                exact Walk.step hwalkm hc hcw
          · intro v dvv h
            by_cases hv : v = t.toNat
            · subst hv
              rw [getD_set_self (by rw [hinv.len]; exact htt) _] at h
              cases h
              exact ⟨le_refl d, hwalkm⟩
            · rw [getD_set_ne hv] at h
              obtain ⟨h1, h2⟩ := hinv.visBound v dvv h
              exact ⟨le_trans h1 hdf, h2⟩
          · intro v dvv h c hc hcw
            by_cases hv : v = t.toNat
            · subst hv
              rw [getD_set_self (by rw [hinv.len]; exact htt) _] at h
              cases h
              exact Or.inr (List.mem_append_right _ (hpush_in c hc hcw))
            · rw [getD_set_ne hv] at h
              rcases hinv.relax v dvv h c hc hcw with h2 | h2
              · obtain ⟨dc, hdc1, hdc2⟩ := h2
                have hct : ¬ c = t.toNat := by
                  intro hh
                  rw [hh, hcur] at hdc1
                  cases hdc1
                left
                refine ⟨dc, ?_, hdc2⟩
                rw [getD_set_ne hct]
                exact hdc1
              · by_cases heq : (dvv + matGet g v c, (c : Int)) = ((d, t) : Int × Int)
                · left
                  have hct : c = t.toNat := by
                    have : (c : Int) = t := congrArg Prod.snd heq
                    rw [← this]
                    exact (Int.toNat_natCast c).symm
                  have hdd : dvv + matGet g v c = d := congrArg Prod.fst heq
                  refine ⟨d, ?_, le_of_eq hdd.symm⟩
                  rw [hct, getD_set_self (by rw [hinv.len]; exact htt)]
                · right
                  refine List.mem_append_left _ ?_
                  rw [hrest]
                  exact (List.mem_erase_of_ne heq).mpr h2
          · by_cases hsrct : src = t.toNat
            · left
              have hd0 : d = 0 := by
                rcases hinv.start with h | h
                · rw [← hsrct] at hcur
                  rw [h] at hcur
                  cases hcur
                · have hle : d ≤ 0 := hmin _ h.2
                  have hge : 0 ≤ d := Walk.nonneg hpos hwalkm
                  omega
              rw [hsrct, getD_set_self (by rw [hinv.len]; exact htt), hd0]
            · rcases hinv.start with h | h
              · left
                rw [getD_set_ne hsrct]
                exact h
              · refine Or.inr ⟨?_, ?_⟩
                · rw [getD_set_ne hsrct]
                  exact h.1
                · refine List.mem_append_left _ ?_
                  have hne : ((0 : Int), (src : Int)) ≠ ((d, t) : Int × Int) := by
                    intro hh
                    have : t = (src : Int) := (congrArg Prod.snd hh).symm
                    have : t.toNat = src := by
                      rw [this]
                      exact Int.toNat_natCast src
                    exact hsrct this.symm
                  rw [hrest]
                  exact (List.mem_erase_of_ne hne).mpr h.2
        have hm2 : dijkMeasure g (visited.set t.toNat (some d))
            (prest ++ ((List.range (g.adj_matrix.getD t.toNat []).length).filter
                (fun c => decide (matGet g t.toNat c ≠ 0))).map
              (fun c => (d + matGet g t.toNat c, (c : Int)))) < fuel := by
          have hnc := noneCount_set (by rw [hinv.len]; exact htt) hcur d
          have hplen : (((List.range (g.adj_matrix.getD t.toNat []).length).filter
                (fun c => decide (matGet g t.toNat c ≠ 0))).map
              (fun c => (d + matGet g t.toNat c, (c : Int)))).length ≤ g.v_count := by
            rw [List.length_map]
            calc ((List.range (g.adj_matrix.getD t.toNat []).length).filter
                (fun c => decide (matGet g t.toNat c ≠ 0))).length
                ≤ (List.range (g.adj_matrix.getD t.toNat []).length).length :=
                  List.length_filter_le _ _
              _ = g.v_count := by rw [List.length_range, hrowlen]
          have hmul : (g.v_count + 1) * (visited.countP (fun o => o.isNone)) =
              (g.v_count + 1) * ((visited.set t.toNat (some d)).countP (fun o => o.isNone))
              + (g.v_count + 1) := by
            rw [← hnc]
            ring
          unfold dijkMeasure at hm ⊢
          rw [List.length_append]
          omega
        exact ih _ _ d hinv2 hm2

end DG

namespace DG

theorem exists_dup_split {p : List Nat} (h : ¬ p.Nodup) :
    ∃ a x b c, p = a ++ x :: b ++ x :: c := by
  induction p with
  | nil => exact absurd List.nodup_nil h
  | cons y t ih =>
    by_cases hy : y ∈ t
    · obtain ⟨b, c, rfl⟩ := List.append_of_mem hy
      exact ⟨[], y, b, c, rfl⟩
    · have ht : ¬ t.Nodup := fun hn => h (List.nodup_cons.mpr ⟨hy, hn⟩)
      obtain ⟨a, x, b, c, rfl⟩ := ih ht
      exact ⟨y :: a, x, b, c, rfl⟩

theorem pathWeight_append_cons (g : DirectedGraph) (xs : List Nat) (x : Nat) (ys : List Nat) :
    pathWeight g (xs ++ x :: ys) = pathWeight g (xs ++ [x]) + pathWeight g (x :: ys) := by
  induction xs with
  | nil =>
    show pathWeight g (x :: ys) = pathWeight g [x] + pathWeight g (x :: ys)
    show pathWeight g (x :: ys) = 0 + pathWeight g (x :: ys)
    ring
  | cons a t ih =>
    cases t with
    | nil =>
      show matGet g a x + pathWeight g (x :: ys) =
        (matGet g a x + pathWeight g [x]) + pathWeight g (x :: ys)
      show matGet g a x + pathWeight g (x :: ys) =
        (matGet g a x + 0) + pathWeight g (x :: ys)
      ring
    | cons b r =>
      show matGet g a b + pathWeight g ((b :: r) ++ x :: ys) =
        (matGet g a b + pathWeight g ((b :: r) ++ [x])) + pathWeight g (x :: ys)
      rw [ih]
      ring

theorem pathWeight_nonneg {g : DirectedGraph}
    (hpos : ∀ i j, i < g.v_count → j < g.v_count → 0 ≤ matGet g i j) :
    ∀ p : List Nat, (∀ x ∈ p, x < g.v_count) → 0 ≤ pathWeight g p := by
  intro p
  induction p with
  | nil => intro _; exact le_refl 0
  | cons a t ih =>
    intro hb
    cases t with
    | nil => exact le_refl 0
    | cons b r =>
      have h1 : 0 ≤ matGet g a b :=
        hpos a b (hb a (by simp)) (hb b (by simp))
      have h2 : 0 ≤ pathWeight g (b :: r) := ih (fun x hx => hb x (List.mem_cons_of_mem a hx))
      show 0 ≤ matGet g a b + pathWeight g (b :: r)
      omega

theorem head_eq_of_cut (a : List Nat) (x : Nat) (b c : List Nat) :
    (a ++ x :: c).head? = ((a ++ x :: b) ++ x :: c).head? := by
  cases a with
  | nil => rfl
  | cons a0 t => rfl

theorem last_eq_of_cut (a : List Nat) (x : Nat) (b c : List Nat) :
    (a ++ x :: c).getLast? = ((a ++ x :: b) ++ x :: c).getLast? := by
  obtain ⟨z, hz⟩ : ∃ z, (x :: c).getLast? = some z :=
    ⟨(x :: c).getLast (by simp), List.getLast?_eq_getLast _ _⟩
  rw [List.getLast?_append, List.getLast?_append, hz]
  rfl

theorem walk_dedup {g : DirectedGraph}
    (hpos : ∀ i j, i < g.v_count → j < g.v_count → 0 ≤ matGet g i j) {s v : Nat} :
    ∀ n (p : List Nat), p.length ≤ n → WalkFromTo g s v p →
      ∃ q, WalkFromTo g s v q ∧ q.Nodup ∧ pathWeight g q ≤ pathWeight g p := by
  intro n
  induction n with
  | zero =>
    intro p hl h
    cases p with
    | nil => cases h.2.1
    | cons a t => simp at hl
  | succ n ih =>
    intro p hl h
    by_cases hnd : p.Nodup
    · exact ⟨p, h, hnd, le_refl _⟩
    · obtain ⟨a, x, b, c, rfl⟩ := exists_dup_split hnd
      obtain ⟨⟨hmem, hch⟩, hhd, hlast⟩ := h
      have hq : WalkFromTo g s v (a ++ x :: c) := by
        refine ⟨⟨?_, ?_⟩, ?_, ?_⟩
        · intro y hy
          refine hmem y ?_
          rcases List.mem_append.mp hy with hy | hy
          · exact List.mem_append_left _ (List.mem_append_left _ hy)
          · rcases List.mem_cons.mp hy with hy | hy
            · exact List.mem_append_right _ (hy ▸ List.mem_cons_self x c)
            · exact List.mem_append_right _ (List.mem_cons_of_mem x hy)
        · rw [List.chain'_append] at hch
          have hfirst := hch.1
          rw [List.chain'_append] at hfirst
          rw [List.chain'_append]
          refine ⟨hfirst.1, hch.2.1, ?_⟩
          intro u hu y hy
          have hy2 : y = x := by
            simp only [List.head?_cons, Option.mem_def, Option.some.injEq] at hy
            exact hy.symm
          subst hy2
          refine hfirst.2.2 u hu y ?_
          rfl
        · rw [head_eq_of_cut a x b c]
          exact hhd
        · rw [last_eq_of_cut a x b c]
          exact hlast
      have hqlen : (a ++ x :: c).length ≤ n := by
        have h4 := hl
        simp only [List.length_append, List.length_cons] at h4 ⊢
        omega
      obtain ⟨q, hq2, hnd2, hw2⟩ := ih (a ++ x :: c) hqlen hq
      refine ⟨q, hq2, hnd2, le_trans hw2 ?_⟩
      rw [pathWeight_append_cons g a x c,
        pathWeight_append_cons g (a ++ x :: b) x c]
      have hr : pathWeight g ((a ++ x :: b) ++ [x]) =
          pathWeight g (a ++ [x]) + pathWeight g (x :: (b ++ [x])) := by
        rw [List.append_assoc]
        exact pathWeight_append_cons g a x (b ++ [x])
      rw [hr]
      have hnn : 0 ≤ pathWeight g (x :: (b ++ [x])) := by
        refine pathWeight_nonneg hpos _ ?_
        intro y hy
        refine hmem y ?_
        rcases List.mem_cons.mp hy with hy | hy
        · exact List.mem_append_right _ (hy ▸ List.mem_cons_self x c)
        · rcases List.mem_append.mp hy with hy | hy
          · exact List.mem_append_left _ (List.mem_append_right _ (List.mem_cons_of_mem x hy))
          · rw [List.mem_singleton] at hy
            exact List.mem_append_right _ (hy ▸ List.mem_cons_self x c)
      omega

theorem countP_replicate_none (n : Nat) :
    (List.replicate n (none : Option Int)).countP (fun o => o.isNone) = n := by
  induction n with
  | zero => rfl
  | succ k ih => simp [List.replicate_succ, List.countP_cons, ih]

end DG

/-- C2: on a well-formed matrix with only nonnegative entries (nonzero entries
are the positive edge weights), `dijkstra(src)` for an in-range source returns
the distance list indexed by vertex id: 0 at the source, `inf` exactly at the
vertices with no directed path from the source, and at each reachable vertex
the least total weight over all directed paths from the source (achieved by a
duplicate-free path). -/
theorem c2_dijkstra_correct (g : DG.DirectedGraph) (hwf : DG.WFmat g)
    (hpos : ∀ i, i < g.v_count → ∀ j, j < g.v_count → 0 ≤ DG.matGet g i j)
    (src : Nat) (hsrc : src < g.v_count) :
    ∃ l, DG.dijkstra g (src : Int) = some (PyRes.ok l) ∧ l.length = g.v_count ∧
      l.getD src none = some 0 ∧
      ∀ v, v < g.v_count →
        (¬ DG.ReachableDG g src v → l.getD v none = none) ∧
        (DG.ReachableDG g src v →
          ∃ d : Int, l.getD v none = some d ∧
            (∃ p, DG.WalkFromTo g src v p ∧ p.Nodup ∧ DG.pathWeight g p = d) ∧
            (∀ p, DG.WalkFromTo g src v p → d ≤ DG.pathWeight g p)) := by
  have hpos2 : ∀ i j, i < g.v_count → j < g.v_count → 0 ≤ DG.matGet g i j :=
    fun i j hi hj => hpos i hi j hj
  have hinv : DG.DijkInv g src 0 (List.replicate g.v_count none) [(0, (src : Int))] := by
    refine ⟨by simp, le_refl 0, ?_, ?_, ?_, ?_⟩
    · intro e he
      rw [List.mem_singleton] at he
      subst he
      refine ⟨?_, ?_, le_refl 0, ?_⟩
      · show (0 : Int) ≤ (src : Int)
        exact Int.natCast_nonneg src
      · show ((src : Nat) : Int) < (g.v_count : Int)
        exact_mod_cast hsrc
      show DG.Walk g src ((src : Int)).toNat 0
      rw [Int.toNat_natCast]
      exact DG.Walk.base hsrc
    · intro v dv h
      rw [DG.getD_replicate_none] at h
      cases h
    · intro v dv h
      rw [DG.getD_replicate_none] at h
      cases h
    · refine Or.inr ⟨DG.getD_replicate_none _ _, List.mem_singleton.mpr rfl⟩
  have hm : DG.dijkMeasure g (List.replicate g.v_count none) [(0, (src : Int))] <
      (g.v_count + 1) * g.v_count + 2 := by
    unfold DG.dijkMeasure
    rw [DG.countP_replicate_none]
    simp only [List.length_singleton]
    omega
  obtain ⟨v2, hrun, hlen, hsrc0, hsound, hrelax⟩ :=
    DG.dijkstraLoop_ok hwf hpos2 _ _ _ _ hinv hm
  have final_le : ∀ {w : Nat} {dd : Int}, DG.Walk g src w dd →
      ∃ dw, v2.getD w none = some dw ∧ dw ≤ dd := by
    intro w dd hwalk
    induction hwalk with
    | base hs => exact ⟨0, hsrc0, le_refl 0⟩
    | step hw hc he ihw =>
      obtain ⟨du, hdu, hdu2⟩ := ihw
      obtain ⟨dc, hdc, hdc2⟩ := hrelax _ du hdu _ hc he
      refine ⟨dc, hdc, ?_⟩
      omega
  refine ⟨v2, hrun, hlen, hsrc0, ?_⟩
  intro v hv
  constructor
  · intro hunreach
    cases hgv : v2.getD v none with
    | none => rfl
    | some dv =>
      exfalso
      obtain ⟨p, hp, _⟩ := (hsound v dv hgv).toList
      exact hunreach ⟨p, hp⟩
  · intro hreach
    obtain ⟨p0, hp0⟩ := hreach
    obtain ⟨dv, hdv, hdvle⟩ := final_le (DG.Walk.ofList hp0)
    refine ⟨dv, hdv, ?_, ?_⟩
    · obtain ⟨p1, hp1, hp1w⟩ := (hsound v dv hdv).toList
      obtain ⟨q, hq, hqnd, hqw⟩ := DG.walk_dedup hpos2 p1.length p1 (le_refl _) hp1
      obtain ⟨dw, hdw, hdwle⟩ := final_le (DG.Walk.ofList hq)
      rw [hdv] at hdw
      cases hdw
      refine ⟨q, hq, hqnd, ?_⟩
      have h5 : DG.pathWeight g q ≤ dv := hp1w ▸ hqw
      omega
    · intro p hp
      obtain ⟨dw, hdw, hdwle⟩ := final_le (DG.Walk.ofList hp)
      rw [hdv] at hdw
      cases hdw
      exact hdwle

theorem c2_witness :
    gFix.adj_matrix.length = gFix.v_count ∧
    (∀ row ∈ gFix.adj_matrix, row.length = gFix.v_count) ∧
    (∀ i, i < gFix.v_count → ∀ j, j < gFix.v_count → 0 ≤ DG.matGet gFix i j) ∧
    4 < gFix.v_count ∧
    ∃ l, DG.dijkstra gFix (4 : Int) = some (PyRes.ok l) ∧ l.getD 4 none = some 0 := by
  refine ⟨by decide, by decide, by decide, by decide, ?_⟩
  obtain ⟨l, hl, _, hsrc0, _⟩ :=
    c2_dijkstra_correct gFix ⟨by decide, by decide⟩ (by decide) 4 (by decide)
  exact ⟨l, hl, hsrc0⟩

namespace Maze

/-- A board cell, `(row, column)`. -/
abbrev Cell := Nat × Nat

/-- `max_x = len(board)`. -/
def mazeH (board : List (List Char)) : Nat := board.length

/-- `max_y = len(board[0])`. -/
def mazeW (board : List (List Char)) : Nat := (board.getD 0 []).length

/-- Reading `board[r][c]` (a blank for out-of-range reads, which the verified
runs never perform thanks to the bounds guard). -/
def boardGet (board : List (List Char)) (cell : Cell) : Char :=
  (board.getD cell.1 []).getD cell.2 ' '

/-- A cell the solver may stand on: in bounds and not a wall. -/
def cellOpen (board : List (List Char)) (cell : Cell) : Prop :=
  cell.1 < mazeH board ∧ cell.2 < mazeW board ∧ boardGet board cell ≠ '#'

instance (board : List (List Char)) (cell : Cell) : Decidable (cellOpen board cell) := by
  unfold cellOpen
  infer_instance

/-- One orthogonal unit move between cells. -/
def adjCell (a b : Cell) : Prop :=
  (a.1 = b.1 ∧ (a.2 + 1 = b.2 ∨ b.2 + 1 = a.2)) ∨
  (a.2 = b.2 ∧ (a.1 + 1 = b.1 ∨ b.1 + 1 = a.1))

instance (a b : Cell) : Decidable (adjCell a b) := by
  unfold adjCell
  infer_instance

/-- A sequence of open cells connected by orthogonal unit moves. -/
def GridWalk (board : List (List Char)) (p : List Cell) : Prop :=
  (∀ cell ∈ p, cellOpen board cell) ∧ List.Chain' adjCell p

/-- A grid walk with fixed endpoints. -/
def GridPathFromTo (board : List (List Char)) (s t : Cell) (p : List Cell) : Prop :=
  GridWalk board p ∧ p.head? = some s ∧ p.getLast? = some t

/-- Reachability through open cells. -/
def GridReach (board : List (List Char)) (s t : Cell) : Prop :=
  ∃ p, GridPathFromTo board s t p

/-- The mutable state of `solve_puzzle`: the per-cell best distances, the
priority queue of `(distance, cell, path)` entries, and the best known path to
the destination. -/
structure MState where
  dist : List (List (Option Int))
  pq : List (Int × Cell × List Cell)
  sp : Option (List Cell)
deriving DecidableEq, Repr

/-- Reading `distances[(r,c)]`. -/
def getDist (dist : List (List (Option Int))) (cell : Cell) : Option Int :=
  (dist.getD cell.1 []).getD cell.2 none

/-- Writing `distances[(r,c)] = v`. -/
def setDist (dist : List (List (Option Int))) (cell : Cell) (v : Int) :
    List (List (Option Int)) :=
  dist.set cell.1 ((dist.getD cell.1 []).set cell.2 (some v))

/-- Python tuple comparison on cells. -/
def cellLt (a b : Cell) : Bool :=
  decide (a.1 < b.1) || (decide (a.1 = b.1) && decide (a.2 < b.2))

/-- Python list comparison on paths (lexicographic, a strict prefix is
smaller). -/
def pathLt : List Cell → List Cell → Bool
  | [], [] => false
  | [], _ :: _ => true
  | _ :: _, [] => false
  | a :: as2, b :: bs => cellLt a b || (decide (a = b) && pathLt as2 bs)

/-- The order under which `heapq` pops `(distance, cell, path)` triples. -/
def entryLe (x y : Int × Cell × List Cell) : Bool :=
  decide (x.1 < y.1) ||
    (decide (x.1 = y.1) &&
      (cellLt x.2.1 y.2.1 ||
        (decide (x.2.1 = y.2.1) && (pathLt x.2.2 y.2.2 || decide (x.2.2 = y.2.2)))))

/-- `heapq.heappop` on the maze queue: remove and return the least entry. -/
def popMinM : List (Int × Cell × List Cell) →
    Option ((Int × Cell × List Cell) × List (Int × Cell × List Cell))
  | [] => none
  | e :: rest =>
    let m := (e :: rest).foldl (fun a b => if entryLe a b then a else b) e
    some (m, (e :: rest).erase m)

/-- The stale-entry rejection `current_distance > distances[(x,y)]`. -/
def gtInf (d : Int) : Option Int → Bool
  | none => false
  | some x => decide (x < d)

/-- Processing one candidate move `(x_change, y_change)`: skip out-of-bounds
and wall cells, and on a strict improvement update the distance, push the
extended path, and refresh `shortest_path` when the neighbour is the
destination. -/
def relaxMove (board : List (List Char)) (dest : Cell) (d : Int) (path : List Cell)
    (cell : Cell) (st : MState) (mv : Int × Int) : MState :=
  let nx : Int := (cell.1 : Int) + mv.1
  let ny : Int := (cell.2 : Int) + mv.2
  if ¬ (0 ≤ nx ∧ nx < (mazeH board : Int)) ∨ ¬ (0 ≤ ny ∧ ny < (mazeW board : Int)) then st
  else if boardGet board (nx.toNat, ny.toNat) = '#' then st
  else
    let nb : Cell := (nx.toNat, ny.toNat)
    if DG.ltInf (d + 1) (getDist st.dist nb) then
      { dist := setDist st.dist nb (d + 1)
        pq := st.pq ++ [(d + 1, nb, path ++ [nb])]
        sp := if nb = dest then some (path ++ [nb]) else st.sp }
    else st

/-- The move list `[(0,1), (1,0), (-1,0), (0,-1)]`. -/
def mazeMoves : List (Int × Int) := [(0, 1), (1, 0), (-1, 0), (0, -1)]

/-- The `while len(priority_queue) > 0` loop of `solve_puzzle`. -/
def mazeLoop (board : List (List Char)) (dest : Cell) :
    Nat → MState → Option (Option (List Cell))
  | 0, st => if st.pq.isEmpty then some st.sp else none
  | fuel + 1, st =>
    match popMinM st.pq with
    | none => some st.sp
    | some ((d, cell, path), rest) =>
      if gtInf d (getDist st.dist cell) then
        mazeLoop board dest fuel { st with pq := rest }
      else
        mazeLoop board dest fuel
          (mazeMoves.foldl (relaxMove board dest d path cell) { st with pq := rest })

/-- `solve_puzzle(board, source, destination)`: trivial one-cell path when the
endpoints coincide, otherwise the Dijkstra-over-the-grid loop.  The fuel
`2*H*W + 2` dominates the loop count of every run (each cell's distance is set
at most once). -/
def solve_puzzle (board : List (List Char)) (source destination : Cell) :
    Option (Option (List Cell)) :=
  if source = destination then some (some [source])
  else
    mazeLoop board destination (2 * (mazeH board * mazeW board) + 2)
      { dist := setDist (List.replicate (mazeH board)
          (List.replicate (mazeW board) none)) source 0
        pq := [(0, source, [source])]
        sp := none }

end Maze

namespace Maze

theorem entryLe_fst_le {a b : Int × Cell × List Cell} (h : entryLe a b = true) :
    a.1 ≤ b.1 := by
  unfold entryLe at h
  rcases Bool.or_eq_true_iff.mp h with h | h
  · exact le_of_lt (of_decide_eq_true h)
  · exact le_of_eq (of_decide_eq_true (Bool.and_eq_true_iff.mp h).1)

theorem entryLe_fst_le_of_false {a b : Int × Cell × List Cell} (h : entryLe a b = false) :
    b.1 ≤ a.1 := by
  unfold entryLe at h
  rw [Bool.or_eq_false_iff] at h
  exact le_of_not_lt (of_decide_eq_false h.1)

theorem foldl_min_memM (l : List (Int × Cell × List Cell)) (a : Int × Cell × List Cell) :
    l.foldl (fun x y => if entryLe x y then x else y) a = a ∨
    l.foldl (fun x y => if entryLe x y then x else y) a ∈ l := by
  induction l generalizing a with
  | nil => exact Or.inl rfl
  | cons e t ih =>
    rw [List.foldl_cons]
    by_cases hc : entryLe a e = true
    · rw [if_pos hc]
      rcases ih a with h | h
      · exact Or.inl h
      · exact Or.inr (List.mem_cons_of_mem e h)
    · rw [if_neg hc]
      rcases ih e with h | h
      · rw [h]
        exact Or.inr (List.mem_cons_self e t)
      · exact Or.inr (List.mem_cons_of_mem e h)

theorem foldl_min_leM (l : List (Int × Cell × List Cell)) (a : Int × Cell × List Cell) :
    (l.foldl (fun x y => if entryLe x y then x else y) a).1 ≤ a.1 ∧
    ∀ e ∈ l, (l.foldl (fun x y => if entryLe x y then x else y) a).1 ≤ e.1 := by
  induction l generalizing a with
  | nil => exact ⟨le_refl _, by intro e he; cases he⟩
  | cons e t ih =>
    rw [List.foldl_cons]
    by_cases hc : entryLe a e = true
    · rw [if_pos hc]
      obtain ⟨h1, h2⟩ := ih a
      refine ⟨h1, ?_⟩
      intro x hx2
      rcases List.mem_cons.mp hx2 with hx2 | hx2
      · rw [hx2]
        exact le_trans h1 (entryLe_fst_le hc)
      · exact h2 x hx2
    · rw [if_neg hc]
      obtain ⟨h1, h2⟩ := ih e
      refine ⟨le_trans h1 (entryLe_fst_le_of_false (Bool.eq_false_iff.mpr hc)), ?_⟩
      intro x hx2
      rcases List.mem_cons.mp hx2 with hx2 | hx2
      · rw [hx2]
        exact h1
      · exact h2 x hx2

theorem popMinM_spec {pq : List (Int × Cell × List Cell)} {m : Int × Cell × List Cell}
    {rest : List (Int × Cell × List Cell)} (h : popMinM pq = some (m, rest)) :
    m ∈ pq ∧ rest = pq.erase m ∧ ∀ e ∈ pq, m.1 ≤ e.1 := by
  cases pq with
  | nil => cases h
  | cons e t =>
    rw [popMinM] at h
    injection h with h1
    injection h1 with hm hr
    subst hm
    subst hr
    constructor
    · rcases foldl_min_memM (e :: t) e with h | h
      · rw [h]
        exact List.mem_cons_self e t
      · exact h
    constructor
    · rfl
    · exact (foldl_min_leM (e :: t) e).2

/-- Grid shape of a distance table. -/
def DShape (H W : Nat) (dist : List (List (Option Int))) : Prop :=
  dist.length = H ∧ ∀ row ∈ dist, row.length = W

theorem getDrow_set_self {l : List (List (Option Int))} {i : Nat} (h : i < l.length)
    (x : List (Option Int)) : (l.set i x).getD i [] = x := by
  induction l generalizing i with
  | nil => simp at h
  | cons a t ih =>
    cases i with
    | zero => rfl
    | succ k => exact ih (by simpa using h)

theorem getDrow_set_ne {l : List (List (Option Int))} {i j : Nat} (h : j ≠ i)
    (x : List (Option Int)) : (l.set i x).getD j [] = l.getD j [] := by
  induction l generalizing i j with
  | nil => rfl
  | cons a t ih =>
    cases i with
    | zero =>
      cases j with
      | zero => exact absurd rfl h
      | succ k => rfl
    | succ i2 =>
      cases j with
      | zero => rfl
      | succ k =>
        show (t.set i2 x).getD k [] = t.getD k []
        apply ih
        omega

theorem rowOf_length {H W : Nat} {dist : List (List (Option Int))}
    (hsh : DShape H W dist) {r : Nat} (hr : r < H) : (dist.getD r []).length = W := by
  have hrl : r < dist.length := by rw [hsh.1]; exact hr
  rw [List.getD_eq_getElem _ _ hrl]
  exact hsh.2 _ (List.getElem_mem hrl)

theorem dshape_setDist {H W : Nat} {dist : List (List (Option Int))}
    (hsh : DShape H W dist) (cell : Cell) (h1 : cell.1 < H) (h2 : cell.2 < W) (v : Int) :
    DShape H W (setDist dist cell v) := by
  constructor
  · rw [setDist, List.length_set, hsh.1]
  · intro row hrow
    rcases List.mem_or_eq_of_mem_set hrow with h | h
    · exact hsh.2 row h
    · rw [h, List.length_set]
      exact rowOf_length hsh h1

theorem getDist_setDist_self {H W : Nat} {dist : List (List (Option Int))}
    (hsh : DShape H W dist) {cell : Cell} (h1 : cell.1 < H) (h2 : cell.2 < W) (v : Int) :
    getDist (setDist dist cell v) cell = some v := by
  have hrl : cell.1 < dist.length := by rw [hsh.1]; exact h1
  have hcl : cell.2 < (dist.getD cell.1 []).length := by rw [rowOf_length hsh h1]; exact h2
  rw [getDist, setDist, getDrow_set_self hrl]
  exact DG.getD_set_self hcl (some v)

theorem getDist_setDist_ne {dist : List (List (Option Int))}
    {cell c2 : Cell} (hne : c2 ≠ cell) (v : Int) :
    getDist (setDist dist cell v) c2 = getDist dist c2 := by
  by_cases hr : c2.1 = cell.1
  · have hc : c2.2 ≠ cell.2 := by
      intro hcc
      exact hne (Prod.ext hr hcc)
    rw [getDist, setDist, getDist]
    by_cases hrl : cell.1 < dist.length
    · rw [hr, getDrow_set_self hrl]
      exact DG.getD_set_ne hc (some v)
    · rw [List.set_eq_of_length_le (le_of_not_lt hrl)]
  · rw [getDist, setDist, getDrow_set_ne hr, getDist]

theorem getDist_init (H W : Nat) (cell : Cell) :
    getDist (List.replicate H (List.replicate W (none : Option Int))) cell = none := by
  rw [getDist]
  by_cases hr : cell.1 < H
  · have : (List.replicate H (List.replicate W (none : Option Int))).getD cell.1 [] =
        List.replicate W none := by
      rw [List.getD_eq_getElem _ _ (by simpa using hr), List.getElem_replicate]
    rw [this]
    exact DG.getD_replicate_none W cell.2
  · have : (List.replicate H (List.replicate W (none : Option Int))).getD cell.1 [] = [] := by
      apply List.getD_eq_default
      simpa using le_of_not_lt hr
    rw [this]
    rfl

theorem dshape_init (H W : Nat) :
    DShape H W (List.replicate H (List.replicate W (none : Option Int))) := by
  constructor
  · exact List.length_replicate H _
  · intro row hrow
    rw [List.eq_of_mem_replicate hrow]
    exact List.length_replicate W _

/-- The number of still-infinite distance cells. -/
def countNone (dist : List (List (Option Int))) : Nat :=
  (dist.map (fun row => row.countP (fun o => o.isNone))).sum

theorem natSum_set (l : List Nat) (i : Nat) (h : i < l.length) (x : Nat) :
    (l.set i x).sum + l.getD i 0 = l.sum + x := by
  induction l generalizing i with
  | nil => simp at h
  | cons a t ih =>
    cases i with
    | zero =>
      show x + t.sum + a = a + t.sum + x
      omega
    | succ k =>
      have hk : k < t.length := by simpa using h
      show a + (t.set k x).sum + t.getD k 0 = a + t.sum + x
      have := ih k hk
      omega

theorem countNone_setDist {H W : Nat} {dist : List (List (Option Int))}
    (hsh : DShape H W dist) {cell : Cell} (h1 : cell.1 < H) (h2 : cell.2 < W)
    (hnone : getDist dist cell = none) (v : Int) :
    countNone (setDist dist cell v) + 1 = countNone dist := by
  have hrl : cell.1 < dist.length := by rw [hsh.1]; exact h1
  have hcl : cell.2 < (dist.getD cell.1 []).length := by rw [rowOf_length hsh h1]; exact h2
  rw [countNone, countNone, setDist, List.map_set]
  have hmlen : cell.1 < (dist.map (fun row => row.countP (fun o => o.isNone))).length := by
    simpa using hrl
  have hsum := natSum_set (dist.map (fun row => row.countP (fun o => o.isNone))) cell.1 hmlen
    (((dist.getD cell.1 []).set cell.2 (some v)).countP (fun o => o.isNone))
  have hget : (dist.map (fun row => row.countP (fun o => o.isNone))).getD cell.1 0 =
      (dist.getD cell.1 []).countP (fun o => o.isNone) := by
    rw [List.getD_eq_getElem _ _ hmlen, List.getElem_map,
      List.getD_eq_getElem _ _ hrl]
  have hrow := DG.noneCount_set hcl hnone v
  omega

theorem gridPath_single {board : List (List Char)} {s : Cell} (h : cellOpen board s) :
    GridPathFromTo board s s [s] := by
  refine ⟨⟨?_, ?_⟩, rfl, rfl⟩
  · intro c hc
    rw [List.mem_singleton.mp hc]
    exact h
  · exact List.chain'_singleton s

theorem gridPath_snoc {board : List (List Char)} {s u w : Cell} {p : List Cell}
    (hp : GridPathFromTo board s u p) (hw : cellOpen board w) (ha : adjCell u w) :
    GridPathFromTo board s w (p ++ [w]) := by
  obtain ⟨⟨hop, hch⟩, hhd, hlast⟩ := hp
  have hne : p ≠ [] := by
    intro hh
    rw [hh] at hhd
    cases hhd
  refine ⟨⟨?_, ?_⟩, ?_, List.getLast?_concat p⟩
  · intro c hc
    rcases List.mem_append.mp hc with h | h
    · exact hop c h
    · rw [List.mem_singleton.mp h]
      exact hw
  · rw [List.chain'_append]
    refine ⟨hch, List.chain'_singleton w, ?_⟩
    intro x hx y hy
    rw [hlast] at hx
    injection hx with hx
    have hy2 : y = w := by
      injection hy with hy3
      exact hy3.symm
    rw [← hx, hy2]
    exact ha
  · rw [List.head?_append_of_ne_nil _ hne]
    exact hhd

theorem gridPath_unsnoc {board : List (List Char)} {s w : Cell} {p : List Cell} {a : Cell}
    (hp : GridPathFromTo board s w (p ++ [a])) (hne : p ≠ []) :
    ∃ u, p.getLast? = some u ∧ GridPathFromTo board s u p ∧ adjCell u a ∧ cellOpen board a := by
  obtain ⟨⟨hop, hch⟩, hhd, hlast⟩ := hp
  rw [List.chain'_append] at hch
  obtain ⟨hch1, hch2, hlink⟩ := hch
  obtain ⟨u, hu⟩ : ∃ u, p.getLast? = some u := by
    cases hp2 : p.getLast? with
    | none => exact absurd (List.getLast?_eq_none_iff.mp hp2) hne
    | some u => exact ⟨u, rfl⟩
  refine ⟨u, hu, ⟨⟨?_, hch1⟩, ?_, hu⟩, ?_, ?_⟩
  · intro c hc
    exact hop c (List.mem_append.mpr (Or.inl hc))
  · rw [List.head?_append_of_ne_nil _ hne] at hhd
    exact hhd
  · exact hlink u hu a rfl
  · exact hop a (List.mem_append.mpr (Or.inr (List.mem_singleton_self a)))

end Maze

namespace Maze

theorem mazeLoop_nil_eq (board : List (List Char)) (dest : Cell) (fuel : Nat) (st : MState)
    (h : st.pq = []) : mazeLoop board dest (fuel + 1) st = some st.sp := by
  rw [mazeLoop, h]
  rfl

theorem mazeLoop_cons_eq (board : List (List Char)) (dest : Cell) (fuel : Nat) (st : MState)
    {d : Int} {cell : Cell} {path : List Cell} {rest : List (Int × Cell × List Cell)}
    (hpop : popMinM st.pq = some ((d, cell, path), rest)) :
    mazeLoop board dest (fuel + 1) st =
      if gtInf d (getDist st.dist cell) then
        mazeLoop board dest fuel { st with pq := rest }
      else
        mazeLoop board dest fuel
          (mazeMoves.foldl (relaxMove board dest d path cell) { st with pq := rest }) := by
  rw [mazeLoop, hpop]

theorem mv_adj {cell nb : Cell} {mv : Int × Int} (hmv : mv ∈ mazeMoves)
    (h1 : (nb.1 : Int) = (cell.1 : Int) + mv.1) (h2 : (nb.2 : Int) = (cell.2 : Int) + mv.2) :
    adjCell cell nb := by
  simp only [mazeMoves, List.mem_cons, List.not_mem_nil, or_false] at hmv
  rcases hmv with h | h | h | h
  · subst h
    have a : (nb.1 : Int) = (cell.1 : Int) + 0 := h1
    have b : (nb.2 : Int) = (cell.2 : Int) + 1 := h2
    unfold adjCell
    omega
  · subst h
    have a : (nb.1 : Int) = (cell.1 : Int) + 1 := h1
    have b : (nb.2 : Int) = (cell.2 : Int) + 0 := h2
    unfold adjCell
    omega
  · subst h
    have a : (nb.1 : Int) = (cell.1 : Int) + (-1) := h1
    have b : (nb.2 : Int) = (cell.2 : Int) + 0 := h2
    unfold adjCell
    omega
  · subst h
    have a : (nb.1 : Int) = (cell.1 : Int) + 0 := h1
    have b : (nb.2 : Int) = (cell.2 : Int) + (-1) := h2
    unfold adjCell
    omega

theorem adj_to_move {cell nb : Cell} (ha : adjCell cell nb) :
    ∃ mv ∈ mazeMoves,
      (nb.1 : Int) = (cell.1 : Int) + mv.1 ∧ (nb.2 : Int) = (cell.2 : Int) + mv.2 := by
  rcases ha with ⟨h1, h2 | h2⟩ | ⟨h1, h2 | h2⟩
  · exact ⟨(0, 1), by simp [mazeMoves],
      by show (nb.1 : Int) = (cell.1 : Int) + 0; omega,
      by show (nb.2 : Int) = (cell.2 : Int) + 1; omega⟩
  · exact ⟨(0, -1), by simp [mazeMoves],
      by show (nb.1 : Int) = (cell.1 : Int) + 0; omega,
      by show (nb.2 : Int) = (cell.2 : Int) + (-1); omega⟩
  · exact ⟨(1, 0), by simp [mazeMoves],
      by show (nb.1 : Int) = (cell.1 : Int) + 1; omega,
      by show (nb.2 : Int) = (cell.2 : Int) + 0; omega⟩
  · exact ⟨(-1, 0), by simp [mazeMoves],
      by show (nb.1 : Int) = (cell.1 : Int) + (-1); omega,
      by show (nb.2 : Int) = (cell.2 : Int) + 0; omega⟩

theorem relaxMove_eq_of_oob {board : List (List Char)} {dest : Cell} {d : Int}
    {path : List Cell} {cell : Cell} {st : MState} {mv : Int × Int}
    (hb : ¬ (0 ≤ (cell.1 : Int) + mv.1 ∧ (cell.1 : Int) + mv.1 < (mazeH board : Int)) ∨
          ¬ (0 ≤ (cell.2 : Int) + mv.2 ∧ (cell.2 : Int) + mv.2 < (mazeW board : Int))) :
    relaxMove board dest d path cell st mv = st := by
  simp only [relaxMove]
  rw [if_pos hb]

theorem relaxMove_eq_of_wall {board : List (List Char)} {dest : Cell} {d : Int}
    {path : List Cell} {cell : Cell} {st : MState} {mv : Int × Int}
    (hbx : 0 ≤ (cell.1 : Int) + mv.1 ∧ (cell.1 : Int) + mv.1 < (mazeH board : Int))
    (hby : 0 ≤ (cell.2 : Int) + mv.2 ∧ (cell.2 : Int) + mv.2 < (mazeW board : Int))
    (hw : boardGet board (((cell.1 : Int) + mv.1).toNat, ((cell.2 : Int) + mv.2).toNat) = '#') :
    relaxMove board dest d path cell st mv = st := by
  simp only [relaxMove]
  rw [if_neg (by push_neg; exact ⟨hbx, hby⟩), if_pos hw]

theorem relaxMove_eq_of_stay {board : List (List Char)} {dest : Cell} {d : Int}
    {path : List Cell} {cell : Cell} {st : MState} {mv : Int × Int}
    (hbx : 0 ≤ (cell.1 : Int) + mv.1 ∧ (cell.1 : Int) + mv.1 < (mazeH board : Int))
    (hby : 0 ≤ (cell.2 : Int) + mv.2 ∧ (cell.2 : Int) + mv.2 < (mazeW board : Int))
    (hw : ¬ boardGet board (((cell.1 : Int) + mv.1).toNat, ((cell.2 : Int) + mv.2).toNat) = '#')
    (hlt : DG.ltInf (d + 1)
      (getDist st.dist (((cell.1 : Int) + mv.1).toNat, ((cell.2 : Int) + mv.2).toNat)) = false) :
    relaxMove board dest d path cell st mv = st := by
  simp only [relaxMove]
  rw [if_neg (by push_neg; exact ⟨hbx, hby⟩), if_neg hw, hlt]
  rw [if_neg (by simp : ¬ (false = true))]

theorem relaxMove_eq_of_update {board : List (List Char)} {dest : Cell} {d : Int}
    {path : List Cell} {cell : Cell} {st : MState} {mv : Int × Int}
    (hbx : 0 ≤ (cell.1 : Int) + mv.1 ∧ (cell.1 : Int) + mv.1 < (mazeH board : Int))
    (hby : 0 ≤ (cell.2 : Int) + mv.2 ∧ (cell.2 : Int) + mv.2 < (mazeW board : Int))
    (hw : ¬ boardGet board (((cell.1 : Int) + mv.1).toNat, ((cell.2 : Int) + mv.2).toNat) = '#')
    (hlt : DG.ltInf (d + 1)
      (getDist st.dist (((cell.1 : Int) + mv.1).toNat, ((cell.2 : Int) + mv.2).toNat)) = true) :
    relaxMove board dest d path cell st mv =
      { dist := setDist st.dist
          (((cell.1 : Int) + mv.1).toNat, ((cell.2 : Int) + mv.2).toNat) (d + 1)
        pq := st.pq ++ [(d + 1, (((cell.1 : Int) + mv.1).toNat, ((cell.2 : Int) + mv.2).toNat),
          path ++ [(((cell.1 : Int) + mv.1).toNat, ((cell.2 : Int) + mv.2).toNat)])]
        sp := if (((cell.1 : Int) + mv.1).toNat, ((cell.2 : Int) + mv.2).toNat) = dest
          then some (path ++ [(((cell.1 : Int) + mv.1).toNat, ((cell.2 : Int) + mv.2).toNat)])
          else st.sp } := by
  simp only [relaxMove]
  rw [if_neg (by push_neg; exact ⟨hbx, hby⟩), if_neg hw, hlt]
  rw [if_pos rfl]

end Maze

namespace Maze

/-- The neighbour of `cell` in direction `mv` (if it is an open cell) already
has a recorded distance at most `d + 1`. -/
def MoveRelaxed (board : List (List Char)) (d : Int) (cell : Cell) (st : MState)
    (mv : Int × Int) : Prop :=
  ∀ nb : Cell, (nb.1 : Int) = (cell.1 : Int) + mv.1 → (nb.2 : Int) = (cell.2 : Int) + mv.2 →
    cellOpen board nb → ∃ dn, getDist st.dist nb = some dn ∧ dn ≤ d + 1

/-- The invariant holding while the four candidate moves of the popped cell
are processed: every queue entry is above the pop priority `d` and carries a
real walk, every recorded distance is at most `d + 1` and is a walk length,
every recorded cell other than the popped one has each neighbour relaxed or
pending, the source is recorded at `0`, `shortest_path` is synchronised with
the destination's recorded distance, and the popped cell is recorded at `d`. -/
structure MidInv (board : List (List Char)) (source dest : Cell) (d : Int) (cell : Cell)
    (st : MState) : Prop where
  shape : DShape (mazeH board) (mazeW board) st.dist
  pqB : ∀ e ∈ st.pq, d ≤ e.1 ∧ GridPathFromTo board source e.2.1 e.2.2 ∧
    ((e.2.2.length : Int) = e.1 + 1) ∧
    ∃ dc, getDist st.dist e.2.1 = some dc ∧ dc ≤ e.1
  distB : ∀ c2 dv, getDist st.dist c2 = some dv → dv ≤ d + 1 ∧
    ∃ p, GridPathFromTo board source c2 p ∧ ((p.length : Int) = dv + 1)
  relaxE : ∀ c2 dv, getDist st.dist c2 = some dv →
    ∀ nb, cellOpen board nb → adjCell c2 nb →
      (∃ dn, getDist st.dist nb = some dn ∧ dn ≤ dv + 1) ∨
      (∃ pp, (dv, c2, pp) ∈ st.pq) ∨ c2 = cell
  srcD : getDist st.dist source = some 0
  spB : (st.sp = none ∧ getDist st.dist dest = none) ∨
    (∃ p dd, st.sp = some p ∧ GridPathFromTo board source dest p ∧
      getDist st.dist dest = some dd ∧ ((p.length : Int) = dd + 1))
  cellD : getDist st.dist cell = some d

theorem relaxMove_mid {board : List (List Char)} {source dest : Cell} {d : Int}
    {cell : Cell} {path : List Cell} {st : MState} {mv : Int × Int}
    (hmv : mv ∈ mazeMoves)
    (hmid : MidInv board source dest d cell st)
    (hpath : GridPathFromTo board source cell path)
    (hplen : (path.length : Int) = d + 1) :
    MidInv board source dest d cell (relaxMove board dest d path cell st mv) ∧
    MoveRelaxed board d cell (relaxMove board dest d path cell st mv) mv ∧
    (∀ mv2, MoveRelaxed board d cell st mv2 →
      MoveRelaxed board d cell (relaxMove board dest d path cell st mv) mv2) ∧
    (relaxMove board dest d path cell st mv).pq.length +
        2 * countNone (relaxMove board dest d path cell st mv).dist ≤
      st.pq.length + 2 * countNone st.dist := by
  by_cases hbx : (0 ≤ (cell.1 : Int) + mv.1 ∧ (cell.1 : Int) + mv.1 < (mazeH board : Int))
  · by_cases hby : (0 ≤ (cell.2 : Int) + mv.2 ∧ (cell.2 : Int) + mv.2 < (mazeW board : Int))
    · have hx1 : ((cell.1 : Int) + mv.1).toNat < mazeH board := (Int.toNat_lt hbx.1).mpr hbx.2
      have hy1 : ((cell.2 : Int) + mv.2).toNat < mazeW board := (Int.toNat_lt hby.1).mpr hby.2
      have hcast1 : ((((cell.1 : Int) + mv.1).toNat : Nat) : Int) = (cell.1 : Int) + mv.1 :=
        Int.toNat_of_nonneg hbx.1
      have hcast2 : ((((cell.2 : Int) + mv.2).toNat : Nat) : Int) = (cell.2 : Int) + mv.2 :=
        Int.toNat_of_nonneg hby.1
      by_cases hw : boardGet board (((cell.1 : Int) + mv.1).toNat,
          ((cell.2 : Int) + mv.2).toNat) = '#'
      · rw [relaxMove_eq_of_wall hbx hby hw]
        refine ⟨hmid, ?_, fun mv2 h => h, le_refl _⟩
        intro nb h1 h2 hopen
        have hnb : nb = (((cell.1 : Int) + mv.1).toNat, ((cell.2 : Int) + mv.2).toNat) := by
          apply Prod.ext
          · exact Nat.cast_injective (h1.trans hcast1.symm)
          · exact Nat.cast_injective (h2.trans hcast2.symm)
        exact absurd (by rw [← hnb] at hw; exact hw) hopen.2.2
      · have hopen0 : cellOpen board
            (((cell.1 : Int) + mv.1).toNat, ((cell.2 : Int) + mv.2).toNat) := ⟨hx1, hy1, hw⟩
        cases hlt : DG.ltInf (d + 1) (getDist st.dist
            (((cell.1 : Int) + mv.1).toNat, ((cell.2 : Int) + mv.2).toNat)) with
        | false =>
          rw [relaxMove_eq_of_stay hbx hby hw hlt]
          refine ⟨hmid, ?_, fun mv2 h => h, le_refl _⟩
          intro nb h1 h2 hopen
          have hnb : nb = (((cell.1 : Int) + mv.1).toNat, ((cell.2 : Int) + mv.2).toNat) := by
            apply Prod.ext
            · exact Nat.cast_injective (h1.trans hcast1.symm)
            · exact Nat.cast_injective (h2.trans hcast2.symm)
          cases hcur : getDist st.dist
              (((cell.1 : Int) + mv.1).toNat, ((cell.2 : Int) + mv.2).toNat) with
          | none =>
            rw [hcur] at hlt
            simp [DG.ltInf] at hlt
          | some dn =>
            rw [hcur] at hlt
            have hle : ¬ (d + 1 < dn) := by
              intro hh
              rw [show DG.ltInf (d + 1) (some dn) = decide (d + 1 < dn) from rfl,
                decide_eq_true hh] at hlt
              cases hlt
            refine ⟨dn, ?_, le_of_not_lt hle⟩
            rw [hnb]
            exact hcur
        | true =>
          rw [relaxMove_eq_of_update hbx hby hw hlt]
          have hnone : getDist st.dist
              (((cell.1 : Int) + mv.1).toNat, ((cell.2 : Int) + mv.2).toNat) = none := by
            cases hcur : getDist st.dist
                (((cell.1 : Int) + mv.1).toNat, ((cell.2 : Int) + mv.2).toNat) with
            | none => rfl
            | some dn =>
              have hb2 := (hmid.distB _ dn hcur).1
              rw [hcur] at hlt
              have : d + 1 < dn := of_decide_eq_true hlt
              omega
          have hset_self : getDist (setDist st.dist
              (((cell.1 : Int) + mv.1).toNat, ((cell.2 : Int) + mv.2).toNat) (d + 1))
              (((cell.1 : Int) + mv.1).toNat, ((cell.2 : Int) + mv.2).toNat) = some (d + 1) :=
            getDist_setDist_self hmid.shape hx1 hy1 (d + 1)
          have hadj0 : adjCell cell
              (((cell.1 : Int) + mv.1).toNat, ((cell.2 : Int) + mv.2).toNat) :=
            mv_adj hmv hcast1 hcast2
          have hFromTo0 : GridPathFromTo board source
              (((cell.1 : Int) + mv.1).toNat, ((cell.2 : Int) + mv.2).toNat)
              (path ++ [(((cell.1 : Int) + mv.1).toNat, ((cell.2 : Int) + mv.2).toNat)]) :=
            gridPath_snoc hpath hopen0 hadj0
          have hlen0 : (((path ++ [(((cell.1 : Int) + mv.1).toNat,
              ((cell.2 : Int) + mv.2).toNat)]).length : Nat) : Int) = (d + 1) + 1 := by
            rw [List.length_append, List.length_singleton]
            push_cast
            omega
          refine ⟨⟨dshape_setDist hmid.shape _ hx1 hy1 (d + 1), ?_, ?_, ?_, ?_, ?_, ?_⟩,
            ?_, ?_, ?_⟩
          · intro e he
            rcases List.mem_append.mp he with he | he
            · obtain ⟨hf, hp2, hl2, dc, hdc, hdcle⟩ := hmid.pqB e he
              have hne : e.2.1 ≠ (((cell.1 : Int) + mv.1).toNat,
                  ((cell.2 : Int) + mv.2).toNat) := by
                intro hh
                rw [hh, hnone] at hdc
                cases hdc
              refine ⟨hf, hp2, hl2, dc, ?_, hdcle⟩
              rw [getDist_setDist_ne hne]
              exact hdc
            · rw [List.mem_singleton.mp he]
              refine ⟨?_, hFromTo0, hlen0, d + 1, hset_self, le_refl _⟩
              show d ≤ d + 1
              omega
          · intro c2 dv hdv
            by_cases hc2 : c2 = (((cell.1 : Int) + mv.1).toNat, ((cell.2 : Int) + mv.2).toNat)
            · subst hc2
              rw [hset_self] at hdv
              injection hdv with hdv
              refine ⟨by omega, _, hFromTo0, ?_⟩
              rw [← hdv]
              exact hlen0
            · rw [getDist_setDist_ne hc2] at hdv
              exact hmid.distB c2 dv hdv
          · intro c2 dv hdv nb hopen hadj
            by_cases hc2 : c2 = (((cell.1 : Int) + mv.1).toNat, ((cell.2 : Int) + mv.2).toNat)
            · subst hc2
              rw [hset_self] at hdv
              injection hdv with hdv
              right
              left
              refine ⟨path ++ [(((cell.1 : Int) + mv.1).toNat, ((cell.2 : Int) + mv.2).toNat)],
                ?_⟩
              rw [← hdv]
              exact List.mem_append.mpr (Or.inr (List.mem_singleton_self _))
            · rw [getDist_setDist_ne hc2] at hdv
              rcases hmid.relaxE c2 dv hdv nb hopen hadj with ⟨dn, hdn, hle⟩ | ⟨pp, hpp⟩ | hcc
              · left
                have hnb : nb ≠ (((cell.1 : Int) + mv.1).toNat,
                    ((cell.2 : Int) + mv.2).toNat) := by
                  intro hh
                  rw [hh, hnone] at hdn
                  cases hdn
                refine ⟨dn, ?_, hle⟩
                rw [getDist_setDist_ne hnb]
                exact hdn
              · exact Or.inr (Or.inl ⟨pp, List.mem_append.mpr (Or.inl hpp)⟩)
              · exact Or.inr (Or.inr hcc)
          · have hne : source ≠ (((cell.1 : Int) + mv.1).toNat,
                ((cell.2 : Int) + mv.2).toNat) := by
              intro hh
              have := hmid.srcD
              rw [hh, hnone] at this
              cases this
            rw [getDist_setDist_ne hne]
            exact hmid.srcD
          · by_cases hdest : (((cell.1 : Int) + mv.1).toNat,
                ((cell.2 : Int) + mv.2).toNat) = dest
            · right
              refine ⟨path ++ [(((cell.1 : Int) + mv.1).toNat, ((cell.2 : Int) + mv.2).toNat)],
                d + 1, ?_, hdest ▸ hFromTo0, ?_, hlen0⟩
              · show (if (((cell.1 : Int) + mv.1).toNat, ((cell.2 : Int) + mv.2).toNat) = dest
                  then some (path ++ [(((cell.1 : Int) + mv.1).toNat,
                    ((cell.2 : Int) + mv.2).toNat)]) else st.sp) = _
                rw [if_pos hdest]
              · rw [← hdest]
                exact hset_self
            · have hne : dest ≠ (((cell.1 : Int) + mv.1).toNat,
                  ((cell.2 : Int) + mv.2).toNat) := fun hh => hdest hh.symm
              rcases hmid.spB with ⟨hsp, hdd⟩ | ⟨p, dd, hsp, hp2, hdd, hl2⟩
              · left
                refine ⟨?_, ?_⟩
                · show (if (((cell.1 : Int) + mv.1).toNat,
                    ((cell.2 : Int) + mv.2).toNat) = dest then _ else st.sp) = none
                  rw [if_neg hdest]
                  exact hsp
                · rw [getDist_setDist_ne hne]
                  exact hdd
              · right
                refine ⟨p, dd, ?_, hp2, ?_, hl2⟩
                · show (if (((cell.1 : Int) + mv.1).toNat,
                    ((cell.2 : Int) + mv.2).toNat) = dest then _ else st.sp) = some p
                  rw [if_neg hdest]
                  exact hsp
                · rw [getDist_setDist_ne hne]
                  exact hdd
          · have hne : cell ≠ (((cell.1 : Int) + mv.1).toNat,
                ((cell.2 : Int) + mv.2).toNat) := by
              intro hh
              have := hmid.cellD
              rw [hh, hnone] at this
              cases this
            rw [getDist_setDist_ne hne]
            exact hmid.cellD
          · intro nb h1 h2 hopen
            have hnb : nb = (((cell.1 : Int) + mv.1).toNat, ((cell.2 : Int) + mv.2).toNat) := by
              apply Prod.ext
              · exact Nat.cast_injective (h1.trans hcast1.symm)
              · exact Nat.cast_injective (h2.trans hcast2.symm)
            refine ⟨d + 1, ?_, le_refl _⟩
            rw [hnb]
            exact hset_self
          · intro mv2 h nb h1 h2 hopen
            obtain ⟨dn, hdn, hle⟩ := h nb h1 h2 hopen
            by_cases hnb : nb = (((cell.1 : Int) + mv.1).toNat, ((cell.2 : Int) + mv.2).toNat)
            · rw [hnb, hnone] at hdn
              cases hdn
            · refine ⟨dn, ?_, hle⟩
              rw [getDist_setDist_ne hnb]
              exact hdn
          · show (st.pq ++ [_]).length + 2 * countNone (setDist st.dist _ (d + 1)) ≤ _
            rw [List.length_append]
            have := countNone_setDist hmid.shape hx1 hy1 hnone (d + 1)
            simp only [List.length_singleton]
            omega
    · rw [relaxMove_eq_of_oob (Or.inr hby)]
      refine ⟨hmid, ?_, fun mv2 h => h, le_refl _⟩
      intro nb h1 h2 hopen
      exact absurd ⟨by rw [← h2]; exact Int.natCast_nonneg nb.2,
        by rw [← h2]; exact_mod_cast hopen.2.1⟩ hby
  · rw [relaxMove_eq_of_oob (Or.inl hbx)]
    refine ⟨hmid, ?_, fun mv2 h => h, le_refl _⟩
    intro nb h1 h2 hopen
    exact absurd ⟨by rw [← h1]; exact Int.natCast_nonneg nb.1,
      by rw [← h1]; exact_mod_cast hopen.1⟩ hbx

end Maze

namespace Maze

/-- The loop invariant of `solve_puzzle`: `floor` is the priority of the last
pop.  Every queue entry sits at or above the floor, carries a real walk of
length one more than its priority, and names a cell whose recorded distance is
at most its priority; every recorded distance is at most `floor + 1` and is a
walk length; every recorded cell has each open neighbour either relaxed or
pending in the queue; the source is recorded at `0`; and `shortest_path` is
synchronised with the destination's recorded distance. -/
structure MazeInv (board : List (List Char)) (source dest : Cell) (floor : Int)
    (st : MState) : Prop where
  shape : DShape (mazeH board) (mazeW board) st.dist
  floor0 : 0 ≤ floor
  pqB : ∀ e ∈ st.pq, floor ≤ e.1 ∧ GridPathFromTo board source e.2.1 e.2.2 ∧
    ((e.2.2.length : Int) = e.1 + 1) ∧
    ∃ dc, getDist st.dist e.2.1 = some dc ∧ dc ≤ e.1
  distB : ∀ c2 dv, getDist st.dist c2 = some dv → dv ≤ floor + 1 ∧
    ∃ p, GridPathFromTo board source c2 p ∧ ((p.length : Int) = dv + 1)
  relax : ∀ c2 dv, getDist st.dist c2 = some dv →
    ∀ nb, cellOpen board nb → adjCell c2 nb →
      (∃ dn, getDist st.dist nb = some dn ∧ dn ≤ dv + 1) ∨
      (∃ pp, (dv, c2, pp) ∈ st.pq)
  srcD : getDist st.dist source = some 0
  spB : (st.sp = none ∧ getDist st.dist dest = none) ∨
    (∃ p dd, st.sp = some p ∧ GridPathFromTo board source dest p ∧
      getDist st.dist dest = some dd ∧ ((p.length : Int) = dd + 1))

/-- What holds of the final distance table when the queue has drained: every
recorded distance is a walk length, every recorded cell has every open
neighbour relaxed, the source is recorded at `0`, and the returned value is
synchronised with the destination's recorded distance. -/
def FinalOK (board : List (List Char)) (source dest : Cell) (res : Option (List Cell)) : Prop :=
  ∃ distF : List (List (Option Int)),
    (∀ c2 dv, getDist distF c2 = some dv →
      ∃ p, GridPathFromTo board source c2 p ∧ ((p.length : Int) = dv + 1)) ∧
    (∀ c2 dv, getDist distF c2 = some dv → ∀ nb, cellOpen board nb → adjCell c2 nb →
      ∃ dn, getDist distF nb = some dn ∧ dn ≤ dv + 1) ∧
    getDist distF source = some 0 ∧
    ((res = none ∧ getDist distF dest = none) ∨
     (∃ p dd, res = some p ∧ GridPathFromTo board source dest p ∧
       getDist distF dest = some dd ∧ ((p.length : Int) = dd + 1)))

theorem mazeLoop_ok {board : List (List Char)} {source dest : Cell} :
    ∀ fuel (st : MState) (floor : Int),
      MazeInv board source dest floor st →
      st.pq.length + 2 * countNone st.dist < fuel →
      ∃ res, mazeLoop board dest fuel st = some res ∧ FinalOK board source dest res := by
  intro fuel
  induction fuel with
  | zero =>
    intro st floor hinv hm
    exact absurd hm (Nat.not_lt_zero _)
  | succ fuel ih =>
    intro st floor hinv hm
    cases hpq : st.pq with
    | nil =>
      refine ⟨st.sp, mazeLoop_nil_eq board dest fuel st hpq, st.dist, ?_, ?_, hinv.srcD,
        hinv.spB⟩
      · intro c2 dv h
        exact (hinv.distB c2 dv h).2
      · intro c2 dv h nb ho ha
        rcases hinv.relax c2 dv h nb ho ha with h2 | ⟨pp, hpp⟩
        · exact h2
        · rw [hpq] at hpp
          cases hpp
    | cons e0 rest0 =>
      obtain ⟨m, prest, hpop⟩ : ∃ m prest, popMinM st.pq = some (m, prest) := by
        rw [hpq]
        exact ⟨_, _, rfl⟩
      obtain ⟨hmem, hrest, hmin⟩ := popMinM_spec hpop
      obtain ⟨d, cell, path⟩ := m
      obtain ⟨hf, hFromTo, hlen, dc, hdc, hdcle⟩ := hinv.pqB (d, cell, path) hmem
      have hf2 : floor ≤ d := hf
      have hFromTo2 : GridPathFromTo board source cell path := hFromTo
      have hlen2 : ((path.length : Nat) : Int) = d + 1 := hlen
      have hdc2 : getDist st.dist cell = some dc := hdc
      have hdcle2 : dc ≤ d := hdcle
      have hpne : path ≠ [] := by
        intro hh
        rw [hh] at hFromTo2
        cases hFromTo2.2.1
      have hd0 : 0 ≤ d := by
        have hlp : 1 ≤ path.length := List.length_pos.mpr hpne
        omega
      have hlen1 : st.pq.length = prest.length + 1 := by
        have hp0 : 0 < st.pq.length := by
          rw [hpq]
          simp
        rw [hrest, List.length_erase_of_mem hmem]
        omega
      have hsub : ∀ e ∈ prest, e ∈ st.pq := by
        intro e he
        rw [hrest] at he
        exact List.mem_of_mem_erase he
      rw [mazeLoop_cons_eq board dest fuel st hpop]
      by_cases hstale : dc < d
      · have hgt : gtInf d (getDist st.dist cell) = true := by
          rw [hdc]
          exact decide_eq_true hstale
        rw [if_pos hgt]
        refine ih _ d ⟨hinv.shape, le_trans hinv.floor0 hf, ?_, ?_, ?_, hinv.srcD, hinv.spB⟩ ?_
        · intro e he
          obtain ⟨h1, h2, h3, h4⟩ := hinv.pqB e (hsub e he)
          exact ⟨hmin e (hsub e he), h2, h3, h4⟩
        · intro c2 dv h
          obtain ⟨h1, h2⟩ := hinv.distB c2 dv h
          refine ⟨?_, h2⟩
          have hff : floor ≤ d := hf
          omega
        · intro c2 dv h nb ho ha
          rcases hinv.relax c2 dv h nb ho ha with h2 | ⟨pp, hpp⟩
          · exact Or.inl h2
          · right
            refine ⟨pp, ?_⟩
            rw [hrest]
            refine (List.mem_erase_of_ne ?_).mpr hpp
            intro heq
            have hc2 : c2 = cell := congrArg (fun x => x.2.1) heq
            have hdveq : dv = d := congrArg (fun x => x.1) heq
            rw [hc2, hdc] at h
            injection h with h
            omega
        · show prest.length + 2 * countNone st.dist < fuel
          omega
      · have hdeq : dc = d := le_antisymm hdcle (le_of_not_lt hstale)
        have hgt : gtInf d (getDist st.dist cell) = false := by
          rw [hdc]
          exact decide_eq_false hstale
        have hcond : ¬ (gtInf d (getDist st.dist cell) = true) := by
          rw [hgt]
          simp
        rw [if_neg hcond]
        have hdcell : getDist st.dist cell = some d := by
          rw [hdc, hdeq]
        have hmid0 : MidInv board source dest d cell { st with pq := prest } := by
          refine ⟨hinv.shape, ?_, ?_, ?_, hinv.srcD, hinv.spB, hdcell⟩
          · intro e he
            obtain ⟨h1, h2, h3, h4⟩ := hinv.pqB e (hsub e he)
            exact ⟨hmin e (hsub e he), h2, h3, h4⟩
          · intro c2 dv h
            obtain ⟨h1, h2⟩ := hinv.distB c2 dv h
            refine ⟨?_, h2⟩
            have hff : floor ≤ d := hf
            omega
          · intro c2 dv h nb ho ha
            rcases hinv.relax c2 dv h nb ho ha with h2 | ⟨pp, hpp⟩
            · exact Or.inl h2
            · by_cases heq : ((dv, c2, pp) : Int × Cell × List Cell) = (d, cell, path)
              · exact Or.inr (Or.inr (congrArg (fun x => x.2.1) heq))
              · refine Or.inr (Or.inl ⟨pp, ?_⟩)
                rw [hrest]
                exact (List.mem_erase_of_ne heq).mpr hpp
        simp only [mazeMoves, List.foldl_cons, List.foldl_nil]
        obtain ⟨hmidA, hrelA, hmonA, hmeasA⟩ :=
          relaxMove_mid (show ((0 : Int), (1 : Int)) ∈ mazeMoves by simp [mazeMoves])
            hmid0 hFromTo2 hlen2
        obtain ⟨hmidB, hrelB, hmonB, hmeasB⟩ :=
          relaxMove_mid (show ((1 : Int), (0 : Int)) ∈ mazeMoves by simp [mazeMoves])
            hmidA hFromTo2 hlen2
        obtain ⟨hmidC, hrelC, hmonC, hmeasC⟩ :=
          relaxMove_mid (show ((-1 : Int), (0 : Int)) ∈ mazeMoves by simp [mazeMoves])
            hmidB hFromTo2 hlen2
        obtain ⟨hmidD, hrelD, hmonD, hmeasD⟩ :=
          relaxMove_mid (show ((0 : Int), (-1 : Int)) ∈ mazeMoves by simp [mazeMoves])
            hmidC hFromTo2 hlen2
        have hrelA2 := hmonD _ (hmonC _ (hmonB _ hrelA))
        have hrelB2 := hmonD _ (hmonC _ hrelB)
        have hrelC2 := hmonD _ hrelC
        refine ih _ d ⟨hmidD.shape, hd0, hmidD.pqB, hmidD.distB, ?_, hmidD.srcD, hmidD.spB⟩ ?_
        · intro c2 dv h nb ho ha
          rcases hmidD.relaxE c2 dv h nb ho ha with h2 | h2 | hcc
          · exact Or.inl h2
          · exact Or.inr h2
          · left
            have hdveq : dv = d := by
              rw [hcc, hmidD.cellD] at h
              injection h with h
              omega
            obtain ⟨mv, hmv, hx, hy⟩ := adj_to_move (show adjCell cell nb from hcc ▸ ha)
            simp only [mazeMoves, List.mem_cons, List.not_mem_nil, or_false] at hmv
            rcases hmv with h5 | h5 | h5 | h5
            · subst h5
              obtain ⟨dn, hdn, hle⟩ := hrelA2 nb hx hy ho
              exact ⟨dn, hdn, by omega⟩
            · subst h5
              obtain ⟨dn, hdn, hle⟩ := hrelB2 nb hx hy ho
              exact ⟨dn, hdn, by omega⟩
            · subst h5
              obtain ⟨dn, hdn, hle⟩ := hrelC2 nb hx hy ho
              exact ⟨dn, hdn, by omega⟩
            · subst h5
              obtain ⟨dn, hdn, hle⟩ := hrelD nb hx hy ho
              exact ⟨dn, hdn, by omega⟩
        · have e1 : ({ st with pq := prest } : MState).pq.length = prest.length := rfl
          have e2 : countNone ({ st with pq := prest } : MState).dist = countNone st.dist := rfl
          omega

end Maze

namespace Maze

theorem final_dist_le {board : List (List Char)} {source : Cell}
    {distF : List (List (Option Int))}
    (hrel : ∀ c2 dv, getDist distF c2 = some dv → ∀ nb, cellOpen board nb → adjCell c2 nb →
      ∃ dn, getDist distF nb = some dn ∧ dn ≤ dv + 1)
    (hsrc : getDist distF source = some 0) :
    ∀ q w, GridPathFromTo board source w q →
      ∃ dw, getDist distF w = some dw ∧ dw ≤ (q.length : Int) - 1 := by
  intro q
  induction q using List.reverseRecOn with
  | nil =>
    intro w hq
    cases hq.2.1
  | append_singleton l a ihl =>
    intro w hq
    have hw : w = a := by
      have h2 := hq.2.2
      rw [List.getLast?_concat] at h2
      injection h2 with h2
      exact h2.symm
    by_cases hln : l = []
    · have ha : a = source := by
        rw [hln, List.nil_append] at hq
        have h1 := hq.2.1
        injection h1 with h1
      refine ⟨0, ?_, ?_⟩
      · rw [hw, ha]
        exact hsrc
      · rw [List.length_append, List.length_singleton]
        push_cast
        omega
    · obtain ⟨u, hu, hqprev, hadj, hopen⟩ := gridPath_unsnoc hq hln
      obtain ⟨du, hdu, hdule⟩ := ihl u hqprev
      obtain ⟨dn, hdn, hdnle⟩ := hrel u du hdu a hopen hadj
      refine ⟨dn, ?_, ?_⟩
      · rw [hw]
        exact hdn
      · rw [List.length_append, List.length_singleton]
        have hlp : 1 ≤ l.length := List.length_pos.mpr hln
        push_cast
        omega

theorem countNone_init (H W : Nat) :
    countNone (List.replicate H (List.replicate W (none : Option Int))) = H * W := by
  rw [countNone, List.map_replicate, DG.countP_replicate_none, List.sum_replicate, smul_eq_mul]

end Maze

/-- C8: for every rectangular board and in-bounds non-wall source and
destination, `solve_puzzle` terminates; it returns `None` exactly when no path
of orthogonal unit moves through in-bounds non-wall cells joins source to
destination, and any returned sequence is a grid path from source to
destination (inclusive) of minimal hop count. -/
theorem c8_solve_puzzle_correct (board : List (List Char))
    (hrect : ∀ row ∈ board, row.length = Maze.mazeW board)
    (source dest : Maze.Cell)
    (hs : Maze.cellOpen board source) (hd : Maze.cellOpen board dest) :
    ∃ res, Maze.solve_puzzle board source dest = some res ∧
      (res = none ↔ ¬ Maze.GridReach board source dest) ∧
      (∀ p, res = some p → Maze.GridPathFromTo board source dest p ∧
        ∀ q, Maze.GridPathFromTo board source dest q → p.length ≤ q.length) := by
  by_cases hsd : source = dest
  · subst hsd
    refine ⟨some [source], by rw [Maze.solve_puzzle, if_pos rfl], ?_, ?_⟩
    · exact iff_of_false (by simp) (not_not_intro ⟨[source], Maze.gridPath_single hs⟩)
    · intro p hp
      injection hp with hp
      refine ⟨?_, ?_⟩
      · rw [← hp]
        exact Maze.gridPath_single hs
      · intro q hq
        have hqne : q ≠ [] := by
          intro hh
          rw [hh] at hq
          cases hq.2.1
        have hq1 := List.length_pos.mpr hqne
        rw [← hp]
        simpa using hq1
  · rw [Maze.solve_puzzle, if_neg hsd]
    have hsh0 := Maze.dshape_init (Maze.mazeH board) (Maze.mazeW board)
    have hshape : Maze.DShape (Maze.mazeH board) (Maze.mazeW board)
        (Maze.setDist (List.replicate (Maze.mazeH board)
          (List.replicate (Maze.mazeW board) none)) source 0) :=
      Maze.dshape_setDist hsh0 source hs.1 hs.2.1 0
    have hsrc0 : Maze.getDist (Maze.setDist (List.replicate (Maze.mazeH board)
        (List.replicate (Maze.mazeW board) none)) source 0) source = some 0 :=
      Maze.getDist_setDist_self hsh0 hs.1 hs.2.1 0
    have hother : ∀ c2, c2 ≠ source → Maze.getDist (Maze.setDist
        (List.replicate (Maze.mazeH board) (List.replicate (Maze.mazeW board) none))
        source 0) c2 = none := by
      intro c2 hc2
      rw [Maze.getDist_setDist_ne hc2]
      exact Maze.getDist_init _ _ c2
    have hsingle : Maze.GridPathFromTo board source source [source] := Maze.gridPath_single hs
    have hinv0 : Maze.MazeInv board source dest 0
        { dist := Maze.setDist (List.replicate (Maze.mazeH board)
            (List.replicate (Maze.mazeW board) none)) source 0
          pq := [(0, source, [source])]
          sp := none } := by
      refine ⟨hshape, le_refl 0, ?_, ?_, ?_, hsrc0, ?_⟩
      · intro e he
        rw [List.mem_singleton.mp he]
        exact ⟨le_refl 0, hsingle, by norm_num, 0, hsrc0, le_refl 0⟩
      · intro c2 dv hdv
        by_cases hc2 : c2 = source
        · rw [hc2, hsrc0] at hdv
          injection hdv with hdv
          refine ⟨by omega, [source], hc2 ▸ hsingle, by rw [← hdv]; norm_num⟩
        · rw [hother c2 hc2] at hdv
          cases hdv
      · intro c2 dv hdv nb ho ha
        by_cases hc2 : c2 = source
        · rw [hc2, hsrc0] at hdv
          injection hdv with hdv
          right
          refine ⟨[source], ?_⟩
          rw [← hdv, hc2]
          exact List.mem_singleton_self _
        · rw [hother c2 hc2] at hdv
          cases hdv
      · left
        exact ⟨rfl, hother dest (fun hh => hsd hh.symm)⟩
    have hcnt : Maze.countNone (Maze.setDist (List.replicate (Maze.mazeH board)
        (List.replicate (Maze.mazeW board) none)) source 0) + 1 =
        Maze.mazeH board * Maze.mazeW board := by
      rw [Maze.countNone_setDist hsh0 hs.1 hs.2.1 (Maze.getDist_init _ _ source) 0,
        Maze.countNone_init]
    have hH : 1 ≤ Maze.mazeH board := by
      have := hs.1
      omega
    have hW : 1 ≤ Maze.mazeW board := by
      have := hs.2.1
      omega
    obtain ⟨res, hrun, distF, hsound, hrel, hsrcF, hsp⟩ :=
      Maze.mazeLoop_ok (2 * (Maze.mazeH board * Maze.mazeW board) + 2)
        { dist := Maze.setDist (List.replicate (Maze.mazeH board)
            (List.replicate (Maze.mazeW board) none)) source 0
          pq := [(0, source, [source])]
          sp := none } 0 hinv0
        (by
          show 1 + 2 * Maze.countNone (Maze.setDist (List.replicate (Maze.mazeH board)
            (List.replicate (Maze.mazeW board) none)) source 0) <
            2 * (Maze.mazeH board * Maze.mazeW board) + 2
          have hp : 1 ≤ Maze.mazeH board * Maze.mazeW board := Nat.one_le_iff_ne_zero.mpr
            (by positivity)
          omega)
    refine ⟨res, hrun, ?_, ?_⟩
    · constructor
      · intro h hreach
        obtain ⟨q, hq⟩ := hreach
        obtain ⟨dw, hdw, _⟩ := Maze.final_dist_le hrel hsrcF q dest hq
        rcases hsp with ⟨hn, hdest⟩ | ⟨p, dd, hres, _, _, _⟩
        · rw [hdest] at hdw
          cases hdw
        · rw [h] at hres
          cases hres
      · intro hnr
        rcases hsp with ⟨hn, _⟩ | ⟨p, dd, hres, hp2, _, _⟩
        · exact hn
        · exact absurd ⟨p, hp2⟩ hnr
    · intro p hp
      rcases hsp with ⟨hn, _⟩ | ⟨p2, dd, hres, hp2, hdd, hl2⟩
      · rw [hn] at hp
        cases hp
      · rw [hres] at hp
        injection hp with hp
        refine ⟨hp ▸ hp2, ?_⟩
        intro q hq
        obtain ⟨dw, hdw, hdwle⟩ := Maze.final_dist_le hrel hsrcF q dest hq
        rw [hdd] at hdw
        injection hdw with hdw
        have hlp : ((p.length : Nat) : Int) = dd + 1 := hp ▸ hl2
        omega

/-- A 3×3 board with no walls. -/
def b3fix : List (List Char) := [[' ', ' ', ' '], [' ', ' ', ' '], [' ', ' ', ' ']]

/-- Witness: the 3×3 wall-free board with source `(0,0)` and destination
`(2,2)` meets every hypothesis of the C8 theorem, and the solver returns a
path of length 5. -/
theorem c8_witness :
    (∀ row ∈ b3fix, row.length = Maze.mazeW b3fix) ∧
    Maze.cellOpen b3fix (0, 0) ∧ Maze.cellOpen b3fix (2, 2) ∧
    (∃ res, Maze.solve_puzzle b3fix (0, 0) (2, 2) = some res ∧
      (res = none ↔ ¬ Maze.GridReach b3fix (0, 0) (2, 2)) ∧
      (∀ p, res = some p → Maze.GridPathFromTo b3fix (0, 0) (2, 2) p ∧
        ∀ q, Maze.GridPathFromTo b3fix (0, 0) (2, 2) q → p.length ≤ q.length)) ∧
    (∃ p, Maze.solve_puzzle b3fix (0, 0) (2, 2) = some (some p) ∧ p.length = 5) :=
  ⟨by decide, by decide, by decide,
    c8_solve_puzzle_correct b3fix (by decide) (0, 0) (2, 2) (by decide) (by decide),
    ⟨[(0, 0), (0, 1), (0, 2), (1, 2), (2, 2)], rfl, rfl⟩⟩

namespace UG

/-- Connectivity: the reflexive-transitive closure of the adjacency-list
relation. -/
def Conn (g : UndirectedGraph) : Label → Label → Prop :=
  Relation.ReflTransGen (fun a b => b ∈ adjOf g a)

theorem conn_refl (g : UndirectedGraph) (v : Label) : Conn g v v :=
  Relation.ReflTransGen.refl

theorem conn_trans {g : UndirectedGraph} {u v w : Label} (h1 : Conn g u v)
    (h2 : Conn g v w) : Conn g u w :=
  Relation.ReflTransGen.trans h1 h2

theorem conn_single {g : UndirectedGraph} {u v : Label} (h : v ∈ adjOf g u) : Conn g u v :=
  Relation.ReflTransGen.single h

theorem conn_symm {g : UndirectedGraph} (hwf : WF g) {u v : Label} (h : Conn g u v) :
    Conn g v u := by
  induction h with
  | refl => exact Relation.ReflTransGen.refl
  | tail h1 h2 ih =>
    exact conn_trans (conn_single (hwf.symm _ _ h2)) ih

theorem conn_in_keys {g : UndirectedGraph} (hwf : WF g) {u v : Label}
    (hu : u ∈ keyList g) (h : Conn g u v) : v ∈ keyList g := by
  induction h with
  | refl => exact hu
  | tail h1 h2 ih =>
    obtain ⟨b, hb, hxb⟩ := mem_adjOf_iff.mp h2
    exact hwf.closed _ b hb _ hxb

theorem conn_closed_set {g : UndirectedGraph} {R : List Label} {v : Label}
    (hv : v ∈ R) (hcl : ∀ x ∈ R, ∀ y ∈ adjOf g x, y ∈ R) {x : Label}
    (h : Conn g v x) : x ∈ R := by
  induction h with
  | refl => exact hv
  | tail h1 h2 ih => exact hcl _ ih _ h2

theorem conn_isolated {g : UndirectedGraph} {v x : Label} (ha : adjOf g v = [])
    (h : Conn g v x) : x = v := by
  rcases Relation.ReflTransGen.cases_head h with h | ⟨c, hc, h2⟩
  · exact h.symm
  · rw [ha] at hc
    cases hc

theorem nodup_subset_length {α : Type} [DecidableEq α] :
    ∀ (l L : List α), l.Nodup → (∀ x ∈ l, x ∈ L) → l.length ≤ L.length := by
  intro l
  induction l with
  | nil =>
    intro L h1 h2
    exact Nat.zero_le _
  | cons a t ih =>
    intro L h1 h2
    have ha : a ∈ L := h2 a (List.mem_cons_self a t)
    have hat : a ∉ t := (List.nodup_cons.mp h1).1
    have ht : ∀ x ∈ t, x ∈ L.erase a := by
      intro x hx
      refine (List.mem_erase_of_ne ?_).mpr (h2 x (List.mem_cons_of_mem a hx))
      intro hh
      rw [hh] at hx
      exact hat hx
    have := ih (L.erase a) (List.nodup_cons.mp h1).2 ht
    rw [List.length_erase_of_mem ha] at this
    have hL : 0 < L.length := List.length_pos.mpr (List.ne_nil_of_mem ha)
    show t.length + 1 ≤ L.length
    omega

theorem mem_foldl_erase :
    ∀ (R vs : List Label), vs.Nodup →
      ((R.foldl (fun l c => l.erase c) vs).Nodup ∧
       ∀ x, x ∈ R.foldl (fun l c => l.erase c) vs ↔ x ∈ vs ∧ x ∉ R) := by
  intro R
  induction R with
  | nil =>
    intro vs hnd
    refine ⟨hnd, ?_⟩
    intro x
    simp
  | cons c t ih =>
    intro vs hnd
    rw [List.foldl_cons]
    obtain ⟨h1, h2⟩ := ih (vs.erase c) (hnd.erase c)
    refine ⟨h1, ?_⟩
    intro x
    rw [h2 x, hnd.mem_erase_iff]
    constructor
    · rintro ⟨⟨hxc, hxv⟩, hxt⟩
      refine ⟨hxv, ?_⟩
      intro hh
      rcases List.mem_cons.mp hh with hh | hh
      · exact hxc hh
      · exact hxt hh
    · rintro ⟨hxv, hxr⟩
      refine ⟨⟨?_, hxv⟩, ?_⟩
      · intro hh
        exact hxr (hh ▸ List.mem_cons_self c t)
      · intro hh
        exact hxr (List.mem_cons_of_mem c hh)

theorem mem_sortS (l : List Label) (x : Label) : x ∈ sortS l ↔ x ∈ l :=
  (List.perm_insertionSort (fun a b => a ≤ b) l).mem_iff

end UG

namespace UG

theorem dfsVisitU_prefix (vis : List Label) (v : Label) (e : Option Label) :
    ∃ t, dfsVisitU vis v e = vis ++ t := by
  cases e with
  | none => exact ⟨[v], rfl⟩
  | some e2 =>
    show ∃ t, (if e2 ≠ [] then (if ¬ (e2 ∈ vis) then vis ++ [v] else vis) else vis) = vis ++ t
    by_cases h1 : e2 ≠ []
    · rw [if_pos h1]
      by_cases h2 : ¬ (e2 ∈ vis)
      · rw [if_pos h2]
        exact ⟨[v], rfl⟩
      · rw [if_neg h2]
        exact ⟨[], (List.append_nil vis).symm⟩
    · rw [if_neg h1]
      exact ⟨[], (List.append_nil vis).symm⟩

theorem dfsScanU_prefix (step : List Label → Label → Option (List Label)) (e : Option Label)
    (hstep : ∀ vis w out, step vis w = some out → ∃ t, out = vis ++ t) :
    ∀ rest vis out, dfsScanU step e vis rest = some out → ∃ t, out = vis ++ t := by
  intro rest
  induction rest with
  | nil =>
    intro vis out h
    injection h with h
    exact ⟨[], by rw [← h, List.append_nil]⟩
  | cons adj rest2 ih =>
    intro vis out h
    rw [dfsScanU] at h
    by_cases hb : endBreakU e vis = true
    · rw [if_pos hb] at h
      injection h with h
      exact ⟨[], by rw [← h, List.append_nil]⟩
    · rw [if_neg hb] at h
      by_cases hm : adj ∉ vis
      · rw [if_pos hm] at h
        cases hs : step vis adj with
        | none =>
          rw [hs] at h
          cases h
        | some vis2 =>
          rw [hs] at h
          obtain ⟨t1, ht1⟩ := hstep vis adj vis2 hs
          obtain ⟨t2, ht2⟩ := ih vis2 out h
          exact ⟨t1 ++ t2, by rw [ht2, ht1, List.append_assoc]⟩
      · rw [if_neg hm] at h
        exact ih vis out h

theorem recDfsU_prefix {g : UndirectedGraph} :
    ∀ fuel vis v e out, recDfsU g fuel vis v e = some out → ∃ t, out = vis ++ t := by
  intro fuel
  induction fuel with
  | zero =>
    intro vis v e out h
    cases h
  | succ f ih =>
    intro vis v e out h
    rw [recDfsU] at h
    obtain ⟨t1, ht1⟩ := dfsVisitU_prefix vis v e
    obtain ⟨t2, ht2⟩ := dfsScanU_prefix _ e (fun vis2 w out2 hh => ih vis2 w e out2 hh)
      _ _ out h
    exact ⟨t1 ++ t2, by rw [ht2, ht1, List.append_assoc]⟩

theorem dfsScanU_ok {g : UndirectedGraph} (hwf : WF g) (f : Nat) (v : Label)
    (IH : ∀ vis w, vis.Nodup → (∀ x ∈ vis, x ∈ keyList g) → w ∈ keyList g → w ∉ vis →
      (keyList g).length < f + vis.length →
      ∃ out, recDfsU g f vis w none = some out ∧ out.Nodup ∧ (∃ t, out = vis ++ t) ∧
        (∀ x ∈ out, x ∈ keyList g) ∧ w ∈ out ∧
        (∀ x ∈ out, x ∉ vis → Conn g w x) ∧
        (∀ x ∈ out, x ∉ vis → ∀ y ∈ adjOf g x, y ∈ out)) :
    ∀ rest vis, (∀ x ∈ rest, x ∈ adjOf g v) → vis.Nodup →
      (∀ x ∈ vis, x ∈ keyList g) → (keyList g).length < f + vis.length →
      ∃ out, dfsScanU (fun vs w => recDfsU g f vs w none) none vis rest = some out ∧
        out.Nodup ∧ (∃ t, out = vis ++ t) ∧ (∀ x ∈ out, x ∈ keyList g) ∧
        (∀ x ∈ out, x ∉ vis → ∃ a ∈ rest, Conn g a x) ∧
        (∀ x ∈ out, x ∉ vis → ∀ y ∈ adjOf g x, y ∈ out) ∧
        (∀ y ∈ rest, y ∈ out) := by
  intro rest
  induction rest with
  | nil =>
    intro vis hrest hnd hkeys hfuel
    refine ⟨vis, rfl, hnd, ⟨[], (List.append_nil vis).symm⟩, hkeys, ?_, ?_, ?_⟩
    · intro x hx hnx
      exact absurd hx hnx
    · intro x hx hnx
      exact absurd hx hnx
    · intro y hy
      cases hy
  | cons a rest2 ih =>
    intro vis hrest hnd hkeys hfuel
    rw [dfsScanU]
    rw [if_neg (by simp [endBreakU] : ¬ (endBreakU none vis = true))]
    by_cases hm : a ∉ vis
    · rw [if_pos hm]
      have haadj : a ∈ adjOf g v := hrest a (List.mem_cons_self a rest2)
      have hak : a ∈ keyList g := by
        obtain ⟨b, hb, hab⟩ := mem_adjOf_iff.mp haadj
        exact hwf.closed _ b hb _ hab
      obtain ⟨outA, hrunA, hndA, ⟨tA, htA⟩, hkeysA, hmemA, hsoundA, hclA⟩ :=
        IH vis a hnd hkeys hak hm hfuel
      rw [hrunA]
      have hlenA : vis.length ≤ outA.length := by
        rw [htA, List.length_append]
        omega
      obtain ⟨out, hrun, hnd2, ⟨t2, ht2⟩, hkeys2, hsound2, hcl2, hsub2⟩ :=
        ih outA (fun x hx => hrest x (List.mem_cons_of_mem a hx)) hndA hkeysA
          (by omega)
      refine ⟨out, hrun, hnd2, ⟨tA ++ t2, by rw [ht2, htA, List.append_assoc]⟩, hkeys2,
        ?_, ?_, ?_⟩
      · intro x hx hnx
        by_cases hxA : x ∈ outA
        · exact ⟨a, List.mem_cons_self a rest2, hsoundA x hxA hnx⟩
        · obtain ⟨a2, ha2, hc2⟩ := hsound2 x hx hxA
          exact ⟨a2, List.mem_cons_of_mem a ha2, hc2⟩
      · intro x hx hnx y hy
        by_cases hxA : x ∈ outA
        · have := hclA x hxA hnx y hy
          rw [ht2]
          exact List.mem_append.mpr (Or.inl this)
        · exact hcl2 x hx hxA y hy
      · intro y hy
        rcases List.mem_cons.mp hy with hh | hh
        · rw [hh, ht2]
          exact List.mem_append.mpr (Or.inl hmemA)
        · exact hsub2 y hh
    · rw [if_neg hm]
      obtain ⟨out, hrun, hnd2, hpre, hkeys2, hsound2, hcl2, hsub2⟩ :=
        ih vis (fun x hx => hrest x (List.mem_cons_of_mem a hx)) hnd hkeys hfuel
      refine ⟨out, hrun, hnd2, hpre, hkeys2, ?_, hcl2, ?_⟩
      · intro x hx hnx
        obtain ⟨a2, ha2, hc2⟩ := hsound2 x hx hnx
        exact ⟨a2, List.mem_cons_of_mem a ha2, hc2⟩
      · intro y hy
        rcases List.mem_cons.mp hy with hh | hh
        · rw [hh]
          obtain ⟨t, ht⟩ := hpre
          rw [ht]
          exact List.mem_append.mpr (Or.inl (not_not.mp hm))
        · exact hsub2 y hh

theorem recDfsU_ok {g : UndirectedGraph} (hwf : WF g) :
    ∀ f vis v, vis.Nodup → (∀ x ∈ vis, x ∈ keyList g) → v ∈ keyList g → v ∉ vis →
      (keyList g).length < f + vis.length →
      ∃ out, recDfsU g f vis v none = some out ∧ out.Nodup ∧ (∃ t, out = vis ++ t) ∧
        (∀ x ∈ out, x ∈ keyList g) ∧ v ∈ out ∧
        (∀ x ∈ out, x ∉ vis → Conn g v x) ∧
        (∀ x ∈ out, x ∉ vis → ∀ y ∈ adjOf g x, y ∈ out) := by
  intro f
  induction f with
  | zero =>
    intro vis v h1 h2 h3 h4 h5
    exfalso
    have hsub : ∀ x ∈ vis ++ [v], x ∈ keyList g := by
      intro x hx
      rcases List.mem_append.mp hx with hh | hh
      · exact h2 x hh
      · rw [List.mem_singleton.mp hh]
        exact h3
    have hnd : (vis ++ [v]).Nodup := by
      rw [List.nodup_append]
      refine ⟨h1, List.nodup_singleton v, ?_⟩
      intro x hx hx2
      rw [List.mem_singleton.mp hx2] at hx
      exact h4 hx
    have := nodup_subset_length (vis ++ [v]) (keyList g) hnd hsub
    rw [List.length_append, List.length_singleton] at this
    omega
  | succ f ih =>
    intro vis v h1 h2 h3 h4 h5
    have heq : recDfsU g (f + 1) vis v none =
        dfsScanU (fun vs w => recDfsU g f vs w none) none (vis ++ [v])
          (sortS (adjOf g v)) := rfl
    rw [heq]
    have hnd1 : (vis ++ [v]).Nodup := by
      rw [List.nodup_append]
      refine ⟨h1, List.nodup_singleton v, ?_⟩
      intro x hx hx2
      rw [List.mem_singleton.mp hx2] at hx
      exact h4 hx
    have hkeys1 : ∀ x ∈ vis ++ [v], x ∈ keyList g := by
      intro x hx
      rcases List.mem_append.mp hx with hh | hh
      · exact h2 x hh
      · rw [List.mem_singleton.mp hh]
        exact h3
    obtain ⟨out, hrun, hnd2, ⟨t, ht⟩, hkeys2, hsound2, hcl2, hsub2⟩ :=
      dfsScanU_ok hwf f v ih (sortS (adjOf g v)) (vis ++ [v])
        (fun x hx => (mem_sortS _ _).mp hx) hnd1 hkeys1
        (by rw [List.length_append, List.length_singleton]; omega)
    have hvout : v ∈ out := by
      rw [ht]
      exact List.mem_append.mpr (Or.inl (List.mem_append.mpr (Or.inr
        (List.mem_singleton_self v))))
    refine ⟨out, hrun, hnd2, ⟨[v] ++ t, by rw [ht, List.append_assoc]⟩, hkeys2, hvout,
      ?_, ?_⟩
    · intro x hx hnx
      by_cases hxv : x = v
      · rw [hxv]
        exact conn_refl g v
      · have hnx2 : x ∉ vis ++ [v] := by
          intro hh
          rcases List.mem_append.mp hh with hh | hh
          · exact hnx hh
          · exact hxv (List.mem_singleton.mp hh)
        obtain ⟨a, ha, hconn⟩ := hsound2 x hx hnx2
        exact conn_trans (conn_single ((mem_sortS _ _).mp ha)) hconn
    · intro x hx hnx y hy
      by_cases hxv : x = v
      · exact hsub2 y ((mem_sortS _ _).mpr (by rw [← hxv]; exact hy))
      · have hnx2 : x ∉ vis ++ [v] := by
          intro hh
          rcases List.mem_append.mp hh with hh | hh
          · exact hnx hh
          · exact hxv (List.mem_singleton.mp hh)
        exact hcl2 x hx hnx2 y hy

end UG

namespace UG

theorem dfs_none_ok {g : UndirectedGraph} (hwf : WF g) {v : Label} (hv : v ∈ keyList g) :
    ∃ R, dfs g v none = some R ∧ R.Nodup ∧ (∀ x ∈ R, x ∈ keyList g) ∧ v ∈ R ∧
      (∀ x ∈ R, Conn g v x) ∧ (∀ y, Conn g v y → y ∈ R) := by
  obtain ⟨R, hrun, hnd, hpre, hkeys, hvR, hsound, hcl⟩ :=
    recDfsU_ok hwf ((keyList g).length + 1) [] v List.nodup_nil
      (by intro x hx; cases hx) hv (List.not_mem_nil v) (by omega)
  refine ⟨R, ?_, hnd, hkeys, hvR, ?_, ?_⟩
  · rw [dfs, if_neg (not_not_intro hv)]
    exact hrun
  · intro x hx
    exact hsound x hx (List.not_mem_nil x)
  · intro y hy
    exact conn_closed_set hvR (fun x hx => hcl x hx (List.not_mem_nil x)) hy

/-- `n` is the number of connected components: some duplicate-free system of
`n` pairwise-disconnected representative keys reaches every key. -/
def IsComponentCount (g : UndirectedGraph) (n : Nat) : Prop :=
  ∃ reps : List Label, reps.Nodup ∧ (∀ r ∈ reps, r ∈ keyList g) ∧
    List.Pairwise (fun a b => ¬ Conn g a b) reps ∧
    (∀ x ∈ keyList g, ∃ r ∈ reps, Conn g r x) ∧ reps.length = n

theorem icc_le {g : UndirectedGraph} (hwf : WF g) {n m : Nat}
    (h1 : IsComponentCount g n) (h2 : IsComponentCount g m) : n ≤ m := by
  obtain ⟨r1, hnd1, hsub1, hpw1, hcov1, hlen1⟩ := h1
  obtain ⟨r2, hnd2, hsub2, hpw2, hcov2, hlen2⟩ := h2
  have hch : ∀ x : Label, x ∈ keyList g → ∃ r, r ∈ r2 ∧ Conn g r x := by
    intro x hx
    obtain ⟨r, hr, hc⟩ := hcov2 x hx
    exact ⟨r, hr, hc⟩
  choose f hf1 hf2 using hch
  have hsymm : Symmetric (fun a b : Label => ¬ Conn g a b) := by
    intro x y h hc
    exact h (conn_symm hwf hc)
  have hndL : (r1.attach.map (fun p => f p.1 (hsub1 p.1 p.2))).Nodup := by
    refine List.Nodup.map_on ?_ (List.nodup_attach.mpr hnd1)
    intro a ha b hb heq
    by_contra hne
    have hne1 : a.1 ≠ b.1 := fun hh => hne (Subtype.ext hh)
    have hdis : ¬ Conn g a.1 b.1 := hpw1.forall hsymm a.2 b.2 hne1
    exact hdis (conn_trans (conn_symm hwf (hf2 a.1 (hsub1 a.1 a.2)))
      (heq ▸ hf2 b.1 (hsub1 b.1 b.2)))
  have hsubL : ∀ x ∈ r1.attach.map (fun p => f p.1 (hsub1 p.1 p.2)), x ∈ r2 := by
    intro x hx
    obtain ⟨p, hp, hfp⟩ := List.mem_map.mp hx
    rw [← hfp]
    exact hf1 p.1 (hsub1 p.1 p.2)
  have := nodup_subset_length _ r2 hndL hsubL
  rw [List.length_map, List.length_attach] at this
  omega

theorem icc_unique {g : UndirectedGraph} (hwf : WF g) {n m : Nat}
    (h1 : IsComponentCount g n) (h2 : IsComponentCount g m) : n = m :=
  le_antisymm (icc_le hwf h1 h2) (icc_le hwf h2 h1)

theorem cccLoop_ok {g : UndirectedGraph} (hwf : WF g) :
    ∀ fuel (vertices : List Label) count, vertices.Nodup →
      (∀ x ∈ vertices, x ∈ keyList g) →
      (∀ x ∈ vertices, ∀ y, Conn g x y → y ∈ vertices) →
      vertices.length < fuel →
      ∃ reps : List Label, reps.Nodup ∧ (∀ r ∈ reps, r ∈ vertices) ∧
        List.Pairwise (fun a b => ¬ Conn g a b) reps ∧
        (∀ x ∈ vertices, ∃ r ∈ reps, Conn g r x) ∧
        cccLoop g fuel vertices count = some (count + reps.length) := by
  intro fuel
  induction fuel with
  | zero =>
    intro vertices count h1 h2 h3 h4
    exact absurd h4 (Nat.not_lt_zero _)
  | succ fuel ih =>
    intro vertices count h1 h2 h3 h4
    cases vertices with
    | nil =>
      refine ⟨[], List.nodup_nil, ?_, List.Pairwise.nil, ?_, by simp [cccLoop]⟩
      · intro r hr
        cases hr
      · intro x hx
        cases hx
    | cons vertex rest =>
      have hndr : rest.Nodup := (List.nodup_cons.mp h1).2
      have hvnr : vertex ∉ rest := (List.nodup_cons.mp h1).1
      have hvk : vertex ∈ keyList g := h2 vertex (List.mem_cons_self vertex rest)
      rw [List.length_cons] at h4
      by_cases hiso : (adjOf g vertex).isEmpty = true
      · have hadj : adjOf g vertex = [] := by
          cases hadj2 : adjOf g vertex with
          | nil => rfl
          | cons a t =>
            rw [hadj2] at hiso
            cases hiso
        have step : cccLoop g (fuel + 1) (vertex :: rest) count =
            cccLoop g fuel ((vertex :: rest).erase vertex) (count + 1) := by
          rw [cccLoop, if_pos hiso]
        rw [List.erase_cons_head] at step
        have hkr : ∀ x ∈ rest, x ∈ keyList g :=
          fun x hx => h2 x (List.mem_cons_of_mem _ hx)
        have hclr : ∀ x ∈ rest, ∀ y, Conn g x y → y ∈ rest := by
          intro x hx y hc
          have hy := h3 x (List.mem_cons_of_mem _ hx) y hc
          rcases List.mem_cons.mp hy with hh | hh
          · exfalso
            have hcx : Conn g vertex x := by
              rw [← hh]
              exact conn_symm hwf hc
            have := conn_isolated hadj hcx
            rw [this] at hx
            exact hvnr hx
          · exact hh
        obtain ⟨reps, hr1, hr2, hr3, hr4, hr5⟩ := ih rest (count + 1) hndr hkr hclr
          (by omega)
        refine ⟨vertex :: reps, ?_, ?_, ?_, ?_, ?_⟩
        · rw [List.nodup_cons]
          exact ⟨fun hh => hvnr (hr2 _ hh), hr1⟩
        · intro r hr
          rcases List.mem_cons.mp hr with hh | hh
          · rw [hh]
            exact List.mem_cons_self _ _
          · exact List.mem_cons_of_mem _ (hr2 r hh)
        · rw [List.pairwise_cons]
          refine ⟨?_, hr3⟩
          intro b hb hc
          have := conn_isolated hadj hc
          rw [this] at hb
          exact hvnr (hr2 _ hb)
        · intro x hx
          rcases List.mem_cons.mp hx with hh | hh
          · exact ⟨vertex, List.mem_cons_self _ _, hh ▸ conn_refl g vertex⟩
          · obtain ⟨r, hr, hcr⟩ := hr4 x hh
            exact ⟨r, List.mem_cons_of_mem _ hr, hcr⟩
        · rw [step, hr5, List.length_cons]
          congr 1
          omega
      · obtain ⟨R, hdfs, hndR, hkR, hvR, hsoundR, hcompR⟩ := dfs_none_ok hwf hvk
        have step : cccLoop g (fuel + 1) (vertex :: rest) count =
            cccLoop g fuel (R.foldl (fun vs c => vs.erase c) (vertex :: rest))
              (count + 1) := by
          rw [cccLoop, if_neg hiso, hdfs]
        obtain ⟨hndrem, hmem⟩ := mem_foldl_erase R (vertex :: rest) h1
        have hsubrem : ∀ x ∈ R.foldl (fun vs c => vs.erase c) (vertex :: rest),
            x ∈ keyList g := fun x hx => h2 x ((hmem x).mp hx).1
        have hclrem : ∀ x ∈ R.foldl (fun vs c => vs.erase c) (vertex :: rest),
            ∀ y, Conn g x y → y ∈ R.foldl (fun vs c => vs.erase c) (vertex :: rest) := by
          intro x hx y hc
          obtain ⟨hxv, hxR⟩ := (hmem x).mp hx
          have hyv := h3 x hxv y hc
          refine (hmem y).mpr ⟨hyv, ?_⟩
          intro hyR
          exact hxR (hcompR x (conn_trans (hsoundR y hyR) (conn_symm hwf hc)))
        have hvnotrem : vertex ∉ R.foldl (fun vs c => vs.erase c) (vertex :: rest) := by
          intro hh
          exact ((hmem vertex).mp hh).2 hvR
        have hlrem : (R.foldl (fun vs c => vs.erase c) (vertex :: rest)).length
            < rest.length + 1 := by
          have hsub : ∀ x ∈ R.foldl (fun vs c => vs.erase c) (vertex :: rest), x ∈ rest := by
            intro x hx
            obtain ⟨hxv, hxR⟩ := (hmem x).mp hx
            rcases List.mem_cons.mp hxv with hh | hh
            · exact absurd (hh ▸ hvR) hxR
            · exact hh
          have := nodup_subset_length _ rest hndrem hsub
          omega
        obtain ⟨reps, hr1, hr2, hr3, hr4, hr5⟩ :=
          ih (R.foldl (fun vs c => vs.erase c) (vertex :: rest)) (count + 1)
            hndrem hsubrem hclrem (by omega)
        refine ⟨vertex :: reps, ?_, ?_, ?_, ?_, ?_⟩
        · rw [List.nodup_cons]
          exact ⟨fun hh => hvnotrem (hr2 _ hh), hr1⟩
        · intro r hr
          rcases List.mem_cons.mp hr with hh | hh
          · rw [hh]
            exact List.mem_cons_self _ _
          · exact ((hmem r).mp (hr2 r hh)).1
        · rw [List.pairwise_cons]
          refine ⟨?_, hr3⟩
          intro b hb hc
          exact ((hmem b).mp (hr2 b hb)).2 (hcompR b hc)
        · intro x hx
          by_cases hxR : x ∈ R
          · exact ⟨vertex, List.mem_cons_self _ _, hsoundR x hxR⟩
          · obtain ⟨r, hr, hcr⟩ := hr4 x ((hmem x).mpr ⟨hx, hxR⟩)
            exact ⟨r, List.mem_cons_of_mem _ hr, hcr⟩
        · rw [step, hr5, List.length_cons]
          congr 1
          omega

end UG

namespace UG

theorem recDfsU_mem_self {g : UndirectedGraph} {fuel : Nat} {vis : List Label} {v : Label}
    {out : List Label} (h : recDfsU g fuel vis v none = some out) : v ∈ out := by
  cases fuel with
  | zero => cases h
  | succ f =>
    rw [recDfsU] at h
    obtain ⟨t, ht⟩ := dfsScanU_prefix _ none
      (fun vis2 w out2 hh => recDfsU_prefix f vis2 w none out2 hh) _ _ out h
    rw [ht]
    show v ∈ (vis ++ [v]) ++ t
    exact List.mem_append.mpr (Or.inl (List.mem_append.mpr (Or.inr
      (List.mem_singleton_self v))))

theorem find?_first_unvisited (vis2 : List Label) (a : Label) (ha : a ∉ vis2) :
    ∀ pre rest2, (∀ x ∈ pre, x ∈ vis2) →
      (pre ++ a :: rest2).find? (fun e => !(decide (e ∈ vis2))) = some a := by
  intro pre
  induction pre with
  | nil =>
    intro rest2 hp
    rw [List.nil_append]
    apply List.find?_cons_of_pos
    simp [ha]
  | cons x pre2 ih =>
    intro rest2 hp
    rw [List.cons_append, List.find?_cons_of_neg]
    · exact ih rest2 (fun y hy => hp y (List.mem_cons_of_mem _ hy))
    · simp
      exact hp x (List.mem_cons_self _ _)

theorem find?_all_visited (vis2 L : List Label) (h : ∀ x ∈ L, x ∈ vis2) :
    L.find? (fun e => !(decide (e ∈ vis2))) = none := by
  rw [List.find?_eq_none]
  intro x hx
  simp
  exact h x hx

end UG

namespace UDG

theorem iter_step_push {g : UG.UndirectedGraph} (f0 : Nat) (result0 : List Label)
    (top : Label) (below : List Label) (v e : Label) (vis2 : List Label)
    (hres : (if v ∈ result0 then result0 else result0 ++ [v]) = vis2)
    (hfind : (UG.sortS (UG.adjOf g v)).find? (fun x => !(decide (x ∈ vis2))) = some e) :
    iterDfsLoop g (f0 + 1) result0 (top :: below) v none =
      iterDfsLoop g f0 vis2 (v :: top :: below) e none := by
  simp only [iterDfsLoop]
  rw [hres]
  rw [if_neg (by simp : ¬ (false = true)), hfind]

theorem iter_step_pop {g : UG.UndirectedGraph} (f0 : Nat) (result0 : List Label)
    (top : Label) (below : List Label) (v : Label) (vis2 : List Label)
    (hres : (if v ∈ result0 then result0 else result0 ++ [v]) = vis2)
    (hfind : (UG.sortS (UG.adjOf g v)).find? (fun x => !(decide (x ∈ vis2))) = none) :
    iterDfsLoop g (f0 + 1) result0 (top :: below) v none =
      iterDfsLoop g f0 vis2 below top none := by
  simp only [iterDfsLoop]
  rw [hres]
  rw [if_neg (by simp : ¬ (false = true)), hfind]

theorem iter_scan_sim {g : UG.UndirectedGraph} (f : Nat)
    (IH : ∀ vis w out, UG.recDfsU g f vis w none = some out → w ∉ vis →
      ∃ T, T + 2 * vis.length + 1 ≤ 2 * out.length ∧
        ∀ F (top : Label) (below : List Label),
          iterDfsLoop g (T + F) vis (top :: below) w none =
            iterDfsLoop g F out below top none)
    (v : Label) :
    ∀ rest pre vis2 out, UG.sortS (UG.adjOf g v) = pre ++ rest →
      (∀ x ∈ pre, x ∈ vis2) → v ∈ vis2 →
      UG.dfsScanU (fun vs w => UG.recDfsU g f vs w none) none vis2 rest = some out →
      ∃ T, T + 2 * vis2.length ≤ 2 * out.length + 1 ∧
        ∀ F (result0 : List Label) (top : Label) (below : List Label),
          (if v ∈ result0 then result0 else result0 ++ [v]) = vis2 →
          iterDfsLoop g (T + F) result0 (top :: below) v none =
            iterDfsLoop g F out below top none := by
  intro rest
  induction rest with
  | nil =>
    intro pre vis2 out hL hpre hv hscan
    rw [UG.dfsScanU] at hscan
    injection hscan with hscan
    refine ⟨1, by rw [hscan]; omega, ?_⟩
    intro F result0 top below hres
    rw [Nat.add_comm 1 F, iter_step_pop F result0 top below v vis2 hres ?_, hscan]
    apply UG.find?_all_visited
    intro x hx
    rw [hL, List.append_nil] at hx
    exact hpre x hx
  | cons a rest2 ih =>
    intro pre vis2 out hL hpre hv hscan
    rw [UG.dfsScanU] at hscan
    rw [if_neg (by simp [UG.endBreakU] : ¬ (UG.endBreakU none vis2 = true))] at hscan
    by_cases hm : a ∉ vis2
    · rw [if_pos hm] at hscan
      cases hrec : UG.recDfsU g f vis2 a none with
      | none =>
        rw [hrec] at hscan
        cases hscan
      | some visA =>
        rw [hrec] at hscan
        obtain ⟨T1, hT1, hsim1⟩ := IH vis2 a visA hrec hm
        obtain ⟨tA, htA⟩ := UG.recDfsU_prefix f vis2 a none visA hrec
        have hmono : ∀ x ∈ vis2, x ∈ visA := by
          intro x hx
          rw [htA]
          exact List.mem_append.mpr (Or.inl hx)
        have haA : a ∈ visA := UG.recDfsU_mem_self hrec
        obtain ⟨T2, hT2, hsim2⟩ := ih (pre ++ [a]) visA out
          (by rw [hL, List.append_cons])
          (by
            intro x hx
            rcases List.mem_append.mp hx with hh | hh
            · exact hmono x (hpre x hh)
            · rw [List.mem_singleton.mp hh]
              exact haA)
          (hmono v hv) hscan
        refine ⟨1 + T1 + T2, by omega, ?_⟩
        intro F result0 top below hres
        have hfind : (UG.sortS (UG.adjOf g v)).find? (fun x => !(decide (x ∈ vis2))) =
            some a := by
          rw [hL]
          exact UG.find?_first_unvisited vis2 a hm pre rest2 hpre
        have harith : (1 + T1 + T2) + F = (T1 + (T2 + F)) + 1 := by omega
        rw [harith, iter_step_push (T1 + (T2 + F)) result0 top below v a vis2 hres hfind,
          hsim1 (T2 + F) v (top :: below)]
        exact hsim2 F visA top below (by rw [if_pos (hmono v hv)])
    · rw [if_neg hm] at hscan
      exact ih (pre ++ [a]) vis2 out (by rw [hL, List.append_cons])
        (by
          intro x hx
          rcases List.mem_append.mp hx with hh | hh
          · exact hpre x hh
          · rw [List.mem_singleton.mp hh]
            exact not_not.mp hm)
        hv hscan

theorem iter_sim {g : UG.UndirectedGraph} :
    ∀ f (vis : List Label) (v : Label) out,
      UG.recDfsU g f vis v none = some out → v ∉ vis →
      ∃ T, T + 2 * vis.length + 1 ≤ 2 * out.length ∧
        ∀ F (top : Label) (below : List Label),
          iterDfsLoop g (T + F) vis (top :: below) v none =
            iterDfsLoop g F out below top none := by
  intro f
  induction f with
  | zero =>
    intro vis v out h hv
    cases h
  | succ f ihf =>
    intro vis v out h hv
    have h2 : UG.dfsScanU (fun vs w => UG.recDfsU g f vs w none) none (vis ++ [v])
        (UG.sortS (UG.adjOf g v)) = some out := h
    obtain ⟨T, hT, hsim⟩ := iter_scan_sim f ihf v (UG.sortS (UG.adjOf g v)) []
      (vis ++ [v]) out (List.nil_append _).symm (by intro x hx; cases hx)
      (List.mem_append.mpr (Or.inr (List.mem_singleton_self v))) h2
    refine ⟨T, ?_, ?_⟩
    · rw [List.length_append, List.length_singleton] at hT
      omega
    · intro F top below
      exact hsim F vis top below (by rw [if_neg hv])

theorem dfs_eq_rec {g : UG.UndirectedGraph} (hwf : UG.WF g) (v : Label) :
    dfs g v none = UG.dfs g v none := by
  by_cases hv : v ∈ UG.keyList g
  · obtain ⟨R, hdfs, hndR, hkR, hvR, hsR, hcR⟩ := UG.dfs_none_ok hwf hv
    rw [hdfs, dfs, if_neg (not_not_intro hv)]
    rw [UG.dfs, if_neg (not_not_intro hv)] at hdfs
    obtain ⟨T, hT, hsim⟩ := iter_sim ((UG.keyList g).length + 1) [] v R hdfs
      (List.not_mem_nil v)
    have hRlen : R.length ≤ (UG.keyList g).length :=
      UG.nodup_subset_length R _ hndR hkR
    have hF : 2 * (UG.keyList g).length + 4 =
        T + ((2 * (UG.keyList g).length + 3 - T) + 1) := by
      simp only [List.length_nil] at hT
      omega
    rw [hF, hsim ((2 * (UG.keyList g).length + 3 - T) + 1) v []]
    rfl
  · rw [dfs, if_pos hv, UG.dfs, if_pos hv]

theorem cccLoopI_eq {g : UG.UndirectedGraph} (hwf : UG.WF g) :
    ∀ fuel (vertices : List Label) count,
      cccLoopI g fuel vertices count = UG.cccLoop g fuel vertices count := by
  intro fuel
  induction fuel with
  | zero =>
    intro vertices count
    rfl
  | succ fuel ih =>
    intro vertices count
    cases vertices with
    | nil => rfl
    | cons vertex rest =>
      rw [cccLoopI, UG.cccLoop]
      by_cases hiso : (UG.adjOf g vertex).isEmpty = true
      · rw [if_pos hiso, if_pos hiso, ih]
      · rw [if_neg hiso, if_neg hiso, dfs_eq_rec hwf vertex]
        cases hd : UG.dfs g vertex none with
        | none => rfl
        | some connection =>
          show cccLoopI g fuel
              (List.foldl (fun vs c => vs.erase c) (vertex :: rest) connection) (count + 1) =
            UG.cccLoop g fuel
              (List.foldl (fun vs c => vs.erase c) (vertex :: rest) connection) (count + 1)
          exact ih _ _

theorem ccc_eq {g : UG.UndirectedGraph} (hwf : UG.WF g) :
    count_connected_components g = UG.count_connected_components g := by
  rw [count_connected_components, UG.count_connected_components]
  exact cccLoopI_eq hwf _ _ _

end UDG

/-- The graph with vertices `{A, B, C}` and the single edge `A-B`. -/
def gABC : UG.UndirectedGraph :=
  UG.runOps [UG.UOp.addV ['A'], UG.UOp.addV ['B'], UG.UOp.addV ['C'],
    UG.UOp.addE ['A'] ['B']]

/-- The graph with the single vertex `A` and no edges. -/
def gA : UG.UndirectedGraph := UG.runOps [UG.UOp.addV ['A']]

/-- C9: on every well-formed adjacency dict, both implementations of
`count_connected_components` return the same number `n`, and `n` is exactly
the number of connected components: some duplicate-free system of `n`
pairwise-disconnected representative keys reaches every key, and any other
such system has the same size (isolated vertices count as their own
components because reachability from them is trivial). -/
theorem c9_count_connected_components (g : UG.UndirectedGraph) (hwf : UG.WF g) :
    ∃ n, UG.count_connected_components g = some n ∧
      UDG.count_connected_components g = some n ∧
      UG.IsComponentCount g n ∧ (∀ m, UG.IsComponentCount g m → m = n) := by
  obtain ⟨reps, h1, h2, h3, h4, h5⟩ := UG.cccLoop_ok hwf ((UG.keyList g).length + 1)
    (UG.keyList g) 0 hwf.nodupKeys (fun x hx => hx)
    (fun x hx y hc => UG.conn_in_keys hwf hx hc) (by omega)
  refine ⟨reps.length, ?_, ?_, ?_, ?_⟩
  · rw [UG.count_connected_components, h5, Nat.zero_add]
  · rw [UDG.ccc_eq hwf, UG.count_connected_components, h5, Nat.zero_add]
  · exact ⟨reps, h1, h2, h3, h4, rfl⟩
  · intro m hm
    exact UG.icc_unique hwf hm ⟨reps, h1, h2, h3, h4, rfl⟩

/-- Witness: the graph `{A, B, C}` with edge `A-B` is well-formed, the C9
theorem applies to it, and both component counters return 2 on it. -/
theorem c9_witness :
    UG.WF gABC ∧
    (∃ n, UG.count_connected_components gABC = some n ∧
      UDG.count_connected_components gABC = some n ∧
      UG.IsComponentCount gABC n ∧ (∀ m, UG.IsComponentCount gABC m → m = n)) ∧
    UG.count_connected_components gABC = some 2 ∧
    UDG.count_connected_components gABC = some 2 :=
  ⟨UG.wf_runOps _, c9_count_connected_components gABC (UG.wf_runOps _), rfl, rfl⟩

/-- C10 counterexample: on the single-vertex graph `{A}` with the falsy end
argument `""` (the empty string, not a vertex), the recursive dfs of
`undirected_graph_search_algos.py` returns `[]` while the explicit-stack dfs
of `ud_graph.py` returns `['A']`. -/
theorem c10_counterexample :
    UG.dfs gA ['A'] (some []) = some [] ∧
    UDG.dfs gA ['A'] (some []) = some [['A']] :=
  ⟨rfl, rfl⟩

namespace UG

theorem dfsVisitU_true {vis : List Label} {v e : Label} (he : e ≠ []) (hev : e ∉ vis) :
    dfsVisitU vis v (some e) = vis ++ [v] := by
  show (if e ≠ [] then (if ¬ (e ∈ vis) then vis ++ [v] else vis) else vis) = vis ++ [v]
  rw [if_pos he, if_pos hev]

theorem dfsVisitU_skip {vis : List Label} {v e : Label} (he : e ≠ []) (hev : e ∈ vis) :
    dfsVisitU vis v (some e) = vis := by
  show (if e ≠ [] then (if ¬ (e ∈ vis) then vis ++ [v] else vis) else vis) = vis
  rw [if_pos he, if_neg (not_not_intro hev)]

theorem endBreakU_false {vis : List Label} {e : Label} (hev : e ∉ vis) :
    endBreakU (some e) vis = false := by
  show (decide (e ≠ []) && decide (e ∈ vis)) = false
  simp [hev]

theorem endBreakU_true {vis : List Label} {e : Label} (he : e ≠ []) (hev : e ∈ vis) :
    endBreakU (some e) vis = true := by
  show (decide (e ≠ []) && decide (e ∈ vis)) = true
  simp [he, hev]

theorem dfsScanU_break (step : List Label → Label → Option (List Label))
    {vis : List Label} {e : Label} (he : e ≠ []) (hev : e ∈ vis) :
    ∀ rest, dfsScanU step (some e) vis rest = some vis := by
  intro rest
  cases rest with
  | nil => rfl
  | cons a rest2 =>
    rw [dfsScanU, if_pos (endBreakU_true he hev)]

theorem recDfsU_mem_selfE {g : UndirectedGraph} {fuel : Nat} {vis : List Label} {v e : Label}
    {out : List Label} (he : e ≠ []) (hev : e ∉ vis)
    (h : recDfsU g fuel vis v (some e) = some out) : v ∈ out := by
  cases fuel with
  | zero => cases h
  | succ f =>
    rw [recDfsU, dfsVisitU_true he hev] at h
    obtain ⟨t, ht⟩ := dfsScanU_prefix _ (some e)
      (fun vis2 w out2 hh => recDfsU_prefix f vis2 w (some e) out2 hh) _ _ out h
    rw [ht]
    exact List.mem_append.mpr (Or.inl (List.mem_append.mpr (Or.inr
      (List.mem_singleton_self v))))

theorem dfsScanU_okE {g : UndirectedGraph} (hwf : WF g) {e : Label} (f : Nat) (v : Label)
    (IH : ∀ vis w, vis.Nodup → (∀ x ∈ vis, x ∈ keyList g) → w ∈ keyList g → w ∉ vis →
      (keyList g).length < f + vis.length →
      ∃ out, recDfsU g f vis w (some e) = some out ∧ out.Nodup ∧ (∃ t, out = vis ++ t) ∧
        (∀ x ∈ out, x ∈ keyList g)) :
    ∀ rest vis, (∀ x ∈ rest, x ∈ adjOf g v) → vis.Nodup →
      (∀ x ∈ vis, x ∈ keyList g) → (keyList g).length < f + vis.length →
      ∃ out, dfsScanU (fun vs w => recDfsU g f vs w (some e)) (some e) vis rest = some out ∧
        out.Nodup ∧ (∃ t, out = vis ++ t) ∧ (∀ x ∈ out, x ∈ keyList g) := by
  intro rest
  induction rest with
  | nil =>
    intro vis hrest hnd hkeys hfuel
    exact ⟨vis, rfl, hnd, ⟨[], (List.append_nil vis).symm⟩, hkeys⟩
  | cons a rest2 ih =>
    intro vis hrest hnd hkeys hfuel
    rw [dfsScanU]
    by_cases hbr : endBreakU (some e) vis = true
    · rw [if_pos hbr]
      exact ⟨vis, rfl, hnd, ⟨[], (List.append_nil vis).symm⟩, hkeys⟩
    · rw [if_neg hbr]
      by_cases hm : a ∉ vis
      · rw [if_pos hm]
        have hak : a ∈ keyList g := by
          obtain ⟨b, hb, hab⟩ := mem_adjOf_iff.mp (hrest a (List.mem_cons_self a rest2))
          exact hwf.closed _ b hb _ hab
        obtain ⟨outA, hrunA, hndA, ⟨tA, htA⟩, hkeysA⟩ := IH vis a hnd hkeys hak hm hfuel
        rw [hrunA]
        have hlenA : vis.length ≤ outA.length := by
          rw [htA, List.length_append]
          omega
        obtain ⟨out, hrun, hnd2, ⟨t2, ht2⟩, hkeys2⟩ :=
          ih outA (fun x hx => hrest x (List.mem_cons_of_mem a hx)) hndA hkeysA (by omega)
        exact ⟨out, hrun, hnd2, ⟨tA ++ t2, by rw [ht2, htA, List.append_assoc]⟩, hkeys2⟩
      · rw [if_neg hm]
        exact ih vis (fun x hx => hrest x (List.mem_cons_of_mem a hx)) hnd hkeys hfuel

theorem recDfsU_okE {g : UndirectedGraph} (hwf : WF g) {e : Label} (he : e ≠ []) :
    ∀ f vis v, vis.Nodup → (∀ x ∈ vis, x ∈ keyList g) → v ∈ keyList g → v ∉ vis →
      (keyList g).length < f + vis.length →
      ∃ out, recDfsU g f vis v (some e) = some out ∧ out.Nodup ∧ (∃ t, out = vis ++ t) ∧
        (∀ x ∈ out, x ∈ keyList g) := by
  intro f
  induction f with
  | zero =>
    intro vis v h1 h2 h3 h4 h5
    exfalso
    have hsub : ∀ x ∈ vis ++ [v], x ∈ keyList g := by
      intro x hx
      rcases List.mem_append.mp hx with hh | hh
      · exact h2 x hh
      · rw [List.mem_singleton.mp hh]
        exact h3
    have hnd : (vis ++ [v]).Nodup := by
      rw [List.nodup_append]
      refine ⟨h1, List.nodup_singleton v, ?_⟩
      intro x hx hx2
      rw [List.mem_singleton.mp hx2] at hx
      exact h4 hx
    have := nodup_subset_length (vis ++ [v]) (keyList g) hnd hsub
    rw [List.length_append, List.length_singleton] at this
    omega
  | succ f ih =>
    intro vis v h1 h2 h3 h4 h5
    by_cases hev : e ∈ vis
    · refine ⟨vis, ?_, h1, ⟨[], (List.append_nil vis).symm⟩, h2⟩
      rw [recDfsU, dfsVisitU_skip he hev]
      exact dfsScanU_break _ he hev _
    · rw [recDfsU, dfsVisitU_true he hev]
      have hnd1 : (vis ++ [v]).Nodup := by
        rw [List.nodup_append]
        refine ⟨h1, List.nodup_singleton v, ?_⟩
        intro x hx hx2
        rw [List.mem_singleton.mp hx2] at hx
        exact h4 hx
      have hkeys1 : ∀ x ∈ vis ++ [v], x ∈ keyList g := by
        intro x hx
        rcases List.mem_append.mp hx with hh | hh
        · exact h2 x hh
        · rw [List.mem_singleton.mp hh]
          exact h3
      obtain ⟨out, hrun, hnd2, ⟨t, ht⟩, hkeys2⟩ :=
        dfsScanU_okE hwf f v ih (sortS (adjOf g v)) (vis ++ [v])
          (fun x hx => (mem_sortS _ _).mp hx) hnd1 hkeys1
          (by rw [List.length_append, List.length_singleton]; omega)
      exact ⟨out, hrun, hnd2, ⟨[v] ++ t, by rw [ht, List.append_assoc]⟩, hkeys2⟩

end UG

namespace UDG

theorem iter_step_pushE {g : UG.UndirectedGraph} (f0 : Nat) (result0 : List Label)
    (top : Label) (below : List Label) (v a e : Label) (vis2 : List Label)
    (hne : v ≠ e)
    (hres : (if v ∈ result0 then result0 else result0 ++ [v]) = vis2)
    (hfind : (UG.sortS (UG.adjOf g v)).find? (fun x => !(decide (x ∈ vis2))) = some a) :
    iterDfsLoop g (f0 + 1) result0 (top :: below) v (some e) =
      iterDfsLoop g f0 vis2 (v :: top :: below) a (some e) := by
  simp only [iterDfsLoop]
  rw [hres]
  rw [if_neg (by simp [hne] : ¬ ((decide (v = e) : Bool) = true)), hfind]

theorem iter_step_popE {g : UG.UndirectedGraph} (f0 : Nat) (result0 : List Label)
    (top : Label) (below : List Label) (v e : Label) (vis2 : List Label)
    (hne : v ≠ e)
    (hres : (if v ∈ result0 then result0 else result0 ++ [v]) = vis2)
    (hfind : (UG.sortS (UG.adjOf g v)).find? (fun x => !(decide (x ∈ vis2))) = none) :
    iterDfsLoop g (f0 + 1) result0 (top :: below) v (some e) =
      iterDfsLoop g f0 vis2 below top (some e) := by
  simp only [iterDfsLoop]
  rw [hres]
  rw [if_neg (by simp [hne] : ¬ ((decide (v = e) : Bool) = true)), hfind]

theorem iter_step_found {g : UG.UndirectedGraph} (f0 : Nat) (result0 : List Label)
    (top : Label) (below : List Label) (e : Label) (vis2 : List Label)
    (hres : (if e ∈ result0 then result0 else result0 ++ [e]) = vis2) :
    iterDfsLoop g (f0 + 1) result0 (top :: below) e (some e) = some vis2 := by
  simp only [iterDfsLoop]
  rw [hres]
  simp

theorem iter_scan_simE {g : UG.UndirectedGraph} (e : Label) (he : e ≠ []) (f : Nat)
    (IH : ∀ (vis : List Label) w out, UG.recDfsU g f vis w (some e) = some out → w ∉ vis →
      e ∉ vis →
      ∃ T, T + 2 * vis.length + 1 ≤ 2 * out.length ∧
        ((e ∉ out ∧ ∀ F (top : Label) (below : List Label),
            iterDfsLoop g (T + F) vis (top :: below) w (some e) =
              iterDfsLoop g F out below top (some e)) ∨
         (e ∈ out ∧ ∀ F (top : Label) (below : List Label),
            iterDfsLoop g (T + F) vis (top :: below) w (some e) = some out)))
    (v : Label) :
    ∀ rest pre vis2 out, UG.sortS (UG.adjOf g v) = pre ++ rest →
      (∀ x ∈ pre, x ∈ vis2) → v ∈ vis2 → e ∉ vis2 →
      UG.dfsScanU (fun vs w => UG.recDfsU g f vs w (some e)) (some e) vis2 rest = some out →
      ∃ T, T + 2 * vis2.length ≤ 2 * out.length + 1 ∧
        ((e ∉ out ∧ ∀ F (result0 : List Label) (top : Label) (below : List Label),
            (if v ∈ result0 then result0 else result0 ++ [v]) = vis2 →
            iterDfsLoop g (T + F) result0 (top :: below) v (some e) =
              iterDfsLoop g F out below top (some e)) ∨
         (e ∈ out ∧ ∀ F (result0 : List Label) (top : Label) (below : List Label),
            (if v ∈ result0 then result0 else result0 ++ [v]) = vis2 →
            iterDfsLoop g (T + F) result0 (top :: below) v (some e) = some out)) := by
  intro rest
  induction rest with
  | nil =>
    intro pre vis2 out hL hpre hv hev hscan
    rw [UG.dfsScanU] at hscan
    injection hscan with hscan
    have hvne : v ≠ e := by
      intro hh
      rw [hh] at hv
      exact hev hv
    refine ⟨1, by rw [hscan]; omega, Or.inl ⟨by rw [← hscan]; exact hev, ?_⟩⟩
    intro F result0 top below hres
    rw [Nat.add_comm 1 F, iter_step_popE F result0 top below v e vis2 hvne hres ?_, hscan]
    apply UG.find?_all_visited
    intro x hx
    rw [hL, List.append_nil] at hx
    exact hpre x hx
  | cons a rest2 ih =>
    intro pre vis2 out hL hpre hv hev hscan
    have hvne : v ≠ e := by
      intro hh
      rw [hh] at hv
      exact hev hv
    rw [UG.dfsScanU] at hscan
    rw [if_neg (by rw [UG.endBreakU_false hev]; simp :
      ¬ (UG.endBreakU (some e) vis2 = true))] at hscan
    by_cases hm : a ∉ vis2
    · rw [if_pos hm] at hscan
      cases hrec : UG.recDfsU g f vis2 a (some e) with
      | none =>
        rw [hrec] at hscan
        cases hscan
      | some visA =>
        rw [hrec] at hscan
        obtain ⟨T1, hT1, hcase1⟩ := IH vis2 a visA hrec hm hev
        obtain ⟨tA, htA⟩ := UG.recDfsU_prefix f vis2 a (some e) visA hrec
        have hmono : ∀ x ∈ vis2, x ∈ visA := by
          intro x hx
          rw [htA]
          exact List.mem_append.mpr (Or.inl hx)
        have haA : a ∈ visA := UG.recDfsU_mem_selfE he hev hrec
        have hfind : (UG.sortS (UG.adjOf g v)).find? (fun x => !(decide (x ∈ vis2))) =
            some a := by
          rw [hL]
          exact UG.find?_first_unvisited vis2 a hm pre rest2 hpre
        rcases hcase1 with ⟨hneA, hrun1⟩ | ⟨hmemA, hrun1⟩
        · obtain ⟨T2, hT2, hcase2⟩ := ih (pre ++ [a]) visA out
            (by rw [hL, List.append_cons])
            (by
              intro x hx
              rcases List.mem_append.mp hx with hh | hh
              · exact hmono x (hpre x hh)
              · rw [List.mem_singleton.mp hh]
                exact haA)
            (hmono v hv) hneA hscan
          refine ⟨1 + T1 + T2, by omega, ?_⟩
          rcases hcase2 with ⟨hne2, hrun2⟩ | ⟨hmem2, hrun2⟩
          · refine Or.inl ⟨hne2, ?_⟩
            intro F result0 top below hres
            have harith : (1 + T1 + T2) + F = (T1 + (T2 + F)) + 1 := by omega
            rw [harith,
              iter_step_pushE (T1 + (T2 + F)) result0 top below v a e vis2 hvne hres hfind,
              hrun1 (T2 + F) v (top :: below)]
            exact hrun2 F visA top below (by rw [if_pos (hmono v hv)])
          · refine Or.inr ⟨hmem2, ?_⟩
            intro F result0 top below hres
            have harith : (1 + T1 + T2) + F = (T1 + (T2 + F)) + 1 := by omega
            rw [harith,
              iter_step_pushE (T1 + (T2 + F)) result0 top below v a e vis2 hvne hres hfind,
              hrun1 (T2 + F) v (top :: below)]
            exact hrun2 F visA top below (by rw [if_pos (hmono v hv)])
        · have hscan2 : UG.dfsScanU (fun vs w => UG.recDfsU g f vs w (some e)) (some e)
              visA rest2 = some out := hscan
          rw [UG.dfsScanU_break _ he hmemA rest2] at hscan2
          injection hscan2 with hscan
          refine ⟨1 + T1, ?_, Or.inr ⟨by rw [← hscan]; exact hmemA, ?_⟩⟩
          · rw [← hscan]
            omega
          · intro F result0 top below hres
            have harith : (1 + T1) + F = T1 + F + 1 := by omega
            rw [harith,
              iter_step_pushE (T1 + F) result0 top below v a e vis2 hvne hres hfind,
              hrun1 F v (top :: below), hscan]
    · rw [if_neg hm] at hscan
      exact ih (pre ++ [a]) vis2 out (by rw [hL, List.append_cons])
        (by
          intro x hx
          rcases List.mem_append.mp hx with hh | hh
          · exact hpre x hh
          · rw [List.mem_singleton.mp hh]
            exact not_not.mp hm)
        hv hev hscan

theorem iter_simE {g : UG.UndirectedGraph} (e : Label) (he : e ≠ []) :
    ∀ f (vis : List Label) (w : Label) out,
      UG.recDfsU g f vis w (some e) = some out → w ∉ vis → e ∉ vis →
      ∃ T, T + 2 * vis.length + 1 ≤ 2 * out.length ∧
        ((e ∉ out ∧ ∀ F (top : Label) (below : List Label),
            iterDfsLoop g (T + F) vis (top :: below) w (some e) =
              iterDfsLoop g F out below top (some e)) ∨
         (e ∈ out ∧ ∀ F (top : Label) (below : List Label),
            iterDfsLoop g (T + F) vis (top :: below) w (some e) = some out)) := by
  intro f
  induction f with
  | zero =>
    intro vis w out h hw hev
    cases h
  | succ f ihf =>
    intro vis w out h hw hev
    by_cases hwe : w = e
    · subst hwe
      rw [UG.recDfsU, UG.dfsVisitU_true he hev,
        UG.dfsScanU_break _ he (List.mem_append.mpr (Or.inr (List.mem_singleton_self w)))
          (UG.sortS (UG.adjOf g w))] at h
      injection h with h
      refine ⟨1, ?_, Or.inr ⟨?_, ?_⟩⟩
      · rw [← h, List.length_append, List.length_singleton]
        omega
      · rw [← h]
        exact List.mem_append.mpr (Or.inr (List.mem_singleton_self w))
      · intro F top below
        rw [Nat.add_comm 1 F,
          iter_step_found F vis top below w (vis ++ [w]) (by rw [if_neg hw]), h]
    · have h2 : UG.dfsScanU (fun vs w2 => UG.recDfsU g f vs w2 (some e)) (some e)
          (vis ++ [w]) (UG.sortS (UG.adjOf g w)) = some out := by
        rw [UG.recDfsU, UG.dfsVisitU_true he hev] at h
        exact h
      have hevw : e ∉ vis ++ [w] := by
        intro hh
        rcases List.mem_append.mp hh with hh | hh
        · exact hev hh
        · exact hwe (List.mem_singleton.mp hh).symm
      obtain ⟨T, hT, hcase⟩ := iter_scan_simE e he f ihf w (UG.sortS (UG.adjOf g w)) []
        (vis ++ [w]) out (List.nil_append _).symm (by intro x hx; cases hx)
        (List.mem_append.mpr (Or.inr (List.mem_singleton_self w))) hevw h2
      rw [List.length_append, List.length_singleton] at hT
      refine ⟨T, by omega, ?_⟩
      rcases hcase with ⟨hne2, hrun2⟩ | ⟨hmem2, hrun2⟩
      · exact Or.inl ⟨hne2, fun F top below =>
          hrun2 F vis top below (by rw [if_neg hw])⟩
      · exact Or.inr ⟨hmem2, fun F top below =>
          hrun2 F vis top below (by rw [if_neg hw])⟩

theorem dfs_eq_recE {g : UG.UndirectedGraph} (hwf : UG.WF g) (v : Label) (e : Label)
    (he : e ≠ []) : dfs g v (some e) = UG.dfs g v (some e) := by
  by_cases hv : v ∈ UG.keyList g
  · obtain ⟨R, hrun, hnd, hpre, hkeys⟩ := UG.recDfsU_okE hwf he
      ((UG.keyList g).length + 1) [] v List.nodup_nil (by intro x hx; cases hx) hv
      (List.not_mem_nil v) (by omega)
    rw [UG.dfs, if_neg (not_not_intro hv), hrun, dfs, if_neg (not_not_intro hv)]
    obtain ⟨T, hT, hcase⟩ := iter_simE e he ((UG.keyList g).length + 1) [] v R hrun
      (List.not_mem_nil v) (List.not_mem_nil e)
    have hRlen : R.length ≤ (UG.keyList g).length :=
      UG.nodup_subset_length R _ hnd hkeys
    simp only [List.length_nil] at hT
    rcases hcase with ⟨hne2, hrun2⟩ | ⟨hmem2, hrun2⟩
    · have hF : 2 * (UG.keyList g).length + 4 =
          T + ((2 * (UG.keyList g).length + 3 - T) + 1) := by omega
      rw [hF, hrun2 ((2 * (UG.keyList g).length + 3 - T) + 1) v []]
      rfl
    · have hF : 2 * (UG.keyList g).length + 4 =
          T + (2 * (UG.keyList g).length + 4 - T) := by omega
      rw [hF, hrun2 (2 * (UG.keyList g).length + 4 - T) v []]
  · rw [dfs, if_pos hv, UG.dfs, if_pos hv]

end UDG

/-- C10 (amended): on every well-formed adjacency dict, every start vertex,
and every end argument other than the falsy empty string — `None` or any
nonempty string, whether it names a vertex or not — the explicit-stack
iterative dfs of `ud_graph.py` returns exactly the same list as the recursive
dfs of `undirected_graph_search_algos.py`, in the same order. -/
theorem c10_dfs_refinement (g : UG.UndirectedGraph) (hwf : UG.WF g) (v : Label)
    (e : Option Label) (he : e ≠ some []) :
    UDG.dfs g v e = UG.dfs g v e := by
  cases e with
  | none => exact UDG.dfs_eq_rec hwf v
  | some e2 =>
    refine UDG.dfs_eq_recE hwf v e2 ?_
    intro hh
    rw [hh] at he
    exact he rfl

/-- Witness: the C10 equivalence theorem applied to the graph `{A, B, C}`
with edge `A-B`, start `A`, and the present end `B` as well as the end
`None`; the truthy run computes `[A, B]` on both sides. -/
theorem c10_witness :
    UG.WF gABC ∧ (some ['B'] : Option Label) ≠ some [] ∧
    UDG.dfs gABC ['A'] (some ['B']) = UG.dfs gABC ['A'] (some ['B']) ∧
    UDG.dfs gABC ['A'] none = UG.dfs gABC ['A'] none ∧
    UDG.dfs gABC ['A'] (some ['B']) = some [['A'], ['B']] :=
  ⟨UG.wf_runOps _, by decide,
    c10_dfs_refinement gABC (UG.wf_runOps _) ['A'] (some ['B']) (by decide),
    c10_dfs_refinement gABC (UG.wf_runOps _) ['A'] none (by decide), rfl⟩
